import Mathlib

set_option maxHeartbeats 1000000

/-!
Verification of the algorithmic core of the `my-ml-repo` repository: the three
instrumented-replay tracers (KMP failure-table builder, KMP search, Kosaraju
SCC decomposition).  Each definition below is a shallow embedding of the
corresponding TypeScript function; machine numbers are modelled as `Nat`/`Int`
(all arithmetic in the source stays far from any overflow), JS arrays as
`List`, and the JS runtime failure on an out-of-range array write as `Option`.
`while` loops are modelled by structural recursion on an explicit iteration
counter while keeping the source's loop guard; every use supplies a counter
large enough that the guard, not the counter, ends the loop (proved below),
so the embedding agrees with the source on every actually-executed path.
-/

namespace MLRepo

/-- `displayChar` from `KmpSearchDemo.tsx` / `KmpFailureTableDemo.tsx`:
`(char) => (char === " " ? "[space]" : char)`. -/
def displayChar (c : Char) : String :=
  if c = ' ' then "[space]" else String.singleton c

/-! ## Failure table (`buildFailureTable` in `KmpSearchDemo.tsx`) -/

/-- The inner `while (j >= 0 && chars[i] !== chars[j]) j = b[j]` loop of
`buildFailureTable`.  `c` is `chars[i]`; `fuel` bounds the iteration count
(the caller always passes enough, see the fuel lemmas below). -/
def ftFb (chars : List Char) (c : Char) (b : List Int) : Nat → Int → Int
  | 0, j => j
  | fuel+1, j =>
    if 0 ≤ j ∧ c ≠ chars.getD j.toNat default then
      ftFb chars c b fuel (b.getD j.toNat 0)
    else j

/-- The outer `while (i < m)` loop of `buildFailureTable`.  One iteration:
run the fallback loop, then `i += 1; j += 1; b[i] = j`. -/
def ftLoop (chars : List Char) (m : Nat) : Nat → Nat → Int → List Int → List Int
  | 0, _, _, b => b
  | k+1, i, j, b =>
    if i < m then
      let j1 := ftFb chars (chars.getD i default) b (m + 1) j
      ftLoop chars m k (i + 1) (j1 + 1) (b.set (i + 1) (j1 + 1))
    else b

/-- `buildFailureTable(pattern)` from `KmpSearchDemo.tsx`: the classic KMP
border table with sentinel `b[0] = -1`, length `m + 1`. -/
def buildFailureTable (pattern : List Char) : List Int :=
  let m := pattern.length
  let b := (List.replicate (m + 1) (0 : Int)).set 0 (-1)
  ftLoop pattern m m 0 (-1) b

/-! ## Failure-table tracer (`buildFailureEvents` in `KmpFailureTableDemo.tsx`) -/

/-- The `type` tag of a failure-table tracer event. -/
inductive FEKind | init | compare | fallback | set
deriving DecidableEq, Repr

/-- One event of the failure-table tracer (`FailureEvent` in
`KmpFailureTableDemo.tsx`).  `etype` is the source's `type` field and
`matched` the source's `match` field, `matchList` below is the source's
`matches` (renamed: Lean keywords). -/
structure FailureEvent where
  etype : FEKind
  iIndex : Int
  jIndex : Int
  setIndex : Option Nat
  nextJ : Option Int
  matched : Option Bool
  filledUntil : Nat
  b : List Int
  note : String
deriving DecidableEq, Repr

/-- The `compare`-mismatch event of `buildFailureEvents`'s inner loop. -/
def feMisEv (i : Nat) (j : Int) (fu : Nat) (b : List Int) : FailureEvent :=
  { etype := .compare, iIndex := (i : Int), jIndex := j, setIndex := none,
    nextJ := none, matched := some false, filledUntil := fu,
    b := b, note := s!"Compare pattern[{i}] and pattern[{j}]: mismatch." }

/-- The `fallback` event of `buildFailureEvents`'s inner loop. -/
def feFbEv (i : Nat) (j nextJ : Int) (fu : Nat) (b : List Int) : FailureEvent :=
  { etype := .fallback, iIndex := (i : Int), jIndex := j, setIndex := none,
    nextJ := some nextJ, matched := none, filledUntil := fu,
    b := b, note := s!"Fallback j from {j} to b[{j}] = {nextJ}." }

/-- The `compare`-match event of `buildFailureEvents`'s outer loop. -/
def feCmpEv (i : Nat) (j1 : Int) (fu : Nat) (b : List Int) : FailureEvent :=
  { etype := .compare, iIndex := (i : Int), jIndex := j1,
    setIndex := none, nextJ := none, matched := some true,
    filledUntil := fu, b := b,
    note := s!"Compare pattern[{i}] and pattern[{j1}]: match." }

/-- The `set` event of `buildFailureEvents`'s outer loop. -/
def feSetEv (i2 : Nat) (j2 : Int) (b2 : List Int) : FailureEvent :=
  { etype := .set, iIndex := (i2 : Int), jIndex := j2,
    setIndex := some i2, nextJ := none, matched := none,
    filledUntil := i2, b := b2,
    note := s!"Advance to i={i2}, j={j2}. Set b[{i2}] = {j2}." }

/-- Inner mismatch/fallback loop of `buildFailureEvents`: each iteration
pushes a `compare` (mismatch) event and a `fallback` event, then sets
`j = b[j]`. -/
def feFb (chars : List Char) (i : Nat) (filledUntil : Nat) (b : List Int) :
    Nat → Int → List FailureEvent → Int × List FailureEvent
  | 0, j, evs => (j, evs)
  | fuel+1, j, evs =>
    if 0 ≤ j ∧ chars.getD i default ≠ chars.getD j.toNat default then
      let nextJ := b.getD j.toNat 0
      feFb chars i filledUntil b fuel nextJ
        (evs ++ [feMisEv i j filledUntil b, feFbEv i j nextJ filledUntil b])
    else (j, evs)

/-- Outer `while (i < m)` loop of `buildFailureEvents`. -/
def feLoop (chars : List Char) (m : Nat) :
    Nat → Nat → Int → Nat → List Int → List FailureEvent → List FailureEvent
  | 0, _, _, _, _, evs => evs
  | k+1, i, j, filledUntil, b, evs =>
    if i < m then
      let r1 := feFb chars i filledUntil b (m + 1) j evs
      let j1 := r1.1
      let evs1 := r1.2
      let evs2 := if 0 ≤ j1 then evs1 ++ [feCmpEv i j1 filledUntil b] else evs1
      let i2 := i + 1
      let j2 := j1 + 1
      let b2 := b.set i2 j2
      let evs3 := evs2 ++ [feSetEv i2 j2 b2]
      feLoop chars m k i2 j2 i2 b2 evs3
    else evs

/-- `buildFailureEvents(pattern)` from `KmpFailureTableDemo.tsx`: returns the
character list and the full event trace (the final event's `b` is the
finished failure table). -/
def feInitEv (b : List Int) : FailureEvent :=
  { etype := .init, iIndex := -1, jIndex := -1, setIndex := none,
    nextJ := none, matched := none, filledUntil := 0, b := b,
    note := "Set b[0] = -1. Start with i=0, j=-1." }

def buildFailureEvents (pattern : List Char) : List Char × List FailureEvent :=
  let chars := pattern
  let m := chars.length
  let b := (List.replicate (m + 1) (0 : Int)).set 0 (-1)
  (chars, feLoop chars m m 0 (-1) 0 b [feInitEv b])

/-! ## Search tracer (`buildSearchEvents` in `KmpSearchDemo.tsx`) -/

/-- The `type` tag of a search tracer event. -/
inductive SEKind | init | compare | fallback | advance | found
deriving DecidableEq, Repr

/-- One event of the search tracer (`SearchEvent` in `KmpSearchDemo.tsx`);
`etype`/`matched`/`matchList` rename the source's `type`/`match`/`matches`
(Lean keywords). -/
structure SearchEvent where
  etype : SEKind
  textIndex : Nat
  patternIndex : Int
  prevPatternIndex : Option Int
  matched : Option Bool
  matchIndex : Option Nat
  matchList : List Nat
  note : String
deriving DecidableEq, Repr

/-- The `compare`-mismatch event of `buildSearchEvents`'s inner loop. -/
def seMisEv (tc pc : List Char) (i : Nat) (j : Int) (ms : List Nat) :
    SearchEvent :=
  { etype := .compare, textIndex := i, patternIndex := j,
    prevPatternIndex := none, matched := some false, matchIndex := none,
    matchList := ms,
    note := s!"Compare text[{i}]={displayChar (tc.getD i default)} and pattern[{j}]={displayChar (pc.getD j.toNat default)}: mismatch." }

/-- The `fallback` event of `buildSearchEvents`'s inner loop. -/
def seFbEv (i : Nat) (j nextJ : Int) (ms : List Nat) : SearchEvent :=
  { etype := .fallback, textIndex := i, patternIndex := nextJ,
    prevPatternIndex := some j, matched := none, matchIndex := none,
    matchList := ms,
    note := s!"Fallback j from {j} to b[{j}] = {nextJ}." }

/-- The `compare`-match event of `buildSearchEvents`'s outer loop. -/
def seCmpEv (tc pc : List Char) (i : Nat) (j1 : Int) (ms : List Nat) :
    SearchEvent :=
  { etype := .compare, textIndex := i, patternIndex := j1,
    prevPatternIndex := none, matched := some true, matchIndex := none,
    matchList := ms,
    note := s!"Compare text[{i}]={displayChar (tc.getD i default)} and pattern[{j1}]={displayChar (pc.getD j1.toNat default)}: match." }

/-- The `advance` event of `buildSearchEvents`. -/
def seAdvEv (i2 : Nat) (j2 : Int) (ms : List Nat) : SearchEvent :=
  { etype := .advance, textIndex := i2,
    patternIndex := j2, prevPatternIndex := none, matched := none,
    matchIndex := none, matchList := ms,
    note := s!"Advance to i={i2}, j={j2}." }

/-- The `found` event of `buildSearchEvents`. -/
def seFoundEv (i2 : Nat) (j2 : Int) (matchIndex : Nat) (ms2 : List Nat) :
    SearchEvent :=
  { etype := .found, textIndex := i2,
    patternIndex := j2, prevPatternIndex := none, matched := none,
    matchIndex := some matchIndex, matchList := ms2,
    note := s!"Found match starting at index {matchIndex}." }

/-- The post-`found` `fallback` event of `buildSearchEvents`. -/
def seFoundFbEv (i2 : Nat) (j2 nextJ : Int) (ms2 : List Nat) : SearchEvent :=
  { etype := .fallback, textIndex := i2,
    patternIndex := nextJ, prevPatternIndex := some j2, matched := none,
    matchIndex := none, matchList := ms2,
    note := s!"Continue with j = b[{j2}] = {nextJ}." }

/-- Inner mismatch/fallback loop of `buildSearchEvents`. -/
def seFb (tc pc : List Char) (b : List Int) (i : Nat) (ms : List Nat) :
    Nat → Int → List SearchEvent → Int × List SearchEvent
  | 0, j, evs => (j, evs)
  | fuel+1, j, evs =>
    if 0 ≤ j ∧ tc.getD i default ≠ pc.getD j.toNat default then
      let nextJ := b.getD j.toNat 0
      seFb tc pc b i ms fuel nextJ
        (evs ++ [seMisEv tc pc i j ms, seFbEv i j nextJ ms])
    else (j, evs)

/-- Outer `while (i < n)` loop of `buildSearchEvents`; returns the final
match list together with the event trace. -/
def seLoop (tc pc : List Char) (b : List Int) (n m : Nat) :
    Nat → Nat → Int → List Nat → List SearchEvent → List Nat × List SearchEvent
  | 0, _, _, ms, evs => (ms, evs)
  | k+1, i, j, ms, evs =>
    if i < n then
      let r1 := seFb tc pc b i ms (m + 1) j evs
      let j1 := r1.1
      let evs1 := r1.2
      let evs2 := if 0 ≤ j1 then evs1 ++ [seCmpEv tc pc i j1 ms] else evs1
      let i2 := i + 1
      let j2 := j1 + 1
      let evs3 := evs2 ++ [seAdvEv i2 j2 ms]
      if j2 = (m : Int) then
        -- `const matchIndex = i - j` with the updated `i` and `j = m` here
        let matchIndex := i2 - m
        let ms2 := ms ++ [matchIndex]
        let evs4 := evs3 ++ [seFoundEv i2 j2 matchIndex ms2]
        let nextJ := b.getD j2.toNat 0
        let evs5 := evs4 ++ [seFoundFbEv i2 j2 nextJ ms2]
        seLoop tc pc b n m k i2 nextJ ms2 evs5
      else
        seLoop tc pc b n m k i2 j2 ms evs3
    else (ms, evs)

/-- `buildSearchEvents(text, pattern)` from `KmpSearchDemo.tsx`: returns the
event trace and the failure table; the final event's `matches` is the full
match list. -/
def seInitEv : SearchEvent :=
  { etype := .init, textIndex := 0, patternIndex := 0,
    prevPatternIndex := none, matched := none, matchIndex := none,
    matchList := [], note := "Start at i=0, j=0." }

def buildSearchEvents (text pattern : List Char) :
    List SearchEvent × List Int :=
  let tc := text
  let pc := pattern
  let n := tc.length
  let m := pc.length
  let b := buildFailureTable pattern
  if n = 0 ∨ m = 0 then ([seInitEv], b)
  else ((seLoop tc pc b n m n 0 0 [] [seInitEv]).2, b)

/-- A default event, used only to state facts about `getLastD`. -/
def seDefault : SearchEvent :=
  { etype := .init, textIndex := 0, patternIndex := 0,
    prevPatternIndex := none, matched := none, matchIndex := none,
    matchList := [], note := "" }

/-- A default failure event, used only to state facts about `getLastD`. -/
def feDefault : FailureEvent :=
  { etype := .init, iIndex := 0, jIndex := 0, setIndex := none,
    nextJ := none, matched := none, filledUntil := 0, b := [], note := "" }

/-- The match list of the final frame of the search tracer. -/
def finalMatches (text pattern : List Char) : List Nat :=
  (((buildSearchEvents text pattern).1).getLastD seDefault).matchList

-- Sanity checks against the spec's concrete scenarios.
example : buildFailureTable "ABABC".toList = [-1, 0, 0, 1, 2, 0] := by decide
example : finalMatches "ABABDABABCABAB".toList "ABABC".toList = [5] := by
  decide
example : finalMatches "AAAA".toList "AA".toList = [0, 1, 2] := by decide
example :
    ((buildFailureEvents "ABABC".toList).2.getLastD feDefault).b =
      [-1, 0, 0, 1, 2, 0] := by decide

/-! ## Kosaraju SCC tracer (`KosarajuSccDemo`, source file `part_004`) -/

/-- The `phase` field of a Kosaraju frame. -/
inductive KPhase | pass1 | rev | pass2 | done
deriving DecidableEq, Repr

/-- One frame of the SCC tracer (`Frame` in the Kosaraju component); the
source's `"reverse"` phase is `KPhase.rev` here. -/
structure KFrame where
  phase : KPhase
  note : String
  activeNode : Option Nat
  activeEdge : Option (Nat × Nat)
  stack : List Nat
  visited1 : List Bool
  finishOrder : List Nat
  visited2 : List Bool
  sccs : List (List Nat)
  currentComponent : List Nat
  order : List Nat
  orderIndex : Int
deriving DecidableEq, Repr

/-- The mutable state captured by `buildFrames`'s closures, plus the list of
frames pushed so far. -/
structure KState where
  visited1 : List Bool
  visited2 : List Bool
  finishOrder : List Nat
  sccs : List (List Nat)
  currentComponent : List Nat
  stack : List Nat
  phase : KPhase
  activeNode : Option Nat
  activeEdge : Option (Nat × Nat)
  order : List Nat
  orderIndex : Int
  frames : List KFrame
deriving DecidableEq, Repr

/-- `pushFrame` from `buildFrames`: append a frame copying every piece of
current state (the source spreads/maps each array, so the frame is a value
snapshot). -/
def pushFrame (st : KState) (note : String) : KState :=
  { st with frames := st.frames ++
      [{ phase := st.phase, note := note, activeNode := st.activeNode,
         activeEdge := st.activeEdge, stack := st.stack,
         visited1 := st.visited1, finishOrder := st.finishOrder,
         visited2 := st.visited2, sccs := st.sccs,
         currentComponent := st.currentComponent, order := st.order,
         orderIndex := st.orderIndex }] }

/-- `label` from `buildFrames`: `preset.nodes[index] ?? String(index)`. -/
def klabel (nodes : List String) (i : Nat) : String :=
  nodes.getD i (toString i)

/-- The edge loop of `buildAdjacency`: `adj[from].push(to)`, processing
edges in order and failing on the first out-of-range `from`. -/
def buildAdjacencyGo (n : Nat) :
    List (Nat × Nat) → List (List Nat) → Option (List (List Nat))
  | [], adj => some adj
  | e :: rest, adj =>
    if e.1 < n then
      buildAdjacencyGo n rest (adj.set e.1 (adj.getD e.1 [] ++ [e.2]))
    else none

/-- `buildAdjacency(n, edges)` from the Kosaraju component.  The source does
`adj[from].push(to)` with no bounds check: when `from` lies outside
`[0, n)` the JS runtime throws (reading `.push` of `undefined`) before any
frame exists; that failure is modelled as `none`.  The `to` endpoint is not
inspected. -/
def buildAdjacency (n : Nat) (edges : List (Nat × Nat)) :
    Option (List (List Nat)) :=
  buildAdjacencyGo n edges (List.replicate n [])

/-- `reverseEdges(edges)`: flip every edge. -/
def reverseEdges (edges : List (Nat × Nat)) : List (Nat × Nat) :=
  edges.map (fun e => (e.2, e.1))

/-- `dfs1` from `buildFrames` (pass 1): mark, push the visit frame, walk the
adjacency list pushing an edge frame per neighbour and recursing into
unvisited ones, then pop the stack, append to `finishOrder` and push the
finish frame.  `fuel` bounds the recursion depth; every use supplies enough
(`n` suffices, proved below). -/
def dfs1 (nodes : List String) (adj : List (List Nat)) :
    Nat → Nat → KState → KState
  | 0, _, st => st
  | fuel+1, node, st =>
    let st1 : KState :=
      { st with visited1 := st.visited1.set node true,
                stack := st.stack ++ [node],
                activeNode := some node, activeEdge := none }
    let st2 := pushFrame st1 s!"Pass 1: visit {klabel nodes node}."
    let st3 := (adj.getD node []).foldl
      (fun s next =>
        let s1 : KState :=
          { s with activeEdge := some (node, next), activeNode := some node }
        let s2 := pushFrame s1
          s!"Pass 1: follow edge {klabel nodes node} -> {klabel nodes next}."
        if s2.visited1.getD next false then s2
        else dfs1 nodes adj fuel next s2)
      st2
    let st4 : KState :=
      { st3 with stack := st3.stack.dropLast,
                 finishOrder := st3.finishOrder ++ [node],
                 activeNode := some node, activeEdge := none }
    pushFrame st4 s!"Pass 1: finish {klabel nodes node} and push to order."

/-- The neighbour loop of `dfs1`, restated as a standalone function over the
remaining neighbour list (definitionally the `foldl` inside `dfs1`). -/
def dfs1nb (nodes : List String) (adj : List (List Nat)) (fuel : Nat)
    (node : Nat) (ns : List Nat) (st : KState) : KState :=
  ns.foldl
    (fun s next =>
      let s1 : KState :=
        { s with activeEdge := some (node, next), activeNode := some node }
      let s2 := pushFrame s1
        s!"Pass 1: follow edge {klabel nodes node} -> {klabel nodes next}."
      if s2.visited1.getD next false then s2
      else dfs1 nodes adj fuel next s2)
    st

/-- `dfs2` from `buildFrames` (pass 2, on the reversed adjacency): mark,
extend `currentComponent`, push frames analogously. -/
def dfs2 (nodes : List String) (radj : List (List Nat)) :
    Nat → Nat → KState → KState
  | 0, _, st => st
  | fuel+1, start, st =>
    let st1 : KState :=
      { st with visited2 := st.visited2.set start true,
                currentComponent := st.currentComponent ++ [start],
                stack := st.stack ++ [start],
                activeNode := some start, activeEdge := none }
    let st2 := pushFrame st1 s!"Pass 2: add {klabel nodes start} to current SCC."
    let st3 := (radj.getD start []).foldl
      (fun s next =>
        let s1 : KState :=
          { s with activeEdge := some (start, next), activeNode := some start }
        let s2 := pushFrame s1
          s!"Pass 2: follow reversed edge {klabel nodes start} -> {klabel nodes next}."
        if s2.visited2.getD next false then s2
        else dfs2 nodes radj fuel next s2)
      st2
    let st4 : KState :=
      { st3 with stack := st3.stack.dropLast,
                 activeNode := some start, activeEdge := none }
    pushFrame st4 s!"Pass 2: finish {klabel nodes start} in this SCC."

/-- The neighbour loop of `dfs2` as a standalone function. -/
def dfs2nb (nodes : List String) (radj : List (List Nat)) (fuel : Nat)
    (start : Nat) (ns : List Nat) (st : KState) : KState :=
  ns.foldl
    (fun s next =>
      let s1 : KState :=
        { s with activeEdge := some (start, next), activeNode := some start }
      let s2 := pushFrame s1
        s!"Pass 2: follow reversed edge {klabel nodes start} -> {klabel nodes next}."
      if s2.visited2.getD next false then s2
      else dfs2 nodes radj fuel next s2)
    st

/-- The pass-1 top-level loop `for (i = 0; i < n; i++) if (!visited1[i]) …`,
as a recursion over the remaining list of roots (`List.range n`). -/
def pass1Go (nodes : List String) (adj : List (List Nat)) (fuel : Nat) :
    List Nat → KState → KState
  | [], st => st
  | i :: rest, st =>
    if st.visited1.getD i false then pass1Go nodes adj fuel rest st
    else
      let st1 : KState := { st with activeNode := some i, activeEdge := none }
      let st2 := pushFrame st1 s!"Pass 1: start DFS from {klabel nodes i}."
      pass1Go nodes adj fuel rest (dfs1 nodes adj fuel i st2)

/-- The pass-2 loop `order.forEach((node, index) => …)`, as a recursion over
the remaining order suffix carrying the running index. -/
def pass2Go (nodes : List String) (radj : List (List Nat)) (fuel : Nat) :
    List Nat → Nat → KState → KState
  | [], _, st => st
  | node :: rest, index, st =>
    let st0 : KState := { st with orderIndex := (index : Int) }
    if st0.visited2.getD node false then
      let st1 : KState := { st0 with activeNode := some node, activeEdge := none }
      let st2 := pushFrame st1 s!"Pass 2: {klabel nodes node} already assigned, skip."
      pass2Go nodes radj fuel rest (index + 1) st2
    else
      let st1 : KState :=
        { st0 with currentComponent := [], stack := [],
                   activeNode := some node, activeEdge := none }
      let st2 := pushFrame st1 s!"Pass 2: start new SCC from {klabel nodes node}."
      let st3 := dfs2 nodes radj fuel node st2
      let st4 : KState :=
        { st3 with sccs := st3.sccs ++ [st3.currentComponent], stack := [],
                   activeNode := some node, activeEdge := none }
      let cc := String.intercalate ", " (st3.currentComponent.map (klabel nodes))
      let k := st4.sccs.length
      let st5 := pushFrame st4 s!"Pass 2: complete SCC #{k}: {cc}."
      pass2Go nodes radj fuel rest (index + 1) st5

/-- The initial state of `buildFrames`. -/
def kInit (n : Nat) : KState :=
  { visited1 := List.replicate n false, visited2 := List.replicate n false,
    finishOrder := [], sccs := [], currentComponent := [], stack := [],
    phase := .pass1, activeNode := none, activeEdge := none, order := [],
    orderIndex := -1, frames := [] }

/-- `buildFrames(preset)` with an explicit recursion-depth bound `fuel`
(`buildFrames` below instantiates it with `n`, which always suffices).
Returns `none` exactly when one of the two adjacency constructions fails
(out-of-range edge endpoint) — in the source a thrown `TypeError` before any
frame is created. -/
def buildFramesCore (nodes : List String) (edges : List (Nat × Nat))
    (fuel : Nat) : Option (List KFrame × List (Nat × Nat)) :=
  let n := nodes.length
  let reversedEdges := reverseEdges edges
  match buildAdjacency n edges, buildAdjacency n reversedEdges with
  | some adj, some radj =>
    let stA := pass1Go nodes adj fuel (List.range n) (kInit n)
    let ordr := stA.finishOrder.reverse
    let stB : KState :=
      { stA with phase := .rev, order := ordr, stack := [],
                 activeNode := none, activeEdge := none, orderIndex := -1 }
    let ordStr := String.intercalate ", " (ordr.map (klabel nodes))
    let stC := pushFrame stB
      s!"Reverse graph and process nodes by finish order: {ordStr}."
    let stD : KState := { stC with phase := .pass2 }
    let stE := pass2Go nodes radj fuel ordr 0 stD
    let stF : KState :=
      { stE with phase := .done, activeNode := none, activeEdge := none,
                 stack := [], orderIndex := (ordr.length : Int) - 1 }
    let stG := pushFrame stF s!"All SCCs discovered. Total: {stF.sccs.length}."
    some (stG.frames, reversedEdges)
  | _, _ => none

/-- `buildFrames(preset)` from the Kosaraju component. -/
def buildFrames (nodes : List String) (edges : List (Nat × Nat)) :
    Option (List KFrame × List (Nat × Nat)) :=
  buildFramesCore nodes edges nodes.length

/-- A default frame, used only to state facts about `getLastD`. -/
def kfDefault : KFrame :=
  { phase := .pass1, note := "", activeNode := none, activeEdge := none,
    stack := [], visited1 := [], finishOrder := [], visited2 := [],
    sccs := [], currentComponent := [], order := [], orderIndex := -1 }

/-- The component list of the final frame of a (successful) SCC tracer run. -/
def finalSccs (nodes : List String) (edges : List (Nat × Nat)) :
    List (List Nat) :=
  match buildFrames nodes edges with
  | some (frames, _) => (frames.getLastD kfDefault).sccs
  | none => []

-- The spec's concrete scenario: the "bridge" preset decomposes into
-- {A,B,C} and {D,E,F}.
example :
    finalSccs ["A", "B", "C", "D", "E", "F"]
      [(0,1), (1,2), (2,0), (2,3), (3,4), (4,5), (5,3)] =
      [[0, 2, 1], [3, 5, 4]] := by decide

-- Zero-edge graphs: singleton components, completed in descending order.
example : finalSccs ["A", "B"] [] = [[1], [0]] := by decide

-- An out-of-range `from` endpoint fails before any computation.
example : buildFrames ["A", "B"] [(2, 0)] = none := by decide

-- An out-of-range `to` endpoint also fails (via the reversed adjacency).
example : buildFrames ["A", "B"] [(0, 2)] = none := by decide

-- Self-loops terminate and keep the node in its own component.
example : finalSccs ["A", "B"] [(0, 0), (0, 1)] = [[0], [1]] := by decide

/-! ## Specification-side notions (borders, occurrences) -/

/-- Entry `k` of a JS number array holding the failure table (reads beyond
the array are never performed by the algorithm; `0` is an arbitrary
default). -/
def bget (b : List Int) (k : Nat) : Int := b.getD k 0

/-- `k` is the length of a proper border of the length-`i` prefix of `p`:
the length-`k` prefix of `p` (which is also the length-`k` prefix of
`p.take i`) is a suffix of `p.take i`, and `k < i`. -/
def Bord (p : List Char) (k i : Nat) : Prop :=
  k < i ∧ i ≤ p.length ∧ p.take k <:+ p.take i

instance (p : List Char) (k i : Nat) : Decidable (Bord p k i) := by
  unfold Bord; infer_instance

/-- The length of the longest proper border of the length-`i` prefix of
`p` (`0` when `i = 0`, where no proper border exists). -/
def bord (p : List Char) (i : Nat) : Nat :=
  Nat.findGreatest (fun k => Bord p k i) (i - 1)

/-- `pattern` occurs in `text` starting at index `s`
(`text[s : s+len(pattern)] == pattern`). -/
def occAt (t p : List Char) (s : Nat) : Prop :=
  (t.drop s).take p.length = p

instance (t p : List Char) (s : Nat) : Decidable (occAt t p s) := by
  unfold occAt; infer_instance

/-- All starting indices of occurrences of `p` in `t`, in ascending order. -/
def occList (t p : List Char) : List Nat :=
  (List.range (t.length + 1)).filter (fun s => decide (occAt t p s))

/-- `k` characters of `p` are matched ending at text position `i`: the
length-`k` prefix of `p` is a suffix of `t.take i`. -/
def TMatch (t p : List Char) (k i : Nat) : Prop :=
  k ≤ p.length ∧ p.take k <:+ t.take i

/-- Starting indices of the occurrences of `p` whose end position is at most
`I`, in ascending order of end position. -/
def occEndsUpTo (t p : List Char) (I : Nat) : List Nat :=
  (List.range (I + 1)).filterMap
    (fun e => if p.length ≤ e ∧ p <:+ t.take e then some (e - p.length)
              else none)

/-- The invariant tying a search-tracer event list to the current match
list `ms`: every event's match-list snapshot is a prefix of `ms` and is
sorted, snapshots grow along the trace, exactly one `found` event exists
per match, and the last event holds `ms` itself. -/
def seEvsOk (ms : List Nat) (evs : List SearchEvent) : Prop :=
  (∀ e ∈ evs, e.matchList <+: ms) ∧
  (∀ e ∈ evs, e.matchList.Sorted (· < ·)) ∧
  List.Pairwise (fun a b => a.matchList <+: b.matchList) evs ∧
  evs.countP (fun e => decide (e.etype = SEKind.found)) = ms.length ∧
  (evs.getLastD seDefault).matchList = ms

/-- The invariant of a single failure-tracer event: its `b` snapshot has full
length, sentinel `-1`, final (border) values up to `filledUntil` and the
placeholder `0` beyond it. -/
def feGood (p : List Char) (e : FailureEvent) : Prop :=
  e.b.length = p.length + 1 ∧ bget e.b 0 = -1 ∧ e.filledUntil ≤ p.length ∧
  (∀ t, 1 ≤ t → t ≤ e.filledUntil → bget e.b t = (bord p t : Int)) ∧
  (∀ t, e.filledUntil < t → t ≤ p.length → bget e.b t = 0)

/-! ## Specification-side notions (graphs) -/

/-- Edge relation given by an edge list: `(a, b)` is a forward edge. -/
def ER (edges : List (Nat × Nat)) (a b : Nat) : Prop := (a, b) ∈ edges

/-- Reachability along forward edges of the edge list. -/
def ReachE (edges : List (Nat × Nat)) : Nat → Nat → Prop :=
  Relation.ReflTransGen (ER edges)

/-- Edge relation given by an adjacency list. -/
def EA (adj : List (List Nat)) (a b : Nat) : Prop := b ∈ adj.getD a []

/-- Reachability along adjacency-list edges. -/
def ReachA (adj : List (List Nat)) : Nat → Nat → Prop :=
  Relation.ReflTransGen (EA adj)

/-- Mutual reachability (the strongly-connected relation). -/
def MutA (adj : List (List Nat)) (u v : Nat) : Prop :=
  ReachA adj u v ∧ ReachA adj v u

/-- Reachability whose every step lands outside the visited set `V` (the
nodes a DFS started at `u` still explores when `V` is already visited). -/
def RAvoid (adj : List (List Nat)) (V : Nat → Prop) : Nat → Nat → Prop :=
  Relation.ReflTransGen (fun a b => EA adj a b ∧ ¬ V b)

/-- Node `x` is marked in the pass-1 visited array. -/
def vis1 (st : KState) (x : Nat) : Prop := st.visited1.getD x false = true

/-- Node `x` is marked in the pass-2 visited array. -/
def vis2 (st : KState) (x : Nat) : Prop := st.visited2.getD x false = true

/-- Number of pass-1 unvisited slots (the DFS recursion measure). -/
def unvis1 (st : KState) : Nat := st.visited1.count false

/-- Number of pass-2 unvisited slots. -/
def unvis2 (st : KState) : Nat := st.visited2.count false

/-- The pass-1 invariant that holds at every `dfs1` call boundary: visited
nodes are exactly the finished ones plus the grey stack, both duplicate-free
and disjoint; every finished node's successors are visited; and the key
ordering invariant: whatever a finished node `u` reaches is either already
finished no later than some finished member of `u`'s strong component, or
`u`'s strong component still owns a grey node. -/
structure P1Inv (n : Nat) (adj : List (List Nat)) (st : KState) : Prop where
  vlen : st.visited1.length = n
  viff : ∀ x, vis1 st x ↔ (x ∈ st.finishOrder ∨ x ∈ st.stack)
  disj : ∀ x ∈ st.finishOrder, x ∉ st.stack
  fnd : st.finishOrder.Nodup
  snd : st.stack.Nodup
  closed : ∀ x ∈ st.finishOrder, ∀ y, EA adj x y → vis1 st y
  kinv : ∀ u ∈ st.finishOrder, ∀ v, ReachA adj u v →
      (v ∈ st.finishOrder ∧ ∃ w ∈ st.finishOrder, MutA adj u w ∧
        st.finishOrder.indexOf v ≤ st.finishOrder.indexOf w)
    ∨ (∃ g ∈ st.stack, MutA adj u g)

/-- The postcondition of one pass-1 DFS call from `x`: the stack is
restored, the nodes reachable from `x` while avoiding the previously
visited set are appended to the finish order (with `x` last) and marked
visited, and nothing else changes. -/
structure D1Post (nodes : List String) (adj : List (List Nat)) (x : Nat)
    (st st' : KState) (L : List Nat) : Prop where
  fo : st'.finishOrder = st.finishOrder ++ L
  stk : st'.stack = st.stack
  vlen : st'.visited1.length = st.visited1.length
  vnew : ∀ t, vis1 st' t ↔ (vis1 st t ∨ t ∈ L)
  lra : ∀ t, t ∈ L ↔ RAvoid adj (vis1 st) x t
  lnd : L.Nodup
  llast : L.getLast? = some x
  mu : unvis1 st' + L.length = unvis1 st
  same : ∀ fuel₂ : Nat, unvis1 st ≤ fuel₂ →
    dfs1 nodes adj fuel₂ x st = st'
  v2 : st'.visited2 = st.visited2
  sccs_eq : st'.sccs = st.sccs
  cc : st'.currentComponent = st.currentComponent
  ord : st'.order = st.order

/-- The postcondition of one pass-2 DFS call from `x` on the reversed
adjacency: the nodes reachable from `x` avoiding the previously visited
set are appended to the current component and marked, every collected
node's successors end up visited, and nothing else changes. -/
structure D2Post (nodes : List String) (radj : List (List Nat)) (x : Nat)
    (st st' : KState) (M : List Nat) : Prop where
  cc : st'.currentComponent = st.currentComponent ++ M
  stk : st'.stack = st.stack
  vlen : st'.visited2.length = st.visited2.length
  vnew : ∀ t, vis2 st' t ↔ (vis2 st t ∨ t ∈ M)
  mra : ∀ t, t ∈ M ↔ RAvoid radj (vis2 st) x t
  mnd : M.Nodup
  closed2 : ∀ m ∈ M, ∀ q, EA radj m q → vis2 st' q
  mu : unvis2 st' + M.length = unvis2 st
  same : ∀ fuel₂ : Nat, unvis2 st ≤ fuel₂ →
    dfs2 nodes radj fuel₂ x st = st'
  v1 : st'.visited1 = st.visited1
  fo : st'.finishOrder = st.finishOrder
  sccs_eq : st'.sccs = st.sccs
  ord : st'.order = st.order

/-- The postcondition of the pass-1 neighbour loop over `ns` from `s`. -/
structure D1NbPost (nodes : List String) (adj : List (List Nat)) (x : Nat)
    (ns : List Nat) (s s' : KState) (Lnb : List Nat) : Prop where
  fo : s'.finishOrder = s.finishOrder ++ Lnb
  stk : s'.stack = s.stack
  vlen : s'.visited1.length = s.visited1.length
  vnew : ∀ t, vis1 s' t ↔ (vis1 s t ∨ t ∈ Lnb)
  lsub : ∀ t ∈ Lnb, ∃ v ∈ ns, ¬ vis1 s v ∧ RAvoid adj (vis1 s) v t
  lnd : Lnb.Nodup
  nbvis : ∀ v ∈ ns, vis1 s' v
  mu : unvis1 s' + Lnb.length = unvis1 s
  same : ∀ fuel₂ : Nat, unvis1 s ≤ fuel₂ →
    dfs1nb nodes adj fuel₂ x ns s = s'
  v2 : s'.visited2 = s.visited2
  sccs_eq : s'.sccs = s.sccs
  cc : s'.currentComponent = s.currentComponent
  ord : s'.order = s.order

/-- The postcondition of the pass-2 neighbour loop over `ns` from `s`. -/
structure D2NbPost (nodes : List String) (radj : List (List Nat)) (x : Nat)
    (ns : List Nat) (s s' : KState) (Mnb : List Nat) : Prop where
  cc : s'.currentComponent = s.currentComponent ++ Mnb
  stk : s'.stack = s.stack
  vlen : s'.visited2.length = s.visited2.length
  vnew : ∀ t, vis2 s' t ↔ (vis2 s t ∨ t ∈ Mnb)
  msub : ∀ t ∈ Mnb, ∃ v ∈ ns, ¬ vis2 s v ∧ RAvoid radj (vis2 s) v t
  mnd : Mnb.Nodup
  nbvis : ∀ v ∈ ns, vis2 s' v
  closed2 : ∀ m ∈ Mnb, ∀ q, EA radj m q → vis2 s' q
  mu : unvis2 s' + Mnb.length = unvis2 s
  same : ∀ fuel₂ : Nat, unvis2 s ≤ fuel₂ →
    dfs2nb nodes radj fuel₂ x ns s = s'
  v1 : s'.visited1 = s.visited1
  fo : s'.finishOrder = s.finishOrder
  sccs_eq : s'.sccs = s.sccs
  ord : s'.order = s.order

/-! # Theorems

## List and border groundwork -/

lemma suffix_of_suffix_length_le {α : Type} {l1 l2 l3 : List α}
    (h1 : l1 <:+ l3) (h2 : l2 <:+ l3) (h : l1.length ≤ l2.length) :
    l1 <:+ l2 := by
  rw [← List.reverse_prefix] at h1 h2 ⊢
  exact List.prefix_of_prefix_length_le h1 h2 (by simpa using h)

lemma concat_suffix_concat {α : Type} {a b : List α} {x y : α} :
    a ++ [x] <:+ b ++ [y] ↔ x = y ∧ a <:+ b := by
  rw [← List.reverse_prefix, List.reverse_append, List.reverse_append]
  simp [List.cons_prefix_cons, List.reverse_prefix]

/-- Extending a partial match by one character. -/
lemma take_succ_suffix_take_succ {p t : List Char} {k i : Nat}
    (hk : k < p.length) (hi : i < t.length) :
    p.take (k+1) <:+ t.take (i+1) ↔
      (p.take k <:+ t.take i ∧ p.getD k default = t.getD i default) := by
  have hp : p.take (k+1) = p.take k ++ [p.getD k default] := by
    rw [List.take_succ]
    simp [List.getElem?_eq_getElem hk, List.getD_eq_getElem?_getD]
  have ht : t.take (i+1) = t.take i ++ [t.getD i default] := by
    rw [List.take_succ]
    simp [List.getElem?_eq_getElem hi, List.getD_eq_getElem?_getD]
  rw [hp, ht, concat_suffix_concat, and_comm]

lemma bord_le (p : List Char) (i : Nat) : bord p i ≤ i - 1 :=
  Nat.findGreatest_le _

lemma bord_lt (p : List Char) {i : Nat} (hi : 1 ≤ i) : bord p i < i :=
  lt_of_le_of_lt (bord_le p i) (by omega)

lemma bord_isBord (p : List Char) {i : Nat} (h1 : 1 ≤ i)
    (h2 : i ≤ p.length) : Bord p (bord p i) i :=
  Nat.findGreatest_spec (P := fun k => Bord p k i) (Nat.zero_le _)
    ⟨h1, h2, by simp⟩

lemma bord_max (p : List Char) {k i : Nat} (h : Bord p k i) :
    k ≤ bord p i :=
  Nat.le_findGreatest (by have := h.1; omega) h

lemma Bord.trans {p : List Char} {k j i : Nat} (h1 : Bord p k j)
    (h2 : Bord p j i) : Bord p k i :=
  ⟨h1.1.trans h2.1, h2.2.1, h1.2.2.trans h2.2.2⟩

/-- Two partial matches ending at the same place compare as borders. -/
lemma bord_of_matches {p : List Char} {u : List Char} {k j : Nat}
    (hk : p.take k <:+ u) (hj : p.take j <:+ u) (hkj : k < j)
    (hjp : j ≤ p.length) : Bord p k j :=
  ⟨hkj, hjp, by
    have hlen : (p.take k).length ≤ (p.take j).length := by
      simp only [List.length_take]
      omega
    exact suffix_of_suffix_length_le hk hj hlen⟩

/-- The key recurrence: borders of the `(i+1)`-prefix of length `k+1` are
exactly extendable borders of the `i`-prefix. -/
lemma Bord_succ_iff {p : List Char} {k i : Nat} (hi : i < p.length) :
    Bord p (k+1) (i+1) ↔
      (Bord p k i ∧ p.getD k default = p.getD i default) := by
  constructor
  · rintro ⟨hlt, _, hsuf⟩
    have hk : k < i := by omega
    have := (take_succ_suffix_take_succ (p := p) (t := p)
      (by omega) hi).mp hsuf
    exact ⟨⟨hk, by omega, this.1⟩, this.2⟩
  · rintro ⟨⟨hlt, _, hsuf⟩, hc⟩
    refine ⟨by omega, by omega, ?_⟩
    exact (take_succ_suffix_take_succ (p := p) (t := p)
      (by omega) hi).mpr ⟨hsuf, hc⟩

lemma Bord_zero {p : List Char} {i : Nat} (h1 : 1 ≤ i) (h2 : i ≤ p.length) :
    Bord p 0 i := ⟨h1, h2, by simp⟩

/-! ## The fallback loop -/

lemma ftFb_neg (p : List Char) (c : Char) (b : List Int) :
    ∀ fuel, ftFb p c b fuel (-1) = -1 := by
  intro fuel
  cases fuel with
  | zero => rfl
  | succ fuel => simp [ftFb]

/-- Correctness of the fallback loop `while (j >= 0 && chars[j] != c) j = b[j]`,
generic in the predicate `Q` ("the length-`k` prefix of `p` matches here"):
starting from the largest `Q`-length, the loop returns the largest extendable
`Q`-length (or `-1` when there is none). -/
lemma ftFb_chain (p : List Char) (c : Char) (b : List Int) (Q : Nat → Prop)
    (hb0 : bget b 0 = -1)
    (hfill : ∀ k, 1 ≤ k → Q k → bget b k = (bord p k : Int))
    (hQm : ∀ k, Q k → k ≤ p.length)
    (htrans : ∀ k j, Bord p k j → Q j → Q k)
    (hcomp : ∀ k j, Q k → Q j → k < j → Bord p k j) :
    ∀ fuel (j : Int), j.toNat < fuel →
      (j = -1 ∨ (0 ≤ j ∧ Q j.toNat)) →
      (∀ k, Q k → p.getD k default = c → (k : Int) ≤ j) →
      ((ftFb p c b fuel j = -1 ∧ ∀ k, Q k → p.getD k default ≠ c) ∨
       (0 ≤ ftFb p c b fuel j ∧ Q (ftFb p c b fuel j).toNat ∧
         p.getD (ftFb p c b fuel j).toNat default = c ∧
         ∀ k, Q k → p.getD k default = c →
           (k : Int) ≤ ftFb p c b fuel j)) := by
  intro fuel
  induction fuel with
  | zero => intro j hj; omega
  | succ fuel ih =>
    intro j hj hinv hmax
    by_cases hg : 0 ≤ j ∧ c ≠ p.getD j.toNat default
    · -- mismatch: fall back to b[j]
      have hQj : Q j.toNat := by
        rcases hinv with h1 | h1
        · omega
        · exact h1.2
      have hjthis : ftFb p c b (fuel+1) j = ftFb p c b fuel (bget b j.toNat) := by
        simp only [ftFb, if_pos hg]; rfl
      rw [hjthis]
      rcases Nat.eq_zero_or_pos j.toNat with h0 | h1
      · -- j = 0, falls back to -1 and the loop ends with no extendable border
        rw [h0, hb0, ftFb_neg]
        left
        refine ⟨rfl, fun k hk hc => ?_⟩
        have := hmax k hk hc
        have hk0 : k = 0 := by omega
        subst hk0
        exact hg.2 (by rw [h0]; exact hc.symm)
      · -- j ≥ 1: b[j] = bord p j, a strictly smaller border
        have hjp : j.toNat ≤ p.length := hQm _ hQj
        rw [hfill _ h1 hQj]
        have hblt : bord p j.toNat < j.toNat := bord_lt p h1
        have hQb : Q (bord p j.toNat) :=
          htrans _ _ (bord_isBord p h1 hjp) hQj
        refine ih _ (by simp; omega) (Or.inr ⟨by positivity, by simpa⟩) ?_
        intro k hk hc
        have hkj : (k : Int) ≤ j := hmax k hk hc
        have hkne : k ≠ j.toNat := fun h => hg.2 ((h ▸ hc).symm)
        have hklt : k < j.toNat := by omega
        have := bord_max p (hcomp k j.toNat hk hQj hklt)
        omega
    · -- loop exit
      have hstop : ftFb p c b (fuel+1) j = j := by
        simp only [ftFb, if_neg hg]
      rw [hstop]
      by_cases hj0 : 0 ≤ j
      · right
        have hc : p.getD j.toNat default = c := by
          by_contra hne
          exact hg ⟨hj0, fun hEq => hne hEq.symm⟩
        have hQj : Q j.toNat := by
          rcases hinv with h1 | h1
          · omega
          · exact h1.2
        exact ⟨hj0, hQj, hc, hmax⟩
      · left
        have hjm1 : j = -1 := by
          rcases hinv with h1 | h1
          · exact h1
          · omega
        subst hjm1
        refine ⟨rfl, fun k hk hc => ?_⟩
        have := hmax k hk hc
        omega

/-! ## Correctness of `buildFailureTable` -/

lemma bget_set_eq {b : List Int} {n : Nat} {v : Int} (h : n < b.length) :
    bget (b.set n v) n = v := by
  simp [bget, List.getD_eq_getElem?_getD, List.getElem?_set, h]

lemma bget_set_ne {b : List Int} (n t : Nat) (v : Int) (h : n ≠ t) :
    bget (b.set n v) t = bget b t := by
  simp [bget, List.getD_eq_getElem?_getD, List.getElem?_set, h]

/-- One iteration of the `buildFailureTable` outer loop computes the next
border length: `j1 + 1 = bord p (i+1)`. -/
lemma ftStep (p : List Char) (b : List Int) (i : Nat) (j : Int) (fuel : Nat)
    (hi : i < p.length)
    (hb0 : bget b 0 = -1)
    (hfill : ∀ k, 1 ≤ k → k ≤ i → bget b k = (bord p k : Int))
    (hjinv : (j = -1 ∧ i = 0) ∨ (0 ≤ j ∧ 1 ≤ i ∧ j = (bord p i : Int)))
    (hfuel : j.toNat < fuel) :
    ftFb p (p.getD i default) b fuel j + 1 = (bord p (i+1) : Int) := by
  have hQm : ∀ k, Bord p k i → k ≤ p.length := fun k hk => by
    have := hk.1; have := hk.2.1; omega
  have hmain := ftFb_chain p (p.getD i default) b (fun k => Bord p k i)
    hb0 (fun k h1 hQ => hfill k h1 (by have := hQ.1; omega))
    hQm (fun k j hkj hji => hkj.trans hji)
    (fun k j hk hj hkj => bord_of_matches hk.2.2 hj.2.2 hkj (hQm _ hj))
    fuel j hfuel
    (by
      rcases hjinv with ⟨hj, hi0⟩ | ⟨hj0, hi1, hj⟩
      · exact Or.inl hj
      · refine Or.inr ⟨hj0, ?_⟩
        rw [hj, Int.toNat_natCast]
        exact bord_isBord p hi1 (by omega))
    (by
      intro k hk hc
      rcases hjinv with ⟨hj, hi0⟩ | ⟨hj0, hi1, hj⟩
      · exact absurd hk.1 (by omega)
      · rw [hj]
        exact_mod_cast bord_max p hk)
  rcases hmain with ⟨hr, hnone⟩ | ⟨hr0, hQr, hcr, hmaxr⟩
  · -- no extendable border: bord p (i+1) = 0
    rw [hr]
    have : bord p (i+1) = 0 := by
      by_contra hne
      have h1 : 1 ≤ bord p (i+1) := by omega
      have hB := bord_isBord p (i := i+1) (by omega) (by omega)
      obtain ⟨k', hk'⟩ : ∃ k', bord p (i+1) = k' + 1 :=
        ⟨bord p (i+1) - 1, by omega⟩
      rw [hk'] at hB
      have := (Bord_succ_iff hi).mp hB
      exact hnone _ this.1 this.2
    rw [this]
    rfl
  · -- r is the largest extendable border: bord p (i+1) = r + 1
    set r := ftFb p (p.getD i default) b fuel j with hrdef
    have hup : Bord p (r.toNat + 1) (i + 1) :=
      (Bord_succ_iff hi).mpr ⟨hQr, hcr⟩
    have hge : r.toNat + 1 ≤ bord p (i+1) := bord_max p hup
    have hle : bord p (i+1) ≤ r.toNat + 1 := by
      rcases Nat.eq_zero_or_pos (bord p (i+1)) with h0 | h1
      · omega
      · obtain ⟨k', hk'⟩ : ∃ k', bord p (i+1) = k' + 1 :=
          ⟨bord p (i+1) - 1, by omega⟩
        have hB := bord_isBord p (i := i+1) (by omega) (by omega)
        rw [hk'] at hB
        have := (Bord_succ_iff hi).mp hB
        have := hmaxr _ this.1 this.2
        omega
    have : bord p (i+1) = r.toNat + 1 := by omega
    rw [this]
    push_cast
    omega

/-- Invariant of the `buildFailureTable` outer loop, carried to the end. -/
lemma ftLoop_invariant (p : List Char) :
    ∀ (k i : Nat) (j : Int) (b : List Int),
      i ≤ p.length → p.length - i ≤ k →
      b.length = p.length + 1 →
      bget b 0 = -1 →
      (∀ t, 1 ≤ t → t ≤ i → bget b t = (bord p t : Int)) →
      (∀ t, i < t → t ≤ p.length → bget b t = 0) →
      ((j = -1 ∧ i = 0) ∨ (0 ≤ j ∧ 1 ≤ i ∧ j = (bord p i : Int))) →
      (ftLoop p p.length k i j b).length = p.length + 1 ∧
      bget (ftLoop p p.length k i j b) 0 = -1 ∧
      (∀ t, 1 ≤ t → t ≤ p.length →
        bget (ftLoop p p.length k i j b) t = (bord p t : Int)) := by
  intro k
  induction k with
  | zero =>
    intro i j b hi hk hlen hb0 hfill _ _
    have : i = p.length := by omega
    subst this
    exact ⟨hlen, hb0, fun t h1 h2 => hfill t h1 h2⟩
  | succ k ih =>
    intro i j b hi hk hlen hb0 hfill hzero hjinv
    by_cases hlt : i < p.length
    · rw [ftLoop, if_pos hlt]
      have hfuel : j.toNat < p.length + 1 := by
        rcases hjinv with ⟨hj, _⟩ | ⟨_, hi1, hj⟩
        · simp [hj]
        · rw [hj, Int.toNat_natCast]
          have := bord_lt p hi1
          omega
      have hstep := ftStep p b i j (p.length + 1) hlt hb0 hfill hjinv hfuel
      set j1 := ftFb p (p.getD i default) b (p.length + 1) j with hj1
      have hi1len : i + 1 < b.length := by omega
      refine ih (i+1) (j1 + 1) (b.set (i+1) (j1+1)) (by omega) (by omega)
        (by simp [hlen]) ?_ ?_ ?_ ?_
      · rw [bget_set_ne _ _ _ (by omega), hb0]
      · intro t h1 h2
        rcases Nat.lt_or_ge t (i+1) with h | h
        · rw [bget_set_ne _ _ _ (by omega)]
          exact hfill t h1 (by omega)
        · have : t = i + 1 := by omega
          subst this
          rw [bget_set_eq hi1len, hstep]
      · intro t h1 h2
        rw [bget_set_ne _ _ _ (by omega)]
        exact hzero t (by omega) h2
      · refine Or.inr ⟨?_, by omega, hstep⟩
        rw [hstep]
        positivity
    · rw [ftLoop, if_neg hlt]
      have : i = p.length := by omega
      subst this
      exact ⟨hlen, hb0, fun t h1 h2 => hfill t h1 h2⟩

/-! ## The failure-table tracer versus `buildFailureTable` -/

/-- The event-producing fallback loop computes the same `j` as the plain
one (the two components implement the same algorithm). -/
lemma feFb_fst (chars : List Char) (i fu : Nat) (b : List Int) :
    ∀ (fuel : Nat) (j : Int) (evs : List FailureEvent),
      (feFb chars i fu b fuel j evs).1 =
        ftFb chars (chars.getD i default) b fuel j := by
  intro fuel
  induction fuel with
  | zero => intro j evs; rfl
  | succ fuel ih =>
    intro j evs
    by_cases h : 0 ≤ j ∧ chars.getD i default ≠ chars.getD j.toNat default
    · rw [feFb, ftFb, if_pos h, if_pos h]
      exact ih _ _
    · rw [feFb, ftFb, if_neg h, if_neg h]

/-- The events appended by the fallback loop all carry the current table
and `filledUntil`, and are `compare`/`fallback` events. -/
lemma feFb_snd (chars : List Char) (i fu : Nat) (b : List Int) :
    ∀ (fuel : Nat) (j : Int) (evs : List FailureEvent),
      ∃ tail, (feFb chars i fu b fuel j evs).2 = evs ++ tail ∧
        ∀ e ∈ tail, e.b = b ∧ e.filledUntil = fu ∧
          (e.etype = .compare ∨ e.etype = .fallback) := by
  intro fuel
  induction fuel with
  | zero => intro j evs; exact ⟨[], by simp [feFb]⟩
  | succ fuel ih =>
    intro j evs
    by_cases h : 0 ≤ j ∧ chars.getD i default ≠ chars.getD j.toNat default
    · rw [feFb, if_pos h]
      obtain ⟨tail, htail, hall⟩ := ih (b.getD j.toNat 0) (evs ++ [_, _])
      refine ⟨_, htail.trans (List.append_assoc _ _ _), ?_⟩
      intro e he
      rcases List.mem_append.mp he with he | he
      · rcases List.mem_cons.mp he with rfl | he2
        · exact ⟨rfl, rfl, Or.inl rfl⟩
        · rcases List.mem_cons.mp he2 with rfl | he3
          · exact ⟨rfl, rfl, Or.inr rfl⟩
          · cases he3
      · exact hall e he
    · rw [feFb, if_neg h]
      exact ⟨[], by simp⟩

/-- Exiting the plain outer loop once `i ≥ m`. -/
lemma ftLoop_exit (p : List Char) (m : Nat) (k i : Nat) (j : Int)
    (b : List Int) (h : ¬ i < m) : ftLoop p m k i j b = b := by
  cases k with
  | zero => rfl
  | succ k => rw [ftLoop, if_neg h]

/-- Exiting the event-producing outer loop once `i ≥ m`. -/
lemma feLoop_exit (p : List Char) (m : Nat) (k i : Nat) (j : Int) (fu : Nat)
    (b : List Int) (evs : List FailureEvent) (h : ¬ i < m) :
    feLoop p m k i j fu b evs = evs := by
  cases k with
  | zero => rfl
  | succ k => rw [feLoop, if_neg h]

/-- Unfolding one iteration of `feLoop` with the inner-loop result named. -/
lemma feLoop_succ (p : List Char) (m k i : Nat) (j : Int) (fu : Nat)
    (b : List Int) (evs : List FailureEvent) (j1 : Int)
    (evs1 : List FailureEvent) (hi : i < m)
    (hfb : feFb p i fu b (m + 1) j evs = (j1, evs1)) :
    feLoop p m (k+1) i j fu b evs =
      feLoop p m k (i+1) (j1+1) (i+1) (b.set (i+1) (j1+1))
        ((if 0 ≤ j1 then evs1 ++ [feCmpEv i j1 fu b] else evs1)
          ++ [feSetEv (i+1) (j1+1) (b.set (i+1) (j1+1))]) := by
  rw [feLoop, if_pos hi, hfb]

/-- Unfolding one iteration of `ftLoop`. -/
lemma ftLoop_succ (p : List Char) (m k i : Nat) (j : Int) (b : List Int)
    (hi : i < m) :
    ftLoop p m (k+1) i j b =
      ftLoop p m k (i+1) (ftFb p (p.getD i default) b (m + 1) j + 1)
        (b.set (i+1) (ftFb p (p.getD i default) b (m + 1) j + 1)) := by
  rw [ftLoop, if_pos hi]

/-- The final event of the failure-table tracer carries the same finished
table as `buildFailureTable`'s loop, and `filledUntil = m`. -/
lemma feLoop_last (p : List Char) (m : Nat) :
    ∀ (k i : Nat) (j : Int) (fu : Nat) (b : List Int)
      (evs : List FailureEvent),
      m - i ≤ k → i < m →
      ((feLoop p m k i j fu b evs).getLastD feDefault).b =
          ftLoop p m k i j b ∧
        ((feLoop p m k i j fu b evs).getLastD feDefault).filledUntil = m := by
  intro k
  induction k with
  | zero => intro i j fu b evs hk hi; omega
  | succ k ih =>
    intro i j fu b evs hk hi
    rcases hfb : feFb p i fu b (m+1) j evs with ⟨j1, evs1⟩
    have hj1 : ftFb p (p.getD i default) b (m+1) j = j1 := by
      rw [← feFb_fst p i fu b (m+1) j evs, hfb]
    rw [feLoop_succ p m k i j fu b evs j1 evs1 hi hfb,
      ftLoop_succ p m k i j b hi, hj1]
    by_cases hlt : i + 1 < m
    · exact ih (i+1) (j1+1) (i+1) _ _ (by omega) hlt
    · rw [feLoop_exit _ _ _ _ _ _ _ _ hlt, ftLoop_exit _ _ _ _ _ _ hlt,
        List.getLastD_concat]
      have him : i + 1 = m := by omega
      exact ⟨rfl, him⟩

/-- The final event of the failure-table tracer holds the same table as
`buildFailureTable` (the two independent implementations agree). -/
lemma buildFailureEvents_last_b (p : List Char) :
    ((buildFailureEvents p).2.getLastD feDefault).b = buildFailureTable p := by
  rcases Nat.eq_zero_or_pos p.length with h0 | h1
  · simp only [buildFailureEvents, buildFailureTable, h0]
    rfl
  · exact (feLoop_last p p.length p.length 0 (-1) 0 _ _ (by omega) h1).1

/-- The final event's `filledUntil` is the pattern length. -/
lemma buildFailureEvents_last_fu (p : List Char) :
    ((buildFailureEvents p).2.getLastD feDefault).filledUntil = p.length := by
  rcases Nat.eq_zero_or_pos p.length with h0 | h1
  · simp only [buildFailureEvents, h0]
    rfl
  · exact (feLoop_last p p.length p.length 0 (-1) 0 _ _ (by omega) h1).2

/-- `buildFailureTable` computes exactly the longest-proper-border table. -/
lemma buildFailureTable_spec (p : List Char) :
    (buildFailureTable p).length = p.length + 1 ∧
    bget (buildFailureTable p) 0 = -1 ∧
    (∀ t, 1 ≤ t → t ≤ p.length →
      bget (buildFailureTable p) t = (bord p t : Int)) := by
  have hinit0 : bget ((List.replicate (p.length + 1) (0 : Int)).set 0 (-1)) 0 = -1 :=
    bget_set_eq (by simp)
  have hinitz : ∀ t, 0 < t → t ≤ p.length →
      bget ((List.replicate (p.length + 1) (0 : Int)).set 0 (-1)) t = 0 := by
    intro t h1 h2
    rw [bget_set_ne _ _ _ (by omega)]
    have ht : t < p.length + 1 := by omega
    simp [bget, List.getD_eq_getElem?_getD, List.getElem?_replicate, ht]
  exact ftLoop_invariant p p.length 0 (-1)
    ((List.replicate (p.length + 1) (0 : Int)).set 0 (-1))
    (by omega) (by omega) (by simp) hinit0
    (fun t h1 h2 => by omega) hinitz (Or.inl ⟨rfl, rfl⟩)

/-- The failure tracer's outer loop only appends events. -/
lemma feLoop_append_only (p : List Char) (m : Nat) :
    ∀ (k i : Nat) (j : Int) (fu : Nat) (b : List Int)
      (evs : List FailureEvent),
      ∃ tail, feLoop p m k i j fu b evs = evs ++ tail := by
  intro k
  induction k with
  | zero => intro i j fu b evs; exact ⟨[], by simp [feLoop]⟩
  | succ k ih =>
    intro i j fu b evs
    by_cases hi : i < m
    · rcases hfb : feFb p i fu b (m+1) j evs with ⟨j1, evs1⟩
      rw [feLoop_succ p m k i j fu b evs j1 evs1 hi hfb]
      obtain ⟨tail1, htail1, -⟩ := feFb_snd p i fu b (m+1) j evs
      rw [hfb] at htail1
      have htail1' : evs1 = evs ++ tail1 := htail1
      obtain ⟨tail2, htail2⟩ := ih (i+1) (j1+1) (i+1) (b.set (i+1) (j1+1))
        ((if 0 ≤ j1 then evs1 ++ [feCmpEv i j1 fu b] else evs1)
          ++ [feSetEv (i+1) (j1+1) (b.set (i+1) (j1+1))])
      rw [htail2, htail1']
      by_cases h0 : 0 ≤ j1 <;> simp [h0]
    · rw [feLoop_exit _ _ _ _ _ _ _ _ hi]
      exact ⟨[], by simp⟩

/-- Master event invariant of the failure tracer's outer loop: every event
satisfies `feGood` and `filledUntil` is monotone along the trace. -/
lemma feLoop_events_inv (p : List Char) :
    ∀ (k i : Nat) (j : Int) (fu : Nat) (b : List Int)
      (evs : List FailureEvent),
      p.length - i ≤ k → i ≤ p.length → fu = i →
      b.length = p.length + 1 →
      bget b 0 = -1 →
      (∀ t, 1 ≤ t → t ≤ i → bget b t = (bord p t : Int)) →
      (∀ t, i < t → t ≤ p.length → bget b t = 0) →
      ((j = -1 ∧ i = 0) ∨ (0 ≤ j ∧ 1 ≤ i ∧ j = (bord p i : Int))) →
      (∀ e ∈ evs, feGood p e) →
      (∀ e ∈ evs, e.filledUntil ≤ i) →
      ((evs.map (fun e => e.filledUntil)).Pairwise (· ≤ ·)) →
      (∀ e ∈ feLoop p p.length k i j fu b evs, feGood p e) ∧
      (((feLoop p p.length k i j fu b evs).map
          (fun e => e.filledUntil)).Pairwise (· ≤ ·)) := by
  intro k
  induction k with
  | zero =>
    intro i j fu b evs _ _ _ _ _ _ _ _ hprev _ hpair
    exact ⟨hprev, hpair⟩
  | succ k ih =>
    intro i j fu b evs hk hi hfu hlen hb0 hfill hzero hjinv hprev hmono hpair
    by_cases hlt : i < p.length
    · rcases hfb : feFb p i fu b (p.length + 1) j evs with ⟨j1, evs1⟩
      rw [feLoop_succ p p.length k i j fu b evs j1 evs1 hlt hfb]
      -- the inner loop's `j` agrees with the plain fallback loop
      have hj1 : ftFb p (p.getD i default) b (p.length + 1) j = j1 := by
        rw [← feFb_fst p i fu b (p.length + 1) j evs, hfb]
      have hfuel : j.toNat < p.length + 1 := by
        rcases hjinv with ⟨hj, _⟩ | ⟨_, hi1, hj⟩
        · simp [hj]
        · rw [hj, Int.toNat_natCast]
          have := bord_lt p hi1
          omega
      have hstep : j1 + 1 = (bord p (i+1) : Int) := by
        rw [← hj1]
        exact ftStep p b i j (p.length + 1) hlt hb0 hfill hjinv hfuel
      -- the fallback-loop events carry the current table
      obtain ⟨tail1, htail1, htgood⟩ := feFb_snd p i fu b (p.length + 1) j evs
      rw [hfb] at htail1
      have htail1' : evs1 = evs ++ tail1 := htail1
      -- facts about the new state
      have hi1len : i + 1 < b.length := by omega
      have hlen2 : (b.set (i+1) (j1+1)).length = p.length + 1 := by
        simpa using hlen
      have hb02 : bget (b.set (i+1) (j1+1)) 0 = -1 := by
        rw [bget_set_ne _ _ _ (by omega)]; exact hb0
      have hfill2 : ∀ t, 1 ≤ t → t ≤ i + 1 →
          bget (b.set (i+1) (j1+1)) t = (bord p t : Int) := by
        intro t h1 h2
        rcases Nat.lt_or_ge t (i+1) with h | h
        · rw [bget_set_ne _ _ _ (by omega)]
          exact hfill t h1 (by omega)
        · have : t = i + 1 := by omega
          subst this
          rw [bget_set_eq hi1len, hstep]
      have hzero2 : ∀ t, i + 1 < t → t ≤ p.length →
          bget (b.set (i+1) (j1+1)) t = 0 := by
        intro t h1 h2
        rw [bget_set_ne _ _ _ (by omega)]
        exact hzero t (by omega) h2
      -- `feGood` for every event pushed during this iteration
      have hgood_b_fu : ∀ (e : FailureEvent), e.b = b → e.filledUntil = i →
          feGood p e := by
        intro e hb hfu2
        rw [feGood, hb, hfu2]
        exact ⟨hlen, hb0, by omega, fun t h1 h2 => hfill t h1 (by omega),
          fun t h1 h2 => hzero t (by omega) h2⟩
      have hgoodset : feGood p (feSetEv (i+1) (j1+1) (b.set (i+1) (j1+1))) :=
        ⟨hlen2, hb02, by simp [feSetEv]; omega, by simpa [feSetEv] using hfill2,
          by simpa [feSetEv] using hzero2⟩
      -- assemble the event list of this iteration
      have hevs1 : ∀ e ∈ evs1, feGood p e ∧ e.filledUntil ≤ i := by
        intro e he
        rw [htail1'] at he
        rcases List.mem_append.mp he with he | he
        · exact ⟨hprev e he, hmono e he⟩
        · obtain ⟨hbb, hff, -⟩ := htgood e he
          have hffi : e.filledUntil = i := by rw [hff, hfu]
          exact ⟨hgood_b_fu e hbb hffi, le_of_eq hffi⟩
      have hevs2 : ∀ e ∈ (if 0 ≤ j1 then evs1 ++ [feCmpEv i j1 fu b]
          else evs1), feGood p e ∧ e.filledUntil ≤ i := by
        intro e he
        by_cases h0 : 0 ≤ j1
        · rw [if_pos h0] at he
          rcases List.mem_append.mp he with he | he
          · exact hevs1 e he
          · rcases List.mem_cons.mp he with rfl | he2
            · exact ⟨hgood_b_fu _ rfl hfu, by simp [feCmpEv, hfu]⟩
            · cases he2
        · rw [if_neg h0] at he
          exact hevs1 e he
      refine ih (i+1) (j1+1) (i+1) (b.set (i+1) (j1+1)) _ (by omega)
        (by omega) rfl hlen2 hb02 hfill2 hzero2
        (Or.inr ⟨by rw [hstep]; omega, by omega, hstep⟩) ?_ ?_ ?_
      · intro e he
        rcases List.mem_append.mp he with he | he
        · exact (hevs2 e he).1
        · rcases List.mem_cons.mp he with rfl | he2
          · exact hgoodset
          · cases he2
      · intro e he
        rcases List.mem_append.mp he with he | he
        · exact le_trans (hevs2 e he).2 (by omega)
        · rcases List.mem_cons.mp he with rfl | he2
          · simp [feSetEv]
          · cases he2
      · rw [List.map_append, List.pairwise_append]
        refine ⟨?_, by simp, ?_⟩
        · -- pairwise on the pre-`set` events
          by_cases h0 : 0 ≤ j1
          · rw [if_pos h0, List.map_append, List.pairwise_append]
            refine ⟨?_, by simp, ?_⟩
            · -- pairwise on evs1 = evs ++ tail1
              rw [htail1', List.map_append, List.pairwise_append]
              refine ⟨hpair, ?_, ?_⟩
              · -- tail events all have filledUntil = fu = i
                rw [List.pairwise_map]
                refine (List.pairwise_iff_forall_sublist).mpr ?_
                intro a b' hs
                have ha := (htgood a (hs.subset (by simp))).2.1
                have hb' := (htgood b' (hs.subset (by simp))).2.1
                rw [ha, hb']
              · intro x hx y hy
                simp only [List.mem_map] at hx hy
                obtain ⟨ex, hex, rfl⟩ := hx
                obtain ⟨ey, hey, rfl⟩ := hy
                have := hmono ex hex
                have := (htgood ey hey).2.1
                omega
            · intro x hx y hy
              simp only [List.mem_map] at hx hy
              obtain ⟨ex, hex, rfl⟩ := hx
              obtain ⟨ey, hey, rfl⟩ := hy
              rcases List.mem_cons.mp hey with rfl | h'
              · have := (hevs1 ex hex).2
                simp only [feCmpEv]
                omega
              · cases h'
          · rw [if_neg h0]
            rw [htail1', List.map_append, List.pairwise_append]
            refine ⟨hpair, ?_, ?_⟩
            · rw [List.pairwise_map]
              refine (List.pairwise_iff_forall_sublist).mpr ?_
              intro a b' hs
              have ha := htgood a (hs.subset (by simp))
              have hb' := htgood b' (hs.subset (by simp))
              rw [ha.2.1, hb'.2.1]
            · intro x hx y hy
              simp only [List.mem_map] at hx hy
              obtain ⟨ex, hex, rfl⟩ := hx
              obtain ⟨ey, hey, rfl⟩ := hy
              have := hmono ex hex
              have := (htgood ey hey).2.1
              omega
        · intro x hx y hy
          simp only [List.mem_map] at hx hy
          obtain ⟨ex, hex, rfl⟩ := hx
          obtain ⟨ey, hey, rfl⟩ := hy
          rcases List.mem_cons.mp hey with rfl | h'
          · have := (hevs2 ex hex).2
            simp only [feSetEv]
            omega
          · cases h'
    · rw [feLoop_exit _ _ _ _ _ _ _ _ hlt]
      exact ⟨hprev, hpair⟩

/-- The trace of the failure tracer literally starts with the `init` event. -/
lemma buildFailureEvents_head (p : List Char) :
    ∃ tail, (buildFailureEvents p).2 =
      feInitEv ((List.replicate (p.length + 1) (0 : Int)).set 0 (-1)) :: tail := by
  obtain ⟨tail, htail⟩ := feLoop_append_only p p.length p.length 0 (-1) 0
    ((List.replicate (p.length + 1) (0 : Int)).set 0 (-1))
    [feInitEv ((List.replicate (p.length + 1) (0 : Int)).set 0 (-1))]
  exact ⟨tail, htail⟩

/-- C10: every frame of the prefix-function tracer carries a `b` array of
full length `len(p)+1`; entries in `[1, filledUntil]` hold the final
failure-table values, entries above `filledUntil` hold the placeholder `0`,
and `filledUntil` is non-decreasing along the trace, starting at `0` in the
`init` frame and ending at `len(p)`. -/
theorem failure_tracer_filledUntil_invariant (p : List Char) :
    (∀ e ∈ (buildFailureEvents p).2, e.b.length = p.length + 1) ∧
    (∀ e ∈ (buildFailureEvents p).2, e.filledUntil ≤ p.length) ∧
    (∀ e ∈ (buildFailureEvents p).2, ∀ t, 1 ≤ t → t ≤ e.filledUntil →
      bget e.b t = bget ((buildFailureEvents p).2.getLastD feDefault).b t) ∧
    (∀ e ∈ (buildFailureEvents p).2, ∀ t, e.filledUntil < t → t ≤ p.length →
      bget e.b t = 0) ∧
    (((buildFailureEvents p).2.map (fun e => e.filledUntil)).Pairwise (· ≤ ·)) ∧
    ((buildFailureEvents p).2.getD 0 feDefault).filledUntil = 0 ∧
    ((buildFailureEvents p).2.getLastD feDefault).filledUntil = p.length := by
  have hb0 : bget ((List.replicate (p.length + 1) (0 : Int)).set 0 (-1)) 0 = -1 :=
    bget_set_eq (by simp)
  have hzero : ∀ t, (0:Nat) < t → t ≤ p.length →
      bget ((List.replicate (p.length + 1) (0 : Int)).set 0 (-1)) t = 0 := by
    intro t h1 h2
    rw [bget_set_ne _ _ _ (by omega)]
    have ht : t < p.length + 1 := by omega
    simp [bget, List.getD_eq_getElem?_getD, List.getElem?_replicate, ht]
  have hgoodinit :
      feGood p (feInitEv ((List.replicate (p.length + 1) (0 : Int)).set 0 (-1))) :=
    ⟨by simp [feInitEv], hb0, by simp [feInitEv],
      fun t h1 h2 => by simp [feInitEv] at h2; omega,
      fun t h1 h2 => hzero t (by simpa [feInitEv] using h1) h2⟩
  have hmain := feLoop_events_inv p p.length 0 (-1) 0
    ((List.replicate (p.length + 1) (0 : Int)).set 0 (-1))
    [feInitEv ((List.replicate (p.length + 1) (0 : Int)).set 0 (-1))]
    (by omega) (by omega) rfl (by simp) hb0
    (fun t h1 h2 => by omega) hzero (Or.inl ⟨rfl, rfl⟩)
    (by intro e he; rcases List.mem_cons.mp he with rfl | h'
        · exact hgoodinit
        · cases h')
    (by intro e he; rcases List.mem_cons.mp he with rfl | h'
        · simp [feInitEv]
        · cases h')
    (by simp)
  have hevs : (buildFailureEvents p).2 = feLoop p p.length p.length 0 (-1) 0
      ((List.replicate (p.length + 1) (0 : Int)).set 0 (-1))
      [feInitEv ((List.replicate (p.length + 1) (0 : Int)).set 0 (-1))] := rfl
  rw [← hevs] at hmain
  obtain ⟨hgood, hpair⟩ := hmain
  refine ⟨fun e he => (hgood e he).1, fun e he => (hgood e he).2.2.1,
    ?_, fun e he => (hgood e he).2.2.2.2, hpair, ?_,
    buildFailureEvents_last_fu p⟩
  · intro e he t h1 h2
    rw [(hgood e he).2.2.2.1 t h1 h2, buildFailureEvents_last_b p]
    obtain ⟨-, -, hspec⟩ := buildFailureTable_spec p
    rw [hspec t h1 (le_trans h2 (hgood e he).2.2.1)]
  · obtain ⟨tail, htail⟩ := buildFailureEvents_head p
    rw [htail]
    simp [feInitEv]

/-- Instance of the `filledUntil` invariant at the spec's default pattern. -/
theorem failure_tracer_filledUntil_invariant_inst :
    (∀ e ∈ (buildFailureEvents "ABABC".toList).2,
      e.b.length = "ABABC".toList.length + 1) ∧
    (∀ e ∈ (buildFailureEvents "ABABC".toList).2,
      e.filledUntil ≤ "ABABC".toList.length) ∧
    (∀ e ∈ (buildFailureEvents "ABABC".toList).2, ∀ t, 1 ≤ t →
      t ≤ e.filledUntil → bget e.b t =
        bget ((buildFailureEvents "ABABC".toList).2.getLastD feDefault).b t) ∧
    (∀ e ∈ (buildFailureEvents "ABABC".toList).2, ∀ t, e.filledUntil < t →
      t ≤ "ABABC".toList.length → bget e.b t = 0) ∧
    (((buildFailureEvents "ABABC".toList).2.map
        (fun e => e.filledUntil)).Pairwise (· ≤ ·)) ∧
    ((buildFailureEvents "ABABC".toList).2.getD 0 feDefault).filledUntil = 0 ∧
    ((buildFailureEvents "ABABC".toList).2.getLastD feDefault).filledUntil
      = "ABABC".toList.length :=
  failure_tracer_filledUntil_invariant "ABABC".toList

/-- C3: for every pattern `p`, the table in the prefix-function tracer's
final frame has length `len(p)+1`, entry `0` equals `-1`, and for every
`i ∈ [1, len(p)]` entry `i` is the length of the longest proper border of
the length-`i` prefix of `p` (witnessed by `Bord`/maximality); consequently
`table[i] < i` and `table[i] ≥ -1` for all such `i`. -/
theorem failure_tracer_final_table_is_border_table (p : List Char) :
    (((buildFailureEvents p).2.getLastD feDefault).b).length = p.length + 1 ∧
    bget (((buildFailureEvents p).2.getLastD feDefault).b) 0 = -1 ∧
    (∀ i, 1 ≤ i → i ≤ p.length →
      bget (((buildFailureEvents p).2.getLastD feDefault).b) i
          = (bord p i : Int) ∧
        Bord p (bord p i) i ∧ (∀ k, Bord p k i → k ≤ bord p i) ∧
        -1 ≤ bget (((buildFailureEvents p).2.getLastD feDefault).b) i ∧
        bget (((buildFailureEvents p).2.getLastD feDefault).b) i < (i : Int)) := by
  rw [buildFailureEvents_last_b]
  obtain ⟨hlen, hb0, hfill⟩ := buildFailureTable_spec p
  refine ⟨hlen, hb0, fun i h1 h2 => ?_⟩
  have hb := bord_isBord p h1 h2
  have hlt := bord_lt p h1
  refine ⟨hfill i h1 h2, hb, fun k hk => bord_max p hk, ?_, ?_⟩
  · rw [hfill i h1 h2]; omega
  · rw [hfill i h1 h2]; exact_mod_cast hlt

/-! ## The search tracer: inner loop and step lemmas -/

/-- The search tracer's fallback loop computes the same `j` as the plain
fallback loop over the pattern with target character `text[i]`. -/
lemma seFb_fst (tc pc : List Char) (b : List Int) (i : Nat) (ms : List Nat) :
    ∀ (fuel : Nat) (j : Int) (evs : List SearchEvent),
      (seFb tc pc b i ms fuel j evs).1 =
        ftFb pc (tc.getD i default) b fuel j := by
  intro fuel
  induction fuel with
  | zero => intro j evs; rfl
  | succ fuel ih =>
    intro j evs
    by_cases h : 0 ≤ j ∧ tc.getD i default ≠ pc.getD j.toNat default
    · rw [seFb, ftFb, if_pos h, if_pos h]
      exact ih _ _
    · rw [seFb, ftFb, if_neg h, if_neg h]

/-- The events appended by the search fallback loop all carry the current
match list and are `compare`/`fallback` events. -/
lemma seFb_snd (tc pc : List Char) (b : List Int) (i : Nat) (ms : List Nat) :
    ∀ (fuel : Nat) (j : Int) (evs : List SearchEvent),
      ∃ tail, (seFb tc pc b i ms fuel j evs).2 = evs ++ tail ∧
        ∀ e ∈ tail, e.matchList = ms ∧
          (e.etype = SEKind.compare ∨ e.etype = SEKind.fallback) := by
  intro fuel
  induction fuel with
  | zero => intro j evs; exact ⟨[], by simp [seFb]⟩
  | succ fuel ih =>
    intro j evs
    by_cases h : 0 ≤ j ∧ tc.getD i default ≠ pc.getD j.toNat default
    · rw [seFb, if_pos h]
      obtain ⟨tail, htail, hall⟩ := ih (b.getD j.toNat 0) (evs ++ [_, _])
      refine ⟨_, htail.trans (List.append_assoc _ _ _), ?_⟩
      intro e he
      rcases List.mem_append.mp he with he | he
      · rcases List.mem_cons.mp he with rfl | he2
        · exact ⟨rfl, Or.inl rfl⟩
        · rcases List.mem_cons.mp he2 with rfl | he3
          · exact ⟨rfl, Or.inr rfl⟩
          · cases he3
      · exact hall e he
    · rw [seFb, if_neg h]
      exact ⟨[], by simp⟩

/-- Exiting the search outer loop once `i ≥ n`. -/
lemma seLoop_exit (tc pc : List Char) (b : List Int) (n m k i : Nat)
    (j : Int) (ms : List Nat) (evs : List SearchEvent) (h : ¬ i < n) :
    seLoop tc pc b n m k i j ms evs = (ms, evs) := by
  cases k with
  | zero => rfl
  | succ k => rw [seLoop, if_neg h]

/-- Unfolding one iteration of `seLoop` with the inner-loop result named. -/
lemma seLoop_succ (tc pc : List Char) (b : List Int) (n m k i : Nat)
    (j : Int) (ms : List Nat) (evs : List SearchEvent) (j1 : Int)
    (evs1 : List SearchEvent) (hi : i < n)
    (hfb : seFb tc pc b i ms (m + 1) j evs = (j1, evs1)) :
    seLoop tc pc b n m (k+1) i j ms evs =
      (if j1 + 1 = (m : Int) then
        seLoop tc pc b n m k (i+1) (b.getD (j1+1).toNat 0) (ms ++ [i+1-m])
          ((((if 0 ≤ j1 then evs1 ++ [seCmpEv tc pc i j1 ms] else evs1)
              ++ [seAdvEv (i+1) (j1+1) ms])
            ++ [seFoundEv (i+1) (j1+1) (i+1-m) (ms ++ [i+1-m])])
            ++ [seFoundFbEv (i+1) (j1+1) (b.getD (j1+1).toNat 0)
                  (ms ++ [i+1-m])])
      else
        seLoop tc pc b n m k (i+1) (j1+1) ms
          ((if 0 ≤ j1 then evs1 ++ [seCmpEv tc pc i j1 ms] else evs1)
            ++ [seAdvEv (i+1) (j1+1) ms])) := by
  rw [seLoop, if_pos hi, hfb]

lemma getLastD_append_right {α : Type} (l1 l2 : List α) (d : α)
    (h : l2 ≠ []) : (l1 ++ l2).getLastD d = l2.getLastD d := by
  rw [List.getLastD_eq_getLast?, List.getLastD_eq_getLast?,
    List.getLast?_append_of_ne_nil _ h]

lemma getLastD_mem {α : Type} {l : List α} (d : α) (h : l ≠ []) :
    l.getLastD d ∈ l := by
  rw [List.getLastD_eq_getLast?, List.getLast?_eq_getLast _ h]
  exact List.getLast_mem h

/-- Appending events that carry the current match list (and are not `found`
events) preserves the search-trace invariant. -/
lemma seEvsOk_extend (ms : List Nat) (evs ys : List SearchEvent)
    (h : seEvsOk ms evs) (hsort : ms.Sorted (· < ·))
    (hys : ∀ e ∈ ys, e.matchList = ms ∧ ¬ e.etype = SEKind.found) :
    seEvsOk ms (evs ++ ys) := by
  obtain ⟨h1, h2, h3, h4, h5⟩ := h
  refine ⟨?_, ?_, ?_, ?_, ?_⟩
  · intro e he
    rcases List.mem_append.mp he with he | he
    · exact h1 e he
    · rw [(hys e he).1]
  · intro e he
    rcases List.mem_append.mp he with he | he
    · exact h2 e he
    · rw [(hys e he).1]; exact hsort
  · rw [List.pairwise_append]
    refine ⟨h3, ?_, ?_⟩
    · refine (List.pairwise_iff_forall_sublist).mpr ?_
      intro a b' hs
      rw [(hys a (hs.subset (by simp))).1, (hys b' (hs.subset (by simp))).1]
    · intro a ha b' hb'
      rw [(hys b' hb').1]
      exact h1 a ha
  · rw [List.countP_append, h4, List.countP_eq_zero.mpr, Nat.add_zero]
    intro e he
    simpa using (hys e he).2
  · rcases List.eq_nil_or_concat ys with rfl | ⟨ys', y, rfl⟩
    · simpa using h5
    · rw [getLastD_append_right _ _ _ (by simp)]
      exact (hys _ (getLastD_mem _ (by simp))).1

/-- Appending a `found` event and its `fallback` continuation extends the
invariant to the enlarged match list. -/
lemma seEvsOk_found (ms : List Nat) (evs : List SearchEvent) (x i2 : Nat)
    (j2 nextJ : Int) (h : seEvsOk ms evs) (hsort : ms.Sorted (· < ·))
    (hlt : ∀ y ∈ ms, y < x) :
    seEvsOk (ms ++ [x])
      (evs ++ [seFoundEv i2 j2 x (ms ++ [x]),
               seFoundFbEv i2 j2 nextJ (ms ++ [x])]) ∧
    (ms ++ [x]).Sorted (· < ·) := by
  obtain ⟨h1, h2, h3, h4, h5⟩ := h
  have hsort2 : (ms ++ [x]).Sorted (· < ·) := by
    rw [List.Sorted, List.pairwise_append]
    exact ⟨hsort, by simp, by simpa using hlt⟩
  have hpre : ms <+: ms ++ [x] := List.prefix_append _ _
  refine ⟨⟨?_, ?_, ?_, ?_, ?_⟩, hsort2⟩
  · intro e he
    rcases List.mem_append.mp he with he | he
    · exact (h1 e he).trans hpre
    · rcases List.mem_cons.mp he with rfl | he2
      · exact List.prefix_rfl
      · rcases List.mem_cons.mp he2 with rfl | he3
        · exact List.prefix_rfl
        · cases he3
  · intro e he
    rcases List.mem_append.mp he with he | he
    · exact h2 e he
    · rcases List.mem_cons.mp he with rfl | he2
      · exact hsort2
      · rcases List.mem_cons.mp he2 with rfl | he3
        · exact hsort2
        · cases he3
  · rw [List.pairwise_append]
    refine ⟨h3, ?_, ?_⟩
    · refine (List.pairwise_iff_forall_sublist).mpr ?_
      intro a b' hs
      have ha := hs.subset (by simp : a ∈ [a, b'])
      have hb' := hs.subset (by simp : b' ∈ [a, b'])
      rcases List.mem_cons.mp ha with rfl | ha2 <;>
        [skip; rcases List.mem_cons.mp ha2 with rfl | ha3] <;>
        first
        | (rcases List.mem_cons.mp hb' with rfl | hb2 <;>
            [exact List.prefix_rfl;
             rcases List.mem_cons.mp hb2 with rfl | hb3 <;>
               [exact List.prefix_rfl; cases hb3]])
        | cases ha3
    · intro a ha b' hb'
      have : b'.matchList = ms ++ [x] := by
        rcases List.mem_cons.mp hb' with rfl | hb2
        · rfl
        · rcases List.mem_cons.mp hb2 with rfl | hb3
          · rfl
          · cases hb3
      rw [this]
      exact (h1 a ha).trans hpre
  · rw [List.countP_append, h4]
    simp [seFoundEv, seFoundFbEv]
  · rw [getLastD_append_right _ _ _ (by simp)]
    rfl

/-- The fallback loop never increases `j` when every table entry is at most
its index (true of the real failure table). -/
lemma ftFb_le (p : List Char) (c : Char) (b : List Int)
    (hdesc : ∀ t : Nat, bget b t ≤ (t : Int)) :
    ∀ (fuel : Nat) (j : Int), ftFb p c b fuel j ≤ j := by
  intro fuel
  induction fuel with
  | zero => intro j; exact le_refl j
  | succ fuel ih =>
    intro j
    by_cases h : 0 ≤ j ∧ c ≠ p.getD j.toNat default
    · rw [ftFb, if_pos h]
      refine le_trans (ih _) ?_
      have := hdesc j.toNat
      rw [Int.toNat_of_nonneg h.1] at this
      exact this
    · rw [ftFb, if_neg h]

/-- Every entry of `buildFailureTable` is at most its index. -/
lemma buildFailureTable_desc (p : List Char) :
    ∀ t : Nat, bget (buildFailureTable p) t ≤ (t : Int) := by
  intro t
  obtain ⟨hlen, hb0, hfill⟩ := buildFailureTable_spec p
  rcases Nat.eq_zero_or_pos t with rfl | h1
  · rw [hb0]; omega
  · rcases le_or_lt t p.length with h2 | h2
    · rw [hfill t h1 h2]
      have := bord_lt p h1
      omega
    · rw [bget, List.getD_eq_getElem?_getD, List.getElem?_eq_none (by omega)]
      simp

/-- Match-list invariants of the search loop: the match list stays sorted,
every event's snapshot is a prefix of the final list, snapshots grow along
the trace, there is one `found` event per match, and the last event holds
the final list. -/
lemma seLoop_matchlists (tc pc : List Char) (b : List Int) (n m : Nat)
    (hdesc : ∀ t : Nat, bget b t ≤ (t : Int)) :
    ∀ (k i : Nat) (j : Int) (ms : List Nat) (evs : List SearchEvent),
      ms.Sorted (· < ·) →
      (∀ x ∈ ms, x + m ≤ i) →
      j ≤ (i : Int) →
      seEvsOk ms evs →
      (seLoop tc pc b n m k i j ms evs).1.Sorted (· < ·) ∧
      seEvsOk (seLoop tc pc b n m k i j ms evs).1
        (seLoop tc pc b n m k i j ms evs).2 := by
  intro k
  induction k with
  | zero =>
    intro i j ms evs hsort hbound hj hok
    exact ⟨hsort, hok⟩
  | succ k ih =>
    intro i j ms evs hsort hbound hj hok
    by_cases hi : i < n
    · rcases hfb : seFb tc pc b i ms (m+1) j evs with ⟨j1, evs1⟩
      rw [seLoop_succ tc pc b n m k i j ms evs j1 evs1 hi hfb]
      have hj1 : j1 ≤ j := by
        have := ftFb_le pc (tc.getD i default) b hdesc (m+1) j
        rw [← seFb_fst tc pc b i ms (m+1) j evs, hfb] at this
        exact this
      obtain ⟨tail, htail, htprops⟩ := seFb_snd tc pc b i ms (m+1) j evs
      rw [hfb] at htail
      have htail' : evs1 = evs ++ tail := htail
      have hok1 : seEvsOk ms evs1 := by
        rw [htail']
        refine seEvsOk_extend ms evs tail hok hsort ?_
        intro e he
        obtain ⟨hml, hty⟩ := htprops e he
        refine ⟨hml, ?_⟩
        rcases hty with hty | hty <;> simp [hty]
      have hok2 : seEvsOk ms (if 0 ≤ j1 then evs1 ++ [seCmpEv tc pc i j1 ms]
          else evs1) := by
        by_cases h0 : 0 ≤ j1
        · rw [if_pos h0]
          refine seEvsOk_extend ms evs1 _ hok1 hsort ?_
          intro e he
          rcases List.mem_cons.mp he with rfl | h'
          · exact ⟨rfl, by simp [seCmpEv]⟩
          · cases h'
        · rw [if_neg h0]; exact hok1
      have hok3 : seEvsOk ms ((if 0 ≤ j1 then evs1 ++ [seCmpEv tc pc i j1 ms]
          else evs1) ++ [seAdvEv (i+1) (j1+1) ms]) := by
        refine seEvsOk_extend ms _ _ hok2 hsort ?_
        intro e he
        rcases List.mem_cons.mp he with rfl | h'
        · exact ⟨rfl, by simp [seAdvEv]⟩
        · cases h'
      by_cases hfound : j1 + 1 = (m : Int)
      · rw [if_pos hfound]
        have hm_le : (m : Int) ≤ (i : Int) + 1 := by omega
        have hm_le' : m ≤ i + 1 := by exact_mod_cast hm_le
        have hlt : ∀ y ∈ ms, y < i + 1 - m := by
          intro y hy
          have := hbound y hy
          omega
        have hassoc :
            ((((if 0 ≤ j1 then evs1 ++ [seCmpEv tc pc i j1 ms] else evs1)
              ++ [seAdvEv (i+1) (j1+1) ms])
              ++ [seFoundEv (i+1) (j1+1) (i+1-m) (ms ++ [i+1-m])])
              ++ [seFoundFbEv (i+1) (j1+1) (b.getD (j1+1).toNat 0)
                    (ms ++ [i+1-m])]) =
            (((if 0 ≤ j1 then evs1 ++ [seCmpEv tc pc i j1 ms] else evs1)
              ++ [seAdvEv (i+1) (j1+1) ms])
              ++ [seFoundEv (i+1) (j1+1) (i+1-m) (ms ++ [i+1-m]),
                  seFoundFbEv (i+1) (j1+1) (b.getD (j1+1).toNat 0)
                    (ms ++ [i+1-m])]) := by
          simp
        rw [hassoc]
        obtain ⟨hokF, hsortF⟩ := seEvsOk_found ms _ (i+1-m) (i+1) (j1+1)
          (b.getD (j1+1).toNat 0) hok3 hsort hlt
        refine ih (i+1) _ (ms ++ [i+1-m]) _ hsortF ?_ ?_ hokF
        · intro x hx
          rcases List.mem_append.mp hx with hx | hx
          · have := hbound x hx; omega
          · rcases List.mem_cons.mp hx with rfl | h'
            · omega
            · cases h'
        · have h1 : ((j1+1).toNat : Int) = (m : Int) := by
            rw [Int.toNat_of_nonneg (by omega)]
            exact hfound
          have := hdesc (j1+1).toNat
          have h2 : b.getD (j1+1).toNat 0 = bget b (j1+1).toNat := rfl
          omega
      · rw [if_neg hfound]
        refine ih (i+1) (j1+1) ms _ hsort ?_ (by omega) hok3
        intro x hx
        have := hbound x hx
        omega
    · rw [seLoop_exit _ _ _ _ _ _ _ _ _ _ hi]
      exact ⟨hsort, hok⟩

/-! ## Search correctness (`TMatch` combinatorics) -/

lemma TMatch_zero (t p : List Char) (i : Nat) : TMatch t p 0 i :=
  ⟨Nat.zero_le _, by simp⟩

lemma TMatch_le {t p : List Char} {k i : Nat} (h : TMatch t p k i) :
    k ≤ i := by
  have h1 := h.2.length_le
  have h2 : (p.take k).length = k := by
    rw [List.length_take]
    have := h.1
    omega
  have h3 : (t.take i).length ≤ i := by
    rw [List.length_take]
    omega
  omega

lemma TMatch_succ_iff {t p : List Char} {k i : Nat} (hk : k < p.length)
    (hi : i < t.length) :
    TMatch t p (k+1) (i+1) ↔
      (TMatch t p k i ∧ p.getD k default = t.getD i default) := by
  constructor
  · rintro ⟨h1, h2⟩
    have := (take_succ_suffix_take_succ hk hi).mp h2
    exact ⟨⟨by omega, this.1⟩, this.2⟩
  · rintro ⟨⟨h1, h2⟩, hc⟩
    exact ⟨by omega, (take_succ_suffix_take_succ hk hi).mpr ⟨h2, hc⟩⟩

lemma TMatch_of_bord {t p : List Char} {k q i : Nat} (hb : Bord p k q)
    (h : TMatch t p q i) : TMatch t p k i :=
  ⟨by have := hb.1; have := hb.2.1; omega, hb.2.2.trans h.2⟩

lemma Bord_of_TMatch {t p : List Char} {k q i : Nat} (hk : TMatch t p k i)
    (hq : TMatch t p q i) (hkq : k < q) : Bord p k q :=
  bord_of_matches hk.2 hq.2 hkq hq.1

/-- The full pattern matched ending at `i` is exactly a suffix occurrence. -/
lemma TMatch_full_iff {t p : List Char} {i : Nat} :
    TMatch t p p.length i ↔ p <:+ t.take i := by
  rw [TMatch, List.take_length]
  simp

lemma occEndsUpTo_succ (t p : List Char) (I : Nat) :
    occEndsUpTo t p (I+1) =
      occEndsUpTo t p I ++
        (if p.length ≤ I + 1 ∧ p <:+ t.take (I+1) then [I + 1 - p.length]
         else []) := by
  rw [occEndsUpTo, occEndsUpTo, List.range_succ, List.filterMap_append]
  congr 1
  by_cases h : p.length ≤ I + 1 ∧ p <:+ t.take (I+1) <;> simp [h]

lemma occEndsUpTo_zero (t p : List Char) (hm : 1 ≤ p.length) :
    occEndsUpTo t p 0 = [] := by
  rw [occEndsUpTo]
  have hr : List.range (0 + 1) = [0] := rfl
  rw [hr]
  have : ¬ (p.length ≤ 0 ∧ p <:+ t.take 0) := by
    rintro ⟨h1, -⟩
    omega
  have hp : ¬ p = [] := by
    intro h
    rw [h] at hm
    simp at hm
  simp [this, hp]

/-- The KMP search loop invariant: at the top of each iteration `j` is the
longest partial match of the pattern ending at text position `i` (capped
below `m`), and `ms` lists exactly the occurrences that end at or before
`i`.  The loop then returns all occurrences. -/
lemma seLoop_correct (tc pc : List Char) (hm : 1 ≤ pc.length) :
    ∀ (k i : Nat) (j : Int) (ms : List Nat) (evs : List SearchEvent),
      tc.length - i ≤ k → i ≤ tc.length →
      0 ≤ j → j.toNat < pc.length →
      TMatch tc pc j.toNat i →
      (∀ q, q < pc.length → TMatch tc pc q i → (q : Int) ≤ j) →
      ms = occEndsUpTo tc pc i →
      (seLoop tc pc (buildFailureTable pc) tc.length pc.length k i j ms
          evs).1 = occEndsUpTo tc pc tc.length := by
  obtain ⟨hblen, hb0, hfill⟩ := buildFailureTable_spec pc
  intro k
  induction k with
  | zero =>
    intro i j ms evs hk hi _ _ _ _ hms
    have : i = tc.length := by omega
    subst this
    rw [seLoop_exit _ _ _ _ _ _ _ _ _ _ (by omega)]
    exact hms
  | succ k ih =>
    intro i j ms evs hk hi hj0 hjm hTM hmax hms
    by_cases hilt : i < tc.length
    · rcases hfb : seFb tc pc (buildFailureTable pc) i ms (pc.length + 1) j
        evs with ⟨j1, evs1⟩
      rw [seLoop_succ tc pc (buildFailureTable pc) tc.length pc.length k i j
        ms evs j1 evs1 hilt hfb]
      have hj1 : ftFb pc (tc.getD i default) (buildFailureTable pc)
          (pc.length + 1) j = j1 := by
        rw [← seFb_fst tc pc (buildFailureTable pc) i ms (pc.length + 1) j
          evs, hfb]
      -- the generic chain lemma, at Q q := q < m ∧ TMatch tc pc q i
      have hchain := ftFb_chain pc (tc.getD i default) (buildFailureTable pc)
        (fun q => q < pc.length ∧ TMatch tc pc q i) hb0
        (fun q h1 hQ => hfill q h1 (by omega))
        (fun q hQ => by have := hQ.1; omega)
        (fun q r hqr hr => ⟨by have := hqr.1; have := hr.1; omega,
          TMatch_of_bord hqr hr.2⟩)
        (fun q r hq hr hqr => Bord_of_TMatch hq.2 hr.2 hqr)
        (pc.length + 1) j (by omega)
        (Or.inr ⟨hj0, hjm, hTM⟩)
        (fun q hq _ => hmax q hq.1 hq.2)
      rw [hj1] at hchain
      -- the longest extendable match becomes the new `j`
      have hnew : TMatch tc pc (j1 + 1).toNat (i + 1) ∧
          (∀ q, q ≤ pc.length → TMatch tc pc q (i+1) → (q : Int) ≤ j1 + 1) ∧
          0 ≤ j1 + 1 ∧ (j1 + 1).toNat ≤ pc.length := by
        rcases hchain with ⟨hr, hnone⟩ | ⟨hr0, hQr, hcr, hmaxr⟩
        · rw [hr]
          refine ⟨TMatch_zero _ _ _, ?_, by omega, by simp⟩
          intro q hq hTMq
          rcases Nat.eq_zero_or_pos q with rfl | h1
          · omega
          · obtain ⟨q', rfl⟩ : ∃ q', q = q' + 1 := ⟨q - 1, by omega⟩
            have := (TMatch_succ_iff (by omega) hilt).mp hTMq
            exact absurd this.2 (hnone q' ⟨by omega, this.1⟩)
        · have htn : (j1 + 1).toNat = j1.toNat + 1 := by omega
          refine ⟨?_, ?_, by omega, ?_⟩
          · rw [htn]
            exact (TMatch_succ_iff hQr.1 hilt).mpr ⟨hQr.2, hcr⟩
          · intro q hq hTMq
            rcases Nat.eq_zero_or_pos q with rfl | h1
            · omega
            · obtain ⟨q', rfl⟩ : ∃ q', q = q' + 1 := ⟨q - 1, by omega⟩
              have hext := (TMatch_succ_iff (by omega) hilt).mp hTMq
              have := hmaxr q' ⟨by omega, hext.1⟩ hext.2
              omega
          · rw [htn]
            have := hQr.1
            omega
      obtain ⟨hTMnew, hmaxnew, hjnew0, hjnewle⟩ := hnew
      by_cases hfound : j1 + 1 = (pc.length : Int)
      · rw [if_pos hfound]
        have htnm : (j1 + 1).toNat = pc.length := by omega
        have hTMfull : TMatch tc pc pc.length (i+1) := by
          rw [← htnm]
          exact hTMnew
        have hocc : pc <:+ tc.take (i+1) := TMatch_full_iff.mp hTMfull
        have hmle : pc.length ≤ i + 1 := TMatch_le hTMfull
        -- the next `j` is the full-pattern border
        have hnextj : (buildFailureTable pc).getD (j1+1).toNat 0 =
            (bord pc pc.length : Int) := by
          rw [htnm]
          exact hfill pc.length hm le_rfl
        refine ih (i+1) _ _ _ (by omega) (by omega) ?_ ?_ ?_ ?_ ?_
        · rw [hnextj]; positivity
        · rw [hnextj, Int.toNat_natCast]
          exact bord_lt pc hm
        · rw [hnextj, Int.toNat_natCast]
          have hbord := bord_isBord pc hm le_rfl
          exact TMatch_of_bord hbord hTMfull
        · intro q hq hTMq
          rw [hnextj]
          have hB : Bord pc q pc.length := Bord_of_TMatch hTMq hTMfull hq
          exact_mod_cast bord_max pc hB
        · rw [hms, occEndsUpTo_succ, if_pos ⟨hmle, hocc⟩]
      · rw [if_neg hfound]
        have hjlt : (j1 + 1).toNat < pc.length := by omega
        refine ih (i+1) (j1+1) ms _ (by omega) (by omega) hjnew0 hjlt
          hTMnew (fun q hq hTMq => hmaxnew q (by omega) hTMq) ?_
        rw [hms, occEndsUpTo_succ, if_neg ?_]
        · simp
        · rintro ⟨hmle, hocc⟩
          have hTMfull : TMatch tc pc pc.length (i+1) :=
            TMatch_full_iff.mpr hocc
          have := hmaxnew pc.length le_rfl hTMfull
          omega
    · rw [seLoop_exit _ _ _ _ _ _ _ _ _ _ hilt]
      have : i = tc.length := by omega
      subst this
      exact hms

/-- An occurrence at `s` is a full-pattern suffix of the prefix ending at
`s + len(p)`. -/
lemma occAt_iff {t p : List Char} (hm : 1 ≤ p.length) (s : Nat) :
    occAt t p s ↔
      (s + p.length ≤ t.length ∧ p <:+ t.take (s + p.length)) := by
  have htake : t.take (s + p.length) = t.take s ++ (t.drop s).take p.length :=
    List.take_add t s p.length
  constructor
  · intro h
    have hlen : ((t.drop s).take p.length).length = p.length := by rw [h]
    rw [List.length_take, List.length_drop] at hlen
    have hs : s + p.length ≤ t.length := by omega
    refine ⟨hs, ?_⟩
    rw [htake, h]
    exact List.suffix_append _ _
  · rintro ⟨h1, h2⟩
    have hXlen : ((t.drop s).take p.length).length = p.length := by
      rw [List.length_take, List.length_drop]
      omega
    have hXsuf : (t.drop s).take p.length <:+ t.take (s + p.length) := by
      rw [htake]
      exact List.suffix_append _ _
    have hpX : p <:+ (t.drop s).take p.length :=
      suffix_of_suffix_length_le h2 hXsuf (by rw [hXlen])
    have : p = (t.drop s).take p.length :=
      (List.Sublist.length_eq hpX.sublist).mp (by rw [hXlen])
    exact this.symm

lemma mem_occEndsUpTo {t p : List Char} {I s : Nat} :
    s ∈ occEndsUpTo t p I ↔
      ∃ e, e ≤ I ∧ p.length ≤ e ∧ p <:+ t.take e ∧ e - p.length = s := by
  rw [occEndsUpTo, List.mem_filterMap]
  constructor
  · rintro ⟨e, he, hfe⟩
    rw [List.mem_range] at he
    by_cases hc : p.length ≤ e ∧ p <:+ t.take e
    · rw [if_pos hc] at hfe
      exact ⟨e, by omega, hc.1, hc.2, by injection hfe⟩
    · rw [if_neg hc] at hfe
      cases hfe
  · rintro ⟨e, he, h1, h2, h3⟩
    exact ⟨e, List.mem_range.mpr (by omega), by rw [if_pos ⟨h1, h2⟩, h3]⟩

lemma occEndsUpTo_sorted (t p : List Char) (I : Nat) :
    (occEndsUpTo t p I).Sorted (· < ·) := by
  rw [occEndsUpTo, List.Sorted]
  refine List.Pairwise.filterMap _ ?_ (List.pairwise_lt_range (I+1))
  · intro a b hab x hx y hy
    by_cases hca : p.length ≤ a ∧ p <:+ t.take a
    · rw [if_pos hca] at hx
      by_cases hcb : p.length ≤ b ∧ p <:+ t.take b
      · rw [if_pos hcb] at hy
        have hxa : x = a - p.length := by injection hx; omega
        have hyb : y = b - p.length := by injection hy; omega
        have := hca.1
        omega
      · rw [if_neg hcb] at hy
        cases hy
    · rw [if_neg hca] at hx
      cases hx

lemma mem_occList {t p : List Char} {s : Nat} :
    s ∈ occList t p ↔ s < t.length + 1 ∧ occAt t p s := by
  rw [occList, List.mem_filter, List.mem_range]
  simp

/-- The occurrence list collected by ends equals the canonical list of all
occurrence starts. -/
lemma occEndsUpTo_eq_occList (t p : List Char) (hm : 1 ≤ p.length) :
    occEndsUpTo t p t.length = occList t p := by
  have hnodupE : (occEndsUpTo t p t.length).Nodup :=
    (occEndsUpTo_sorted t p t.length).nodup
  have hsortL : (occList t p).Sorted (· < ·) :=
    (List.sorted_lt_range (t.length + 1)).filter _
  have hnodupL : (occList t p).Nodup := hsortL.nodup
  refine List.eq_of_perm_of_sorted
    ((List.perm_ext_iff_of_nodup hnodupE hnodupL).mpr ?_)
    (occEndsUpTo_sorted t p t.length) hsortL
  intro s
  rw [mem_occEndsUpTo, mem_occList, occAt_iff hm]
  constructor
  · rintro ⟨e, he, h1, h2, rfl⟩
    have : e - p.length + p.length = e := by omega
    rw [this]
    exact ⟨by omega, by omega, h2⟩
  · rintro ⟨hs, h1, h2⟩
    exact ⟨s + p.length, by omega, by omega, h2, by omega⟩

/-- The final match list is the first component of the search loop. -/
lemma finalMatches_eq_loop (text pattern : List Char)
    (hn : ¬ (text.length = 0 ∨ pattern.length = 0)) :
    finalMatches text pattern =
      (seLoop text pattern (buildFailureTable pattern) text.length
        pattern.length text.length 0 0 [] [seInitEv]).1 := by
  have hok0 : seEvsOk [] [seInitEv] := by
    refine ⟨?_, ?_, by simp, by simp [seInitEv], by simp [seInitEv]⟩
    · intro e he
      rcases List.mem_cons.mp he with rfl | h'
      · simp [seInitEv]
      · cases h'
    · intro e he
      rcases List.mem_cons.mp he with rfl | h'
      · simp [seInitEv, List.Sorted]
      · cases h'
  have h := (seLoop_matchlists text pattern (buildFailureTable pattern)
    text.length pattern.length (buildFailureTable_desc pattern)
    text.length 0 0 [] [seInitEv] (by simp [List.Sorted]) (by simp)
    (by simp) hok0).2.2.2.2.2
  have hse : (buildSearchEvents text pattern).1 =
      (seLoop text pattern (buildFailureTable pattern) text.length
        pattern.length text.length 0 0 [] [seInitEv]).2 := by
    simp only [buildSearchEvents]
    rw [if_neg hn]
  rw [finalMatches, hse, h]

/-- C2: for every text and non-empty pattern, the match list of the search
tracer's final frame is exactly the list of all starting indices `s` with
`text[s : s+len(pattern)] = pattern` (overlaps included), each exactly
once, in strictly ascending order. -/
theorem search_tracer_finds_all_occurrences (text pattern : List Char)
    (hm : pattern ≠ []) :
    finalMatches text pattern = occList text pattern ∧
    (∀ s, s ∈ finalMatches text pattern ↔ occAt text pattern s) ∧
    (finalMatches text pattern).Sorted (· < ·) ∧
    (finalMatches text pattern).Nodup := by
  have hm1 : 1 ≤ pattern.length := by
    rcases pattern with _ | ⟨c, p'⟩
    · exact absurd rfl hm
    · simp
  have hmain : finalMatches text pattern = occList text pattern := by
    by_cases hn : text.length = 0
    · have hse : (buildSearchEvents text pattern).1 = [seInitEv] := by
        simp only [buildSearchEvents]
        rw [if_pos (Or.inl hn)]
      have hfm : finalMatches text pattern = [] := by
        rw [finalMatches, hse]
        rfl
      rw [hfm]
      have htx : text = [] := List.eq_nil_of_length_eq_zero hn
      subst htx
      rw [occList]
      have hr : List.range (0 + 1) = [0] := rfl
      simp only [List.length_nil, hr]
      have : ¬ occAt [] pattern 0 := by
        rw [occAt]
        intro h
        rw [← h] at hm1
        simp at hm1
      simp [this]
    · have hn' : ¬ (text.length = 0 ∨ pattern.length = 0) := by
        rintro (h | h)
        · exact hn h
        · omega
      rw [finalMatches_eq_loop text pattern hn']
      rw [seLoop_correct text pattern hm1 text.length 0 0 []
        [seInitEv] (by omega) (by omega) le_rfl (by simpa using hm1)
        (TMatch_zero _ _ _) ?_ (occEndsUpTo_zero text pattern hm1).symm]
      · exact occEndsUpTo_eq_occList text pattern hm1
      · intro q hq hTMq
        have := TMatch_le hTMq
        omega
  refine ⟨hmain, ?_, ?_, ?_⟩
  · intro s
    rw [hmain, mem_occList]
    constructor
    · rintro ⟨-, h⟩; exact h
    · intro h
      refine ⟨?_, h⟩
      have := ((occAt_iff hm1 s).mp h).1
      omega
  · rw [hmain]
    exact (List.sorted_lt_range (text.length + 1)).filter _
  · rw [hmain]
    exact ((List.sorted_lt_range (text.length + 1)).filter _).nodup

/-- Instance of the search-correctness theorem at the spec's overlapping
scenario, together with the concrete result `[0, 1, 2]`. -/
theorem search_tracer_finds_all_occurrences_inst :
    ("AA".toList ≠ [] ∧
      (finalMatches "AAAA".toList "AA".toList = occList "AAAA".toList "AA".toList ∧
       (∀ s, s ∈ finalMatches "AAAA".toList "AA".toList ↔
         occAt "AAAA".toList "AA".toList s) ∧
       (finalMatches "AAAA".toList "AA".toList).Sorted (· < ·) ∧
       (finalMatches "AAAA".toList "AA".toList).Nodup)) ∧
    finalMatches "AAAA".toList "AA".toList = [0, 1, 2] :=
  ⟨⟨by decide,
    search_tracer_finds_all_occurrences "AAAA".toList "AA".toList (by decide)⟩,
   by decide⟩

/-- C9: in every frame of the search tracer the match list is strictly
ascending and a prefix of every later frame's match list; matches are only
appended, one per `found` event, and the last frame's list is the full
match list. -/
theorem search_tracer_matchlist_invariant (text pattern : List Char) :
    (∀ e ∈ (buildSearchEvents text pattern).1,
      e.matchList.Sorted (· < ·)) ∧
    List.Pairwise (fun a b => a.matchList <+: b.matchList)
      (buildSearchEvents text pattern).1 ∧
    (∀ e ∈ (buildSearchEvents text pattern).1,
      e.matchList <+: finalMatches text pattern) ∧
    ((buildSearchEvents text pattern).1.countP
        (fun e => decide (e.etype = SEKind.found)))
      = (finalMatches text pattern).length := by
  by_cases hdeg : text.length = 0 ∨ pattern.length = 0
  · have hse : (buildSearchEvents text pattern).1 = [seInitEv] := by
      simp only [buildSearchEvents]
      rw [if_pos hdeg]
    have hfm : finalMatches text pattern = [] := by
      rw [finalMatches, hse]; rfl
    rw [hse, hfm]
    refine ⟨?_, by simp, ?_, by simp [seInitEv]⟩
    · intro e he
      rcases List.mem_cons.mp he with rfl | h'
      · simp [seInitEv, List.Sorted]
      · cases h'
    · intro e he
      rcases List.mem_cons.mp he with rfl | h'
      · simp [seInitEv]
      · cases h'
  · have hse : (buildSearchEvents text pattern).1 =
        (seLoop text pattern (buildFailureTable pattern) text.length
          pattern.length text.length 0 0 [] [seInitEv]).2 := by
      simp only [buildSearchEvents]
      rw [if_neg hdeg]
    have hok0 : seEvsOk [] [seInitEv] := by
      refine ⟨?_, ?_, by simp, by simp [seInitEv], by simp [seInitEv]⟩
      · intro e he
        rcases List.mem_cons.mp he with rfl | h'
        · simp [seInitEv]
        · cases h'
      · intro e he
        rcases List.mem_cons.mp he with rfl | h'
        · simp [seInitEv, List.Sorted]
        · cases h'
    obtain ⟨hsorted, hpre, hsortev, hpair, hcount, hlast⟩ :=
      (by
        have := seLoop_matchlists text pattern (buildFailureTable pattern)
          text.length pattern.length (buildFailureTable_desc pattern)
          text.length 0 0 [] [seInitEv] (by simp [List.Sorted]) (by simp)
          (by simp) hok0
        exact ⟨this.1, this.2.1, this.2.2.1, this.2.2.2.1, this.2.2.2.2.1,
          this.2.2.2.2.2⟩ :
        (seLoop text pattern (buildFailureTable pattern) text.length
          pattern.length text.length 0 0 [] [seInitEv]).1.Sorted (· < ·) ∧
        (∀ e ∈ (seLoop text pattern (buildFailureTable pattern) text.length
            pattern.length text.length 0 0 [] [seInitEv]).2,
          e.matchList <+:
            (seLoop text pattern (buildFailureTable pattern) text.length
              pattern.length text.length 0 0 [] [seInitEv]).1) ∧
        (∀ e ∈ (seLoop text pattern (buildFailureTable pattern) text.length
            pattern.length text.length 0 0 [] [seInitEv]).2,
          e.matchList.Sorted (· < ·)) ∧
        List.Pairwise (fun a b => a.matchList <+: b.matchList)
          (seLoop text pattern (buildFailureTable pattern) text.length
            pattern.length text.length 0 0 [] [seInitEv]).2 ∧
        ((seLoop text pattern (buildFailureTable pattern) text.length
            pattern.length text.length 0 0 [] [seInitEv]).2.countP
          (fun e => decide (e.etype = SEKind.found)))
          = (seLoop text pattern (buildFailureTable pattern) text.length
              pattern.length text.length 0 0 [] [seInitEv]).1.length ∧
        ((seLoop text pattern (buildFailureTable pattern) text.length
            pattern.length text.length 0 0 [] [seInitEv]).2.getLastD
              seDefault).matchList
          = (seLoop text pattern (buildFailureTable pattern) text.length
              pattern.length text.length 0 0 [] [seInitEv]).1)
    have hfm : finalMatches text pattern =
        (seLoop text pattern (buildFailureTable pattern) text.length
          pattern.length text.length 0 0 [] [seInitEv]).1 := by
      rw [finalMatches, hse, hlast]
    rw [hse, hfm]
    exact ⟨hsortev, hpair, hpre, hcount⟩

/-- Instance of the match-list invariant at the spec's overlap scenario. -/
theorem search_tracer_matchlist_invariant_inst :
    (∀ e ∈ (buildSearchEvents "AAAA".toList "AA".toList).1,
      e.matchList.Sorted (· < ·)) ∧
    List.Pairwise (fun a b => a.matchList <+: b.matchList)
      (buildSearchEvents "AAAA".toList "AA".toList).1 ∧
    (∀ e ∈ (buildSearchEvents "AAAA".toList "AA".toList).1,
      e.matchList <+: finalMatches "AAAA".toList "AA".toList) ∧
    ((buildSearchEvents "AAAA".toList "AA".toList).1.countP
        (fun e => decide (e.etype = SEKind.found)))
      = (finalMatches "AAAA".toList "AA".toList).length :=
  search_tracer_matchlist_invariant "AAAA".toList "AA".toList

/-- C7: degenerate inputs are not errors.  With empty text or empty pattern
the search tracer's trace is exactly the `init` frame and the match list is
empty; with the empty pattern the prefix-function tracer returns table
`[-1]` and a trace holding only the `init` frame, with no `compare` or
`set` frames.  (No failure can occur: all tracers are total functions.) -/
theorem degenerate_inputs_yield_init_only (text pattern : List Char)
    (h : text.length = 0 ∨ pattern.length = 0) :
    (buildSearchEvents text pattern).1 = [seInitEv] ∧
    finalMatches text pattern = [] ∧
    (pattern.length = 0 →
      (buildFailureEvents pattern).2 = [feInitEv [-1]] ∧
      ((buildFailureEvents pattern).2.getLastD feDefault).b = [-1] ∧
      ∀ e ∈ (buildFailureEvents pattern).2,
        e.etype ≠ FEKind.compare ∧ e.etype ≠ FEKind.set) := by
  have hse : (buildSearchEvents text pattern).1 = [seInitEv] := by
    simp only [buildSearchEvents]
    rw [if_pos h]
  refine ⟨hse, ?_, ?_⟩
  · rw [finalMatches, hse]
    rfl
  · intro hm
    have hfe : (buildFailureEvents pattern).2 = [feInitEv [-1]] := by
      simp only [buildFailureEvents, hm]
      rfl
    refine ⟨hfe, by rw [hfe]; rfl, ?_⟩
    rw [hfe]
    intro e he
    rcases List.mem_cons.mp he with rfl | h'
    · exact ⟨by simp [feInitEv], by simp [feInitEv]⟩
    · cases h'

/-- Instance of the degenerate-input theorem: empty pattern with a
non-empty text. -/
theorem degenerate_inputs_yield_init_only_inst :
    (("AB".toList).length = 0 ∨ (([] : List Char)).length = 0) ∧
    ((buildSearchEvents "AB".toList ([] : List Char)).1 = [seInitEv] ∧
     finalMatches "AB".toList ([] : List Char) = [] ∧
     ((([] : List Char)).length = 0 →
       (buildFailureEvents ([] : List Char)).2 = [feInitEv [-1]] ∧
       ((buildFailureEvents ([] : List Char)).2.getLastD feDefault).b = [-1] ∧
       ∀ e ∈ (buildFailureEvents ([] : List Char)).2,
         e.etype ≠ FEKind.compare ∧ e.etype ≠ FEKind.set)) :=
  ⟨Or.inr rfl, degenerate_inputs_yield_init_only "AB".toList [] (Or.inr rfl)⟩

/-- Instance of the final-table theorem at the spec's concrete pattern. -/
theorem failure_tracer_final_table_is_border_table_inst :
    (((buildFailureEvents "ABABC".toList).2.getLastD feDefault).b).length
        = "ABABC".toList.length + 1 ∧
    bget (((buildFailureEvents "ABABC".toList).2.getLastD feDefault).b) 0 = -1 ∧
    (∀ i, 1 ≤ i → i ≤ "ABABC".toList.length →
      bget (((buildFailureEvents "ABABC".toList).2.getLastD feDefault).b) i
          = (bord "ABABC".toList i : Int) ∧
        Bord "ABABC".toList (bord "ABABC".toList i) i ∧
        (∀ k, Bord "ABABC".toList k i → k ≤ bord "ABABC".toList i) ∧
        -1 ≤ bget (((buildFailureEvents "ABABC".toList).2.getLastD feDefault).b) i ∧
        bget (((buildFailureEvents "ABABC".toList).2.getLastD feDefault).b) i
          < (i : Int)) :=
  failure_tracer_final_table_is_border_table "ABABC".toList

/-! ## The SCC tracer: adjacency construction and edge validation -/

lemma buildAdjacencyGo_none_iff (n : Nat) :
    ∀ (edges : List (Nat × Nat)) (adj : List (List Nat)),
      buildAdjacencyGo n edges adj = none ↔ ∃ e ∈ edges, ¬ e.1 < n := by
  intro edges
  induction edges with
  | nil => intro adj; simp [buildAdjacencyGo]
  | cons e rest ih =>
    intro adj
    by_cases h : e.1 < n
    · rw [buildAdjacencyGo, if_pos h, ih]
      constructor
      · rintro ⟨e', he', hn⟩
        exact ⟨e', List.mem_cons_of_mem _ he', hn⟩
      · rintro ⟨e', he', hn⟩
        rcases List.mem_cons.mp he' with rfl | he'
        · exact absurd h hn
        · exact ⟨e', he', hn⟩
    · rw [buildAdjacencyGo, if_neg h]
      simp only [true_iff]
      exact ⟨e, List.mem_cons_self _ _, h⟩

lemma buildAdjacencyGo_length (n : Nat) :
    ∀ (edges : List (Nat × Nat)) (adj adj' : List (List Nat)),
      buildAdjacencyGo n edges adj = some adj' →
      adj'.length = adj.length := by
  intro edges
  induction edges with
  | nil =>
    intro adj adj' h
    rw [buildAdjacencyGo] at h
    injection h with h
    rw [h]
  | cons e rest ih =>
    intro adj adj' h
    by_cases hlt : e.1 < n
    · rw [buildAdjacencyGo, if_pos hlt] at h
      have := ih _ _ h
      simpa using this
    · rw [buildAdjacencyGo, if_neg hlt] at h
      cases h

lemma buildAdjacencyGo_mem (n : Nat) :
    ∀ (edges : List (Nat × Nat)) (adj adj' : List (List Nat)),
      adj.length = n →
      buildAdjacencyGo n edges adj = some adj' →
      ∀ u v, v ∈ adj'.getD u [] ↔
        (v ∈ adj.getD u [] ∨ ((u, v) ∈ edges ∧ u < n)) := by
  intro edges
  induction edges with
  | nil =>
    intro adj adj' _ h u v
    rw [buildAdjacencyGo] at h
    injection h with h
    rw [h]
    simp
  | cons e rest ih =>
    intro adj adj' hlen h u v
    obtain ⟨a, c⟩ := e
    by_cases hlt : a < n
    · rw [buildAdjacencyGo, if_pos hlt] at h
      have hlen2 : (adj.set a (adj.getD a [] ++ [c])).length = n := by
        simpa using hlen
      rw [ih _ _ hlen2 h u v]
      by_cases hu : u = a
      · have hget : (adj.set a (adj.getD a [] ++ [c])).getD u [] =
            adj.getD a [] ++ [c] := by
          rw [hu]
          simp [List.getD_eq_getElem?_getD, List.getElem?_set,
            show a < adj.length by omega]
        rw [hget, hu]
        simp only [List.mem_append, List.mem_singleton, List.mem_cons,
          Prod.mk.injEq, hlt, and_true, true_and]
        tauto
      · have hget : (adj.set a (adj.getD a [] ++ [c])).getD u [] =
            adj.getD u [] := by
          simp [List.getD_eq_getElem?_getD, List.getElem?_set,
            show ¬ a = u from fun hh => hu hh.symm]
        rw [hget]
        simp only [List.mem_cons, Prod.mk.injEq, hu, false_and, false_or]
    · rw [buildAdjacencyGo, if_neg hlt] at h
      cases h

lemma buildAdjacency_none_iff (n : Nat) (edges : List (Nat × Nat)) :
    buildAdjacency n edges = none ↔ ∃ e ∈ edges, ¬ e.1 < n :=
  buildAdjacencyGo_none_iff n edges _

lemma buildAdjacency_spec (n : Nat) (edges : List (Nat × Nat))
    (adj : List (List Nat)) (h : buildAdjacency n edges = some adj) :
    adj.length = n ∧
    (∀ u v, v ∈ adj.getD u [] ↔ ((u, v) ∈ edges ∧ u < n)) := by
  refine ⟨by rw [buildAdjacencyGo_length n edges _ _ h]; simp, ?_⟩
  intro u v
  rw [buildAdjacencyGo_mem n edges _ adj (by simp) h u v]
  have : ¬ v ∈ (List.replicate n ([] : List Nat)).getD u [] := by
    rcases lt_or_ge u n with hu | hu
    · simp [List.getD_eq_getElem?_getD, List.getElem?_replicate, hu]
    · simp [List.getD_eq_getElem?_getD, List.getElem?_eq_none,
        (by simpa using hu : (List.replicate n ([] : List Nat)).length ≤ u)]
  simp [this]

/-- Membership in the reversed edge list. -/
lemma mem_reverseEdges {edges : List (Nat × Nat)} {u v : Nat} :
    (u, v) ∈ reverseEdges edges ↔ (v, u) ∈ edges := by
  rw [reverseEdges, List.mem_map]
  constructor
  · rintro ⟨e, he, hev⟩
    injection hev with h1 h2
    subst h1 h2
    simpa using he
  · intro h
    exact ⟨(v, u), h, rfl⟩

/-- C5: the SCC tracer fails (before any frame of the run is produced)
exactly when some edge endpoint lies outside `[0, n)`: an out-of-range
`from` makes the forward adjacency construction fail, and an out-of-range
`to` makes the reversed adjacency construction fail; both happen before the
frame list exists.  In-range inputs are never rejected. -/
theorem invalid_edges_fail_before_frames (nodes : List String)
    (edges : List (Nat × Nat)) :
    (buildFrames nodes edges = none ↔
      ∃ e ∈ edges, ¬ (e.1 < nodes.length ∧ e.2 < nodes.length)) ∧
    ((∀ e ∈ edges, e.1 < nodes.length ∧ e.2 < nodes.length) →
      ∃ r, buildFrames nodes edges = some r) := by
  have hmain : buildFrames nodes edges = none ↔
      ∃ e ∈ edges, ¬ (e.1 < nodes.length ∧ e.2 < nodes.length) := by
    rw [buildFrames, buildFramesCore]
    rcases hadj : buildAdjacency nodes.length edges with - | adj
    · simp only [true_iff]
      obtain ⟨e, he, hn⟩ := (buildAdjacency_none_iff _ _).mp hadj
      exact ⟨e, he, fun hh => hn hh.1⟩
    · rcases hradj : buildAdjacency nodes.length (reverseEdges edges)
        with - | radj
      · simp only [true_iff]
        obtain ⟨e, he, hn⟩ := (buildAdjacency_none_iff _ _).mp hradj
        obtain ⟨u, v⟩ := e
        have : (v, u) ∈ edges := mem_reverseEdges.mp he
        exact ⟨(v, u), this, fun hh => hn hh.2⟩
      · constructor
        · intro h
          exact absurd h (by simp)
        · rintro ⟨e, he, hn⟩
          exfalso
          by_cases h1 : e.1 < nodes.length
          · have h2 : ¬ e.2 < nodes.length := fun h2 => hn ⟨h1, h2⟩
            have : ∃ e' ∈ reverseEdges edges, ¬ e'.1 < nodes.length :=
              ⟨(e.2, e.1), mem_reverseEdges.mpr (by simpa using he), h2⟩
            rw [(buildAdjacency_none_iff _ _).mpr this] at hradj
            cases hradj
          · have : ∃ e' ∈ edges, ¬ e'.1 < nodes.length := ⟨e, he, h1⟩
            rw [(buildAdjacency_none_iff _ _).mpr this] at hadj
            cases hadj
  refine ⟨hmain, fun hall => ?_⟩
  rcases hres : buildFrames nodes edges with - | r
  · obtain ⟨e, he, hn⟩ := hmain.mp hres
    exact absurd (hall e he) hn
  · exact ⟨r, rfl⟩

/-! ## Frames are value snapshots, appended only -/

/-- The frame pushed by `pushFrame` copies every field of the state. -/
lemma pushFrame_frames (st : KState) (note : String) :
    (pushFrame st note).frames = st.frames ++
      [{ phase := st.phase, note := note, activeNode := st.activeNode,
         activeEdge := st.activeEdge, stack := st.stack,
         visited1 := st.visited1, finishOrder := st.finishOrder,
         visited2 := st.visited2, sccs := st.sccs,
         currentComponent := st.currentComponent, order := st.order,
         orderIndex := st.orderIndex }] := rfl

lemma dfs1_succ (nodes : List String) (adj : List (List Nat)) (fuel node : Nat)
    (st : KState) :
    dfs1 nodes adj (fuel+1) node st =
      (let st1 : KState :=
        { st with visited1 := st.visited1.set node true,
                  stack := st.stack ++ [node],
                  activeNode := some node, activeEdge := none }
       let st2 := pushFrame st1 s!"Pass 1: visit {klabel nodes node}."
       let st3 := dfs1nb nodes adj fuel node (adj.getD node []) st2
       let st4 : KState :=
        { st3 with stack := st3.stack.dropLast,
                   finishOrder := st3.finishOrder ++ [node],
                   activeNode := some node, activeEdge := none }
       pushFrame st4 s!"Pass 1: finish {klabel nodes node} and push to order.") :=
  rfl

lemma dfs1nb_cons (nodes : List String) (adj : List (List Nat))
    (fuel node v : Nat) (ns : List Nat) (st : KState) :
    dfs1nb nodes adj fuel node (v :: ns) st =
      dfs1nb nodes adj fuel node ns
        (let s1 : KState :=
          { st with activeEdge := some (node, v), activeNode := some node }
         let s2 := pushFrame s1
           s!"Pass 1: follow edge {klabel nodes node} -> {klabel nodes v}."
         if s2.visited1.getD v false then s2
         else dfs1 nodes adj fuel v s2) := rfl

lemma dfs2_succ (nodes : List String) (radj : List (List Nat))
    (fuel start : Nat) (st : KState) :
    dfs2 nodes radj (fuel+1) start st =
      (let st1 : KState :=
        { st with visited2 := st.visited2.set start true,
                  currentComponent := st.currentComponent ++ [start],
                  stack := st.stack ++ [start],
                  activeNode := some start, activeEdge := none }
       let st2 := pushFrame st1 s!"Pass 2: add {klabel nodes start} to current SCC."
       let st3 := dfs2nb nodes radj fuel start (radj.getD start []) st2
       let st4 : KState :=
        { st3 with stack := st3.stack.dropLast,
                   activeNode := some start, activeEdge := none }
       pushFrame st4 s!"Pass 2: finish {klabel nodes start} in this SCC.") :=
  rfl

lemma dfs2nb_cons (nodes : List String) (radj : List (List Nat))
    (fuel start v : Nat) (ns : List Nat) (st : KState) :
    dfs2nb nodes radj fuel start (v :: ns) st =
      dfs2nb nodes radj fuel start ns
        (let s1 : KState :=
          { st with activeEdge := some (start, v), activeNode := some start }
         let s2 := pushFrame s1
           s!"Pass 2: follow reversed edge {klabel nodes start} -> {klabel nodes v}."
         if s2.visited2.getD v false then s2
         else dfs2 nodes radj fuel v s2) := rfl

/-- A state whose `frames` extend another's, extended by `pushFrame`. -/
lemma pushFrame_grow (st : KState) (note : String) :
    st.frames <+: (pushFrame st note).frames := by
  rw [pushFrame_frames]
  exact List.prefix_append _ _

/-- DFS pass 1 only appends frames. -/
lemma dfs1_frames_grow (nodes : List String) (adj : List (List Nat)) :
    ∀ fuel : Nat,
      (∀ (u : Nat) (st : KState),
        st.frames <+: (dfs1 nodes adj fuel u st).frames) ∧
      (∀ (u : Nat) (ns : List Nat) (st : KState),
        st.frames <+: (dfs1nb nodes adj fuel u ns st).frames) := by
  have hnb : ∀ fuel : Nat,
      (∀ (u : Nat) (st : KState),
        st.frames <+: (dfs1 nodes adj fuel u st).frames) →
      (∀ (u : Nat) (ns : List Nat) (st : KState),
        st.frames <+: (dfs1nb nodes adj fuel u ns st).frames) := by
    intro fuel hP u ns
    induction ns with
    | nil => intro st; exact List.prefix_rfl
    | cons v ns ihns =>
      intro st
      rw [dfs1nb_cons]
      refine List.IsPrefix.trans ?_ (ihns _)
      dsimp only
      split
      · rw [pushFrame_frames]
        exact List.prefix_append _ _
      · refine List.IsPrefix.trans ?_ (hP v _)
        rw [pushFrame_frames]
        exact List.prefix_append _ _
  intro fuel
  induction fuel with
  | zero => exact ⟨fun u st => List.prefix_rfl, hnb 0 (fun u st => List.prefix_rfl)⟩
  | succ fuel ih =>
    have hP : ∀ (u : Nat) (st : KState),
        st.frames <+: (dfs1 nodes adj (fuel+1) u st).frames := by
      intro u st
      rw [dfs1_succ]
      dsimp only
      have h1 : st.frames <+:
          (pushFrame
            { st with visited1 := st.visited1.set u true,
                      stack := st.stack ++ [u],
                      activeNode := some u, activeEdge := none }
            s!"Pass 1: visit {klabel nodes u}.").frames := by
        rw [pushFrame_frames]
        exact List.prefix_append _ _
      have h2 := hnb fuel ih.1 u (adj.getD u [])
        (pushFrame
          { st with visited1 := st.visited1.set u true,
                    stack := st.stack ++ [u],
                    activeNode := some u, activeEdge := none }
          s!"Pass 1: visit {klabel nodes u}.")
      refine (h1.trans h2).trans ?_
      rw [pushFrame_frames]
      exact List.prefix_append _ _
    exact ⟨hP, hnb (fuel+1) hP⟩

/-- DFS pass 2 only appends frames. -/
lemma dfs2_frames_grow (nodes : List String) (radj : List (List Nat)) :
    ∀ fuel : Nat,
      (∀ (u : Nat) (st : KState),
        st.frames <+: (dfs2 nodes radj fuel u st).frames) ∧
      (∀ (u : Nat) (ns : List Nat) (st : KState),
        st.frames <+: (dfs2nb nodes radj fuel u ns st).frames) := by
  have hnb : ∀ fuel : Nat,
      (∀ (u : Nat) (st : KState),
        st.frames <+: (dfs2 nodes radj fuel u st).frames) →
      (∀ (u : Nat) (ns : List Nat) (st : KState),
        st.frames <+: (dfs2nb nodes radj fuel u ns st).frames) := by
    intro fuel hP u ns
    induction ns with
    | nil => intro st; exact List.prefix_rfl
    | cons v ns ihns =>
      intro st
      rw [dfs2nb_cons]
      refine List.IsPrefix.trans ?_ (ihns _)
      dsimp only
      split
      · rw [pushFrame_frames]
        exact List.prefix_append _ _
      · refine List.IsPrefix.trans ?_ (hP v _)
        rw [pushFrame_frames]
        exact List.prefix_append _ _
  intro fuel
  induction fuel with
  | zero => exact ⟨fun u st => List.prefix_rfl, hnb 0 (fun u st => List.prefix_rfl)⟩
  | succ fuel ih =>
    have hP : ∀ (u : Nat) (st : KState),
        st.frames <+: (dfs2 nodes radj (fuel+1) u st).frames := by
      intro u st
      rw [dfs2_succ]
      dsimp only
      have h1 : st.frames <+:
          (pushFrame
            { st with visited2 := st.visited2.set u true,
                      currentComponent := st.currentComponent ++ [u],
                      stack := st.stack ++ [u],
                      activeNode := some u, activeEdge := none }
            s!"Pass 2: add {klabel nodes u} to current SCC.").frames := by
        rw [pushFrame_frames]
        exact List.prefix_append _ _
      have h2 := hnb fuel ih.1 u (radj.getD u [])
        (pushFrame
          { st with visited2 := st.visited2.set u true,
                    currentComponent := st.currentComponent ++ [u],
                    stack := st.stack ++ [u],
                    activeNode := some u, activeEdge := none }
          s!"Pass 2: add {klabel nodes u} to current SCC.")
      refine (h1.trans h2).trans ?_
      rw [pushFrame_frames]
      exact List.prefix_append _ _
    exact ⟨hP, hnb (fuel+1) hP⟩

/-- The pass-1 root loop only appends frames. -/
lemma pass1Go_frames_grow (nodes : List String) (adj : List (List Nat))
    (fuel : Nat) : ∀ (roots : List Nat) (st : KState),
      st.frames <+: (pass1Go nodes adj fuel roots st).frames := by
  intro roots
  induction roots with
  | nil => intro st; exact List.prefix_rfl
  | cons i rest ih =>
    intro st
    rw [pass1Go]
    split
    · exact ih st
    · dsimp only
      refine List.IsPrefix.trans ?_ (ih _)
      refine List.IsPrefix.trans ?_ ((dfs1_frames_grow nodes adj fuel).1 i _)
      rw [pushFrame_frames]
      exact List.prefix_append _ _

/-- The pass-2 order loop only appends frames. -/
lemma pass2Go_frames_grow (nodes : List String) (radj : List (List Nat))
    (fuel : Nat) : ∀ (ordr : List Nat) (index : Nat) (st : KState),
      st.frames <+: (pass2Go nodes radj fuel ordr index st).frames := by
  intro ordr
  induction ordr with
  | nil => intro index st; exact List.prefix_rfl
  | cons node rest ih =>
    intro index st
    rw [pass2Go]
    split
    · dsimp only
      refine List.IsPrefix.trans ?_ (ih _ _)
      rw [pushFrame_frames]
      exact List.prefix_append _ _
    · dsimp only
      refine List.IsPrefix.trans ?_ (ih _ _)
      have h1 : st.frames <+:
          (dfs2 nodes radj fuel node
            (pushFrame
              { st with currentComponent := [], stack := [],
                        activeNode := some node, activeEdge := none,
                        orderIndex := (index : Int) }
              s!"Pass 2: start new SCC from {klabel nodes node}.")).frames := by
        refine List.IsPrefix.trans ?_
          ((dfs2_frames_grow nodes radj fuel).1 node _)
        rw [pushFrame_frames]
        exact List.prefix_append _ _
      refine h1.trans ?_
      rw [pushFrame_frames]
      exact List.prefix_append _ _

/-- The search tracer's outer loop only appends events. -/
lemma seLoop_append_only (tc pc : List Char) (b : List Int) (n m : Nat) :
    ∀ (k i : Nat) (j : Int) (ms : List Nat) (evs : List SearchEvent),
      ∃ tail, (seLoop tc pc b n m k i j ms evs).2 = evs ++ tail := by
  intro k
  induction k with
  | zero => intro i j ms evs; exact ⟨[], by simp [seLoop]⟩
  | succ k ih =>
    intro i j ms evs
    by_cases hi : i < n
    · rcases hfb : seFb tc pc b i ms (m+1) j evs with ⟨j1, evs1⟩
      rw [seLoop_succ tc pc b n m k i j ms evs j1 evs1 hi hfb]
      obtain ⟨tail1, htail1, -⟩ := seFb_snd tc pc b i ms (m+1) j evs
      rw [hfb] at htail1
      have htail1' : evs1 = evs ++ tail1 := htail1
      by_cases hj : j1 + 1 = (m : Int)
      · rw [if_pos hj]
        obtain ⟨tail2, htail2⟩ := ih (i+1) (b.getD (j1+1).toNat 0) (ms ++ [i+1-m])
          ((((if 0 ≤ j1 then evs1 ++ [seCmpEv tc pc i j1 ms] else evs1)
              ++ [seAdvEv (i+1) (j1+1) ms])
            ++ [seFoundEv (i+1) (j1+1) (i+1-m) (ms ++ [i+1-m])])
            ++ [seFoundFbEv (i+1) (j1+1) (b.getD (j1+1).toNat 0)
                  (ms ++ [i+1-m])])
        rw [htail2, htail1']
        by_cases h0 : 0 ≤ j1 <;> simp [h0]
      · rw [if_neg hj]
        obtain ⟨tail2, htail2⟩ := ih (i+1) (j1+1) ms
          ((if 0 ≤ j1 then evs1 ++ [seCmpEv tc pc i j1 ms] else evs1)
            ++ [seAdvEv (i+1) (j1+1) ms])
        rw [htail2, htail1']
        by_cases h0 : 0 ≤ j1 <;> simp [h0]
    · rw [seLoop_exit _ _ _ _ _ _ _ _ _ _ hi]
      exact ⟨[], by simp⟩

/-- **C4.** Frames are value snapshots, appended only: `pushFrame` appends a
frame that copies every field of the state at that instant (full copies of
the stack, visited sets, finish order, component lists, …), and every step
of each of the three tracers — the SCC tracer's two DFS passes and their
driver loops, the failure tracer's outer loop and the search tracer's outer
loop — leaves all previously appended frames/events in place, extending the
trace at the end only. -/
theorem frames_are_append_only_snapshots :
    (∀ (st : KState) (note : String),
      (pushFrame st note).frames = st.frames ++
        [{ phase := st.phase, note := note, activeNode := st.activeNode,
           activeEdge := st.activeEdge, stack := st.stack,
           visited1 := st.visited1, finishOrder := st.finishOrder,
           visited2 := st.visited2, sccs := st.sccs,
           currentComponent := st.currentComponent, order := st.order,
           orderIndex := st.orderIndex }]) ∧
    (∀ (nodes : List String) (adj : List (List Nat)) (fuel u : Nat)
       (st : KState),
      st.frames <+: (dfs1 nodes adj fuel u st).frames) ∧
    (∀ (nodes : List String) (radj : List (List Nat)) (fuel u : Nat)
       (st : KState),
      st.frames <+: (dfs2 nodes radj fuel u st).frames) ∧
    (∀ (nodes : List String) (adj : List (List Nat)) (fuel : Nat)
       (roots : List Nat) (st : KState),
      st.frames <+: (pass1Go nodes adj fuel roots st).frames) ∧
    (∀ (nodes : List String) (radj : List (List Nat)) (fuel : Nat)
       (ordr : List Nat) (index : Nat) (st : KState),
      st.frames <+: (pass2Go nodes radj fuel ordr index st).frames) ∧
    (∀ (p : List Char) (m k i : Nat) (j : Int) (fu : Nat) (b : List Int)
       (evs : List FailureEvent),
      ∃ tail, feLoop p m k i j fu b evs = evs ++ tail) ∧
    (∀ (tc pc : List Char) (b : List Int) (n m k i : Nat) (j : Int)
       (ms : List Nat) (evs : List SearchEvent),
      ∃ tail, (seLoop tc pc b n m k i j ms evs).2 = evs ++ tail) :=
  ⟨fun st note => pushFrame_frames st note,
   fun nodes adj fuel u st => (dfs1_frames_grow nodes adj fuel).1 u st,
   fun nodes radj fuel u st => (dfs2_frames_grow nodes radj fuel).1 u st,
   fun nodes adj fuel roots st => pass1Go_frames_grow nodes adj fuel roots st,
   fun nodes radj fuel ordr index st =>
     pass2Go_frames_grow nodes radj fuel ordr index st,
   fun p m k i j fu b evs => feLoop_append_only p m k i j fu b evs,
   fun tc pc b n m k i j ms evs => seLoop_append_only tc pc b n m k i j ms evs⟩

/-! ## Zero-edge graphs -/

lemma getD_set_ne_bool (l : List Bool) (i t : Nat) (v : Bool) (h : i ≠ t) :
    (l.set i v).getD t false = l.getD t false := by
  rw [List.getD_eq_getElem?_getD, List.getD_eq_getElem?_getD,
    List.getElem?_set_ne h]

lemma getD_replicate_nil (n i : Nat) :
    (List.replicate n ([] : List Nat)).getD i [] = [] := by
  rw [List.getD_eq_getElem?_getD, List.getElem?_replicate]
  by_cases h : i < n <;> simp [h]

lemma getD_replicate_false (n i : Nat) :
    (List.replicate n false).getD i false = false := by
  rw [List.getD_eq_getElem?_getD, List.getElem?_replicate]
  by_cases h : i < n <;> simp [h]

/-- `dfs1` on a node with no outgoing edges: mark it visited, append it to
the finish order, leave the pass-2 fields alone. -/
lemma dfs1_empty (nodes : List String) (adj : List (List Nat)) (f i : Nat)
    (st : KState) (h : adj.getD i [] = []) :
    (dfs1 nodes adj (f+1) i st).visited1 = st.visited1.set i true ∧
    (dfs1 nodes adj (f+1) i st).finishOrder = st.finishOrder ++ [i] ∧
    (dfs1 nodes adj (f+1) i st).visited2 = st.visited2 ∧
    (dfs1 nodes adj (f+1) i st).sccs = st.sccs ∧
    (dfs1 nodes adj (f+1) i st).currentComponent = st.currentComponent := by
  rw [dfs1_succ]
  dsimp only
  rw [h]
  exact ⟨rfl, rfl, rfl, rfl, rfl⟩

/-- `dfs2` on a node with no outgoing reversed edges: mark it visited,
append it to the current component, leave `sccs` alone. -/
lemma dfs2_empty (nodes : List String) (radj : List (List Nat)) (f i : Nat)
    (st : KState) (h : radj.getD i [] = []) :
    (dfs2 nodes radj (f+1) i st).visited2 = st.visited2.set i true ∧
    (dfs2 nodes radj (f+1) i st).currentComponent =
      st.currentComponent ++ [i] ∧
    (dfs2 nodes radj (f+1) i st).sccs = st.sccs := by
  rw [dfs2_succ]
  dsimp only
  rw [h]
  exact ⟨rfl, rfl, rfl⟩

/-- Pass 1 over an edgeless graph visits the pending roots in list order,
appending each to the finish order. -/
lemma pass1Go_empty (nodes : List String) (adj : List (List Nat)) (f : Nat)
    (hadj : ∀ i, adj.getD i [] = []) :
    ∀ (l : List Nat) (st : KState), l.Nodup →
      (∀ i ∈ l, st.visited1.getD i false = false) →
      (pass1Go nodes adj (f+1) l st).finishOrder = st.finishOrder ++ l ∧
      (pass1Go nodes adj (f+1) l st).visited2 = st.visited2 ∧
      (pass1Go nodes adj (f+1) l st).sccs = st.sccs ∧
      (pass1Go nodes adj (f+1) l st).currentComponent =
        st.currentComponent := by
  intro l
  induction l with
  | nil =>
    intro st _ _
    exact ⟨by simp [pass1Go], rfl, rfl, rfl⟩
  | cons i rest ih =>
    intro st hnd hunv
    obtain ⟨hmem, hndrest⟩ := List.nodup_cons.mp hnd
    have hi : st.visited1.getD i false = false :=
      hunv i (List.mem_cons_self i rest)
    rw [pass1Go, if_neg (by rw [hi]; exact Bool.false_ne_true)]
    dsimp only
    obtain ⟨hv1, hfo, hv2, hsc, hcc⟩ := dfs1_empty nodes adj f i
      (pushFrame { st with activeNode := some i, activeEdge := none }
        s!"Pass 1: start DFS from {klabel nodes i}.") (hadj i)
    obtain ⟨ihfo, ihv2, ihsc, ihcc⟩ := ih
      (dfs1 nodes adj (f+1) i
        (pushFrame { st with activeNode := some i, activeEdge := none }
          s!"Pass 1: start DFS from {klabel nodes i}."))
      hndrest
      (by
        intro j hj
        rw [hv1]
        have hji : (i : Nat) ≠ j := fun hij => hmem (hij ▸ hj)
        rw [getD_set_ne_bool _ _ _ _ hji]
        exact hunv j (List.mem_cons_of_mem i hj))
    refine ⟨?_, ?_, ?_, ?_⟩
    · rw [ihfo, hfo]
      show (st.finishOrder ++ [i]) ++ rest = st.finishOrder ++ i :: rest
      simp
    · rw [ihv2, hv2]
      rfl
    · rw [ihsc, hsc]
      rfl
    · rw [ihcc, hcc]
      rfl

/-- Pass 2 over an edgeless graph turns every pending order entry into its
own singleton component, in list order. -/
lemma pass2Go_empty (nodes : List String) (radj : List (List Nat)) (f : Nat)
    (hradj : ∀ i, radj.getD i [] = []) :
    ∀ (l : List Nat), l.Nodup →
      ∀ (index : Nat) (st : KState),
      (∀ i ∈ l, st.visited2.getD i false = false) →
      (pass2Go nodes radj (f+1) l index st).sccs =
        st.sccs ++ l.map (fun i => [i]) := by
  intro l
  induction l with
  | nil =>
    intro _ index st _
    simp [pass2Go]
  | cons node rest ih =>
    intro hnd index st hunv
    obtain ⟨hmem, hndrest⟩ := List.nodup_cons.mp hnd
    have hn0 : st.visited2.getD node false = false :=
      hunv node (List.mem_cons_self node rest)
    rw [pass2Go]
    dsimp only
    rw [if_neg (by rw [hn0]; exact Bool.false_ne_true)]
    obtain ⟨hv2, hcc, hsc⟩ := dfs2_empty nodes radj f node
      (pushFrame
        { st with currentComponent := [], stack := [],
                  activeNode := some node, activeEdge := none,
                  orderIndex := (index : Int) }
        s!"Pass 2: start new SCC from {klabel nodes node}.") (hradj node)
    have hrec := ih hndrest (index + 1)
      (pushFrame
        { dfs2 nodes radj (f+1) node
            (pushFrame
              { st with currentComponent := [], stack := [],
                        activeNode := some node, activeEdge := none,
                        orderIndex := (index : Int) }
              s!"Pass 2: start new SCC from {klabel nodes node}.") with
          sccs :=
            (dfs2 nodes radj (f+1) node
              (pushFrame
                { st with currentComponent := [], stack := [],
                          activeNode := some node, activeEdge := none,
                          orderIndex := (index : Int) }
                s!"Pass 2: start new SCC from {klabel nodes node}.")).sccs
              ++ [(dfs2 nodes radj (f+1) node
                    (pushFrame
                      { st with currentComponent := [], stack := [],
                                activeNode := some node, activeEdge := none,
                                orderIndex := (index : Int) }
                      s!"Pass 2: start new SCC from {klabel nodes node}.")).currentComponent],
          stack := [], activeNode := some node, activeEdge := none }
        (toString "Pass 2: complete SCC #" ++
          toString ((dfs2 nodes radj (f+1) node
              (pushFrame
                { st with currentComponent := [], stack := [],
                          activeNode := some node, activeEdge := none,
                          orderIndex := (index : Int) }
                s!"Pass 2: start new SCC from {klabel nodes node}.")).sccs
              ++ [(dfs2 nodes radj (f+1) node
                    (pushFrame
                      { st with currentComponent := [], stack := [],
                                activeNode := some node, activeEdge := none,
                                orderIndex := (index : Int) }
                      s!"Pass 2: start new SCC from {klabel nodes node}.")).currentComponent]).length ++
          toString ": " ++
          toString (String.intercalate ", "
          (((dfs2 nodes radj (f+1) node
              (pushFrame
                { st with currentComponent := [], stack := [],
                          activeNode := some node, activeEdge := none,
                          orderIndex := (index : Int) }
                s!"Pass 2: start new SCC from {klabel nodes node}.")).currentComponent).map (klabel nodes))) ++
          toString "."))
      (by
        intro j hj
        have hjn : (node : Nat) ≠ j := fun hij => hmem (hij ▸ hj)
        show ((dfs2 nodes radj (f+1) node
          (pushFrame
            { st with currentComponent := [], stack := [],
                      activeNode := some node, activeEdge := none,
                      orderIndex := (index : Int) }
            s!"Pass 2: start new SCC from {klabel nodes node}.")).visited2).getD j false = false
        rw [hv2, getD_set_ne_bool _ _ _ _ hjn]
        exact hunv j (List.mem_cons_of_mem node hj))
    refine hrec.trans ?_
    show ((dfs2 nodes radj (f+1) node
      (pushFrame
        { st with currentComponent := [], stack := [],
                  activeNode := some node, activeEdge := none,
                  orderIndex := (index : Int) }
        s!"Pass 2: start new SCC from {klabel nodes node}.")).sccs
        ++ [(dfs2 nodes radj (f+1) node
              (pushFrame
                { st with currentComponent := [], stack := [],
                          activeNode := some node, activeEdge := none,
                          orderIndex := (index : Int) }
                s!"Pass 2: start new SCC from {klabel nodes node}.")).currentComponent])
      ++ rest.map (fun i => [i]) = st.sccs ++ (node :: rest).map (fun i => [i])
    rw [hsc, hcc]
    show st.sccs ++ [([] : List Nat) ++ [node]] ++ List.map (fun i => [i]) rest =
      st.sccs ++ (node :: rest).map (fun i => [i])
    simp

/-- **C6** as stated is refuted: on the two-node zero-edge graph the final
component list is `[[1], [0]]` — the components complete in descending
node-index order, not ascending. -/
theorem zero_edge_two_nodes_descending :
    finalSccs ["A", "B"] [] = [[1], [0]] ∧
      finalSccs ["A", "B"] [] ≠ [[0], [1]] := by decide

/-- **C6 (corrected).** The SCC tracer on a graph with `n` nodes and zero
edges yields exactly `n` singleton components, one per node; but they are
completed in *descending* node-index order (pass 1 finishes `0,…,n-1` in
that order, and pass 2 walks the reversed finish order `n-1,…,0`). -/
theorem zero_edge_graph_singletons (nodes : List String) :
    finalSccs nodes [] =
      (List.range nodes.length).reverse.map (fun i => [i]) := by
  cases hn : nodes.length with
  | zero =>
    have h0 : nodes = [] := List.length_eq_zero.mp hn
    subst h0
    rfl
  | succ f =>
    unfold finalSccs buildFrames buildFramesCore
    dsimp only
    rw [show reverseEdges [] = ([] : List (Nat × Nat)) from rfl,
      show buildAdjacency nodes.length [] =
        some (List.replicate nodes.length ([] : List Nat)) from rfl]
    dsimp only
    rw [hn]
    obtain ⟨hfo, hv2, hsc, hcc⟩ := pass1Go_empty nodes
      (List.replicate (f+1) ([] : List Nat)) f
      (fun i => getD_replicate_nil _ _) (List.range (f+1)) (kInit (f+1))
      (List.nodup_range _) (fun i _ => getD_replicate_false _ _)
    have hord : (pass1Go nodes (List.replicate (f+1) ([] : List Nat)) (f+1)
        (List.range (f+1)) (kInit (f+1))).finishOrder = List.range (f+1) := by
      rw [hfo]
      rfl
    have hv2A : (pass1Go nodes (List.replicate (f+1) ([] : List Nat)) (f+1)
        (List.range (f+1)) (kInit (f+1))).visited2 =
          List.replicate (f+1) false := by
      rw [hv2]
      rfl
    have hscA : (pass1Go nodes (List.replicate (f+1) ([] : List Nat)) (f+1)
        (List.range (f+1)) (kInit (f+1))).sccs = [] := by
      rw [hsc]
      rfl
    rw [pushFrame_frames, List.getLastD_concat]
    dsimp only
    rw [hord]
    refine (pass2Go_empty nodes (List.replicate (f+1) ([] : List Nat)) f
      (fun i => getD_replicate_nil _ _) ((List.range (f+1)).reverse)
      (by simp [List.nodup_range]) 0 _ ?hunv).trans ?hfin
    case hunv =>
      intro j hj
      show ((pass1Go nodes (List.replicate (f+1) ([] : List Nat)) (f+1)
        (List.range (f+1)) (kInit (f+1))).visited2).getD j false = false
      rw [hv2A]
      exact getD_replicate_false _ _
    case hfin =>
      show (pass1Go nodes (List.replicate (f+1) ([] : List Nat)) (f+1)
          (List.range (f+1)) (kInit (f+1))).sccs ++
          ((List.range (f+1)).reverse).map (fun i => [i]) =
        ((List.range (f+1)).reverse).map (fun i => [i])
      rw [hscA]
      simp

/-- Instance of the edge-validation theorem: an out-of-range `to` endpoint
is rejected with no partial computation. -/
theorem invalid_edges_fail_before_frames_inst :
    (buildFrames ["A", "B"] [(0, 2)] = none ↔
      ∃ e ∈ [((0 : Nat), (2 : Nat))],
        ¬ (e.1 < (["A", "B"] : List String).length ∧
           e.2 < (["A", "B"] : List String).length)) ∧
    ((∀ e ∈ [((0 : Nat), (2 : Nat))],
        e.1 < (["A", "B"] : List String).length ∧
        e.2 < (["A", "B"] : List String).length) →
      ∃ r, buildFrames ["A", "B"] [(0, 2)] = some r) :=
  invalid_edges_fail_before_frames ["A", "B"] [(0, 2)]

/-! ## Kosaraju correctness: list and reachability groundwork -/

lemma indexOf_append_cons_self (l1 l2 : List Nat) (a : Nat) (h : a ∉ l1) :
    (l1 ++ a :: l2).indexOf a = l1.length := by
  induction l1 with
  | nil => simp
  | cons x xs ih =>
    simp only [List.mem_cons, not_or] at h
    rw [List.cons_append,
      List.indexOf_cons_ne _ (fun he => h.1 he.symm), ih h.2]
    rfl

lemma count_false_set_true (l : List Bool) (i : Nat) (h : i < l.length)
    (hf : l.getD i false = false) :
    (l.set i true).count false + 1 = l.count false := by
  induction l generalizing i with
  | nil => simp at h
  | cons x xs ih =>
    cases i with
    | zero =>
      simp only [List.getD_cons_zero] at hf
      subst hf
      simp [List.count_cons]
    | succ j =>
      simp only [List.length_cons, Nat.succ_lt_succ_iff] at h
      simp only [List.getD_cons_succ] at hf
      simp only [List.set_cons_succ, List.count_cons]
      rw [← ih j h hf]
      omega

lemma getD_set_eq_bool (l : List Bool) (i : Nat) (v : Bool)
    (h : i < l.length) : (l.set i v).getD i false = v := by
  simp [List.getD_eq_getElem?_getD, List.getElem?_set, h]

lemma RAvoid_mono {adj : List (List Nat)} {V W : Nat → Prop}
    (hVW : ∀ x, V x → W x) {u t : Nat} (h : RAvoid adj W u t) :
    RAvoid adj V u t :=
  Relation.ReflTransGen.mono
    (fun a b hab => ⟨hab.1, fun hv => hab.2 (hVW b hv)⟩) h

lemma RAvoid.toReachA {adj : List (List Nat)} {V : Nat → Prop} {u t : Nat}
    (h : RAvoid adj V u t) : ReachA adj u t :=
  Relation.ReflTransGen.mono (fun a b hab => hab.1) h

lemma MutA.rfl {adj : List (List Nat)} {u : Nat} : MutA adj u u :=
  ⟨Relation.ReflTransGen.refl, Relation.ReflTransGen.refl⟩

lemma MutA.symm {adj : List (List Nat)} {u v : Nat} (h : MutA adj u v) :
    MutA adj v u := ⟨h.2, h.1⟩

lemma MutA.comp {adj : List (List Nat)} {u v w : Nat} (h1 : MutA adj u v)
    (h2 : MutA adj v w) : MutA adj u w :=
  ⟨h1.1.trans h2.1, h2.2.trans h1.2⟩

/-- A path from inside `P` to outside `P` crosses the boundary somewhere. -/
lemma reach_first_exit {adj : List (List Nat)} (P : Nat → Prop)
    {u v : Nat} (h : ReachA adj u v) (hu : P u) (hv : ¬ P v) :
    ∃ p q, ReachA adj u p ∧ EA adj p q ∧ P p ∧ ¬ P q := by
  induction h with
  | refl => exact absurd hu hv
  | @tail b c hb hbc ih =>
    by_cases hPb : P b
    · exact ⟨b, c, hb, hbc, hPb, hv⟩
    · exact ih hPb

/-- Reachability along the reversed adjacency is reachability backwards. -/
lemma reachA_flip {adj radj : List (List Nat)}
    (hflip : ∀ a b, EA radj a b ↔ EA adj b a) {a b : Nat}
    (h : ReachA radj a b) : ReachA adj b a :=
  Relation.ReflTransGen.mono (fun x y hxy => (hflip y x).mp hxy)
    (Relation.ReflTransGen.swap h)

/-- A forward path `w ⇒ r` whose every node is off `V` yields a reversed
path `r ⇒ w` avoiding `V`. -/
lemma reach_rev_avoid {adj radj : List (List Nat)}
    (hflip : ∀ a b, EA radj a b ↔ EA adj b a) (V : Nat → Prop)
    {r w : Nat} (hwr : ReachA adj w r)
    (havoid : ∀ z, ReachA adj w z → ReachA adj z r → ¬ V z) :
    RAvoid radj V r w := by
  induction hwr using Relation.ReflTransGen.head_induction_on with
  | refl => exact Relation.ReflTransGen.refl
  | @head x y hxy hyr ih =>
    refine Relation.ReflTransGen.tail
      (ih (fun z h1 h2 => havoid z (Relation.ReflTransGen.head hxy h1) h2)) ?_
    exact ⟨(hflip y x).mpr hxy,
      havoid x Relation.ReflTransGen.refl
        (Relation.ReflTransGen.head hxy hyr)⟩

/-- Under endpoint validity, reachability along the edge list and along the
adjacency list agree. -/
lemma reachE_iff_reachA {edges : List (Nat × Nat)} {adj : List (List Nat)}
    {n : Nat} (hspec : ∀ u v, v ∈ adj.getD u [] ↔ ((u, v) ∈ edges ∧ u < n))
    (hvalid : ∀ e ∈ edges, e.1 < n ∧ e.2 < n) (u v : Nat) :
    ReachE edges u v ↔ ReachA adj u v := by
  constructor
  · exact Relation.ReflTransGen.mono
      (fun a b hab => (hspec a b).mpr ⟨hab, (hvalid _ hab).1⟩)
  · exact Relation.ReflTransGen.mono (fun a b hab => ((hspec a b).mp hab).1)

/-- `P1Inv` only looks at `visited1`, `finishOrder` and `stack`. -/
lemma P1Inv.congr {n : Nat} {adj : List (List Nat)} {st st' : KState}
    (h : P1Inv n adj st) (h1 : st'.visited1 = st.visited1)
    (h2 : st'.finishOrder = st.finishOrder) (h3 : st'.stack = st.stack) :
    P1Inv n adj st' := by
  have hv : ∀ x, vis1 st' x ↔ vis1 st x := by
    intro x
    unfold vis1
    rw [h1]
  refine ⟨by rw [h1]; exact h.vlen, ?_, ?_, ?_, ?_, ?_, ?_⟩
  · intro x
    rw [hv, h2, h3]
    exact h.viff x
  · rw [h2, h3]
    exact h.disj
  · rw [h2]
    exact h.fnd
  · rw [h3]
    exact h.snd
  · intro x hx y hy
    rw [hv]
    rw [h2] at hx
    exact h.closed x hx y hy
  · intro u hu v huv
    rw [h2] at hu
    rw [h2, h3]
    exact h.kinv u hu v huv

lemma count_false_pos {l : List Bool} {x : Nat} (hx : x < l.length)
    (hf : l.getD x false = false) : 1 ≤ l.count false := by
  have hmem : false ∈ l := by
    rw [List.getD_eq_getElem?_getD, List.getElem?_eq_getElem hx] at hf
    simp only [Option.getD_some] at hf
    exact hf ▸ List.getElem_mem hx
  exact List.count_pos_iff.mpr hmem

lemma RAvoid_target {adj : List (List Nat)} {V : Nat → Prop} {u t : Nat}
    (h : RAvoid adj V u t) : t = u ∨ ¬ V t := by
  rcases Relation.ReflTransGen.cases_tail h with h | ⟨c, _, hc⟩
  · exact Or.inl h
  · exact Or.inr hc.2

lemma not_vis1_getD_false {st : KState} {x : Nat} (h : ¬ vis1 st x) :
    st.visited1.getD x false = false := by
  unfold vis1 at h
  exact Bool.not_eq_true _ ▸ h

lemma not_vis2_getD_false {st : KState} {x : Nat} (h : ¬ vis2 st x) :
    st.visited2.getD x false = false := by
  unfold vis2 at h
  exact Bool.not_eq_true _ ▸ h

/-- Master lemma for one pass-1 DFS call: assuming the pass-1 invariant,
an unvisited in-range start node all grey nodes reach, and enough fuel,
the call satisfies `D1Post` (it appends exactly the avoid-reachable set to
the finish order, start node last) and re-establishes the invariant. -/
lemma dfs1_master (nodes : List String) (adj : List (List Nat)) (n : Nat)
    (HA : ∀ a b, EA adj a b → b < n) :
    ∀ (fuel : Nat) (x : Nat) (st : KState), P1Inv n adj st →
      x < n → ¬ vis1 st x → (∀ g ∈ st.stack, ReachA adj g x) →
      unvis1 st ≤ fuel →
      ∃ L, D1Post nodes adj x st (dfs1 nodes adj fuel x st) L ∧
        P1Inv n adj (dfs1 nodes adj fuel x st) := by
  intro fuel
  induction fuel with
  | zero =>
    intro x st hInv hxn hxv _ hfuel
    have h1 := count_false_pos (hInv.vlen ▸ hxn) (not_vis1_getD_false hxv)
    have h2 : unvis1 st = st.visited1.count false := rfl
    omega
  | succ f ihM =>
    have hNB : ∀ (x : Nat) (ns : List Nat) (s : KState), P1Inv n adj s →
        (∀ v ∈ ns, EA adj x v) → (∀ g ∈ s.stack, ReachA adj g x) →
        unvis1 s ≤ f →
        ∃ Lnb, D1NbPost nodes adj x ns s (dfs1nb nodes adj f x ns s) Lnb ∧
          P1Inv n adj (dfs1nb nodes adj f x ns s) := by
      intro x ns
      induction ns with
      | nil =>
        intro s hInv _ _ _
        refine ⟨[], ?_, hInv⟩
        exact
          { fo := (List.append_nil _).symm
            stk := rfl
            vlen := rfl
            vnew := fun t => by
              show vis1 s t ↔ vis1 s t ∨ t ∈ ([] : List Nat)
              simp
            lsub := fun t ht => absurd ht (List.not_mem_nil t)
            lnd := List.nodup_nil
            nbvis := fun v hv => absurd hv (List.not_mem_nil v)
            mu := rfl
            same := fun f₂ _ => rfl
            v2 := rfl
            sccs_eq := rfl
            cc := rfl
            ord := rfl }
      | cons v ns ihns =>
        intro s hInv hnbrs hSR hfuel
        have hEAxv : EA adj x v := hnbrs v (List.mem_cons_self v ns)
        rw [dfs1nb_cons]
        dsimp only
        split
        next hvis =>
          have hvv : vis1 s v := hvis
          obtain ⟨Lnb, hpost, hinv⟩ := ihns
            (pushFrame { s with activeEdge := some (x, v),
                                activeNode := some x }
              s!"Pass 1: follow edge {klabel nodes x} -> {klabel nodes v}.")
            (hInv.congr rfl rfl rfl)
            (fun w hw => hnbrs w (List.mem_cons_of_mem v hw))
            hSR hfuel
          refine ⟨Lnb, ?_, hinv⟩
          exact
            { fo := hpost.fo
              stk := hpost.stk
              vlen := hpost.vlen
              vnew := hpost.vnew
              lsub := fun t ht => by
                obtain ⟨w, hw, hnw, hra⟩ := hpost.lsub t ht
                exact ⟨w, List.mem_cons_of_mem v hw, hnw, hra⟩
              lnd := hpost.lnd
              nbvis := fun w hw => by
                rcases List.mem_cons.mp hw with rfl | hw2
                · exact (hpost.vnew w).mpr (Or.inl hvv)
                · exact hpost.nbvis w hw2
              mu := hpost.mu
              same := fun f₂ hf₂ => by
                rw [dfs1nb_cons]
                dsimp only
                split
                next h2 => exact hpost.same f₂ hf₂
                next h2 => exact absurd hvis h2
              v2 := hpost.v2
              sccs_eq := hpost.sccs_eq
              cc := hpost.cc
              ord := hpost.ord }
        next hnvis =>
          have hnv : ¬ vis1 s v := hnvis
          have hvn : v < n := HA x v hEAxv
          obtain ⟨Lv, hC, hCinv⟩ := ihM v
            (pushFrame { s with activeEdge := some (x, v),
                                activeNode := some x }
              s!"Pass 1: follow edge {klabel nodes x} -> {klabel nodes v}.")
            (hInv.congr rfl rfl rfl) hvn hnv
            (fun g hg => Relation.ReflTransGen.tail (hSR g hg) hEAxv)
            hfuel
          have hμPF : unvis1 (pushFrame { s with activeEdge := some (x, v),
                                                 activeNode := some x }
              s!"Pass 1: follow edge {klabel nodes x} -> {klabel nodes v}.")
              = unvis1 s := rfl
          have hμ3 : unvis1 (dfs1 nodes adj f v
              (pushFrame { s with activeEdge := some (x, v),
                                  activeNode := some x }
                s!"Pass 1: follow edge {klabel nodes x} -> {klabel nodes v}.")) ≤ f := by
            have h1 := hC.mu
            rw [hμPF] at h1
            omega
          obtain ⟨Lr, hR, hRinv⟩ := ihns
            (dfs1 nodes adj f v
              (pushFrame { s with activeEdge := some (x, v),
                                  activeNode := some x }
                s!"Pass 1: follow edge {klabel nodes x} -> {klabel nodes v}."))
            hCinv
            (fun w hw => hnbrs w (List.mem_cons_of_mem v hw))
            (by
              intro g hg
              rw [hC.stk] at hg
              exact hSR g hg)
            hμ3
          refine ⟨Lv ++ Lr, ?_, hRinv⟩
          have hvmono2 : ∀ z, vis1 s z → vis1 (dfs1 nodes adj f v
              (pushFrame { s with activeEdge := some (x, v),
                                  activeNode := some x }
                s!"Pass 1: follow edge {klabel nodes x} -> {klabel nodes v}.")) z :=
            fun z hz => (hC.vnew z).mpr (Or.inl hz)
          exact
            { fo := by
                rw [hR.fo, hC.fo]
                exact List.append_assoc _ _ _
              stk := by
                rw [hR.stk, hC.stk]
                rfl
              vlen := by
                rw [hR.vlen, hC.vlen]
                rfl
              vnew := fun t => by
                rw [hR.vnew t, hC.vnew t, List.mem_append]
                tauto
              lsub := fun t ht => by
                rcases List.mem_append.mp ht with ht | ht
                · exact ⟨v, List.mem_cons_self v ns, hnv, (hC.lra t).mp ht⟩
                · obtain ⟨w, hw, hnw, hra⟩ := hR.lsub t ht
                  refine ⟨w, List.mem_cons_of_mem v hw,
                    fun hz => hnw (hvmono2 w hz), RAvoid_mono ?_ hra⟩
                  exact fun z hz => hvmono2 z hz
              lnd := by
                rw [List.nodup_append]
                refine ⟨hC.lnd, hR.lnd, ?_⟩
                intro a ha ha2
                obtain ⟨w, hw, hnw, hra⟩ := hR.lsub a ha2
                have hvis3 : vis1 (dfs1 nodes adj f v
                    (pushFrame { s with activeEdge := some (x, v),
                                        activeNode := some x }
                      s!"Pass 1: follow edge {klabel nodes x} -> {klabel nodes v}.")) a :=
                  (hC.vnew a).mpr (Or.inr ha)
                rcases RAvoid_target hra with rfl | hna
                · exact hnw hvis3
                · exact hna hvis3
              nbvis := fun w hw => by
                rcases List.mem_cons.mp hw with rfl | hw2
                · exact (hR.vnew w).mpr (Or.inl ((hC.vnew w).mpr
                    (Or.inr ((hC.lra w).mpr Relation.ReflTransGen.refl))))
                · exact hR.nbvis w hw2
              mu := by
                have h1 := hR.mu
                have h2 := hC.mu
                rw [hμPF] at h2
                rw [List.length_append]
                omega
              same := fun f₂ hf₂ => by
                rw [dfs1nb_cons]
                dsimp only
                split
                next h2 => exact absurd h2 hnvis
                next h2 =>
                  rw [hC.same f₂ hf₂]
                  refine hR.same f₂ ?_
                  have h3 := hC.mu
                  rw [hμPF] at h3
                  omega
              v2 := by
                rw [hR.v2, hC.v2]
                rfl
              sccs_eq := by
                rw [hR.sccs_eq, hC.sccs_eq]
                rfl
              cc := by
                rw [hR.cc, hC.cc]
                rfl
              ord := by
                rw [hR.ord, hC.ord]
                rfl }
    intro x st hInv hxn hxv hSR hfuel
    have hxFalse : st.visited1.getD x false = false := not_vis1_getD_false hxv
    have hxlen : x < st.visited1.length := hInv.vlen ▸ hxn
    have hμpos : 1 ≤ unvis1 st := count_false_pos hxlen hxFalse
    have hxstk : x ∉ st.stack :=
      fun hx => hxv ((hInv.viff x).mpr (Or.inr hx))
    have hxFO : x ∉ st.finishOrder :=
      fun hx => hxv ((hInv.viff x).mpr (Or.inl hx))
    rw [dfs1_succ]
    dsimp only
    -- the state after marking `x` and pushing it on the stack
    have hv2 : ∀ t, vis1 (pushFrame { st with
        visited1 := st.visited1.set x true, stack := st.stack ++ [x],
        activeNode := some x, activeEdge := none }
        s!"Pass 1: visit {klabel nodes x}.") t ↔ (vis1 st t ∨ t = x) := by
      intro t
      by_cases hxt : t = x
      · subst hxt
        unfold vis1
        show (st.visited1.set t true).getD t false = true ↔ _
        rw [getD_set_eq_bool _ _ _ hxlen]
        simp
      · unfold vis1
        show (st.visited1.set x true).getD t false = true ↔ _
        rw [getD_set_ne_bool _ _ _ _ (fun he => hxt he.symm)]
        simp [hxt]
    have hμ2 : unvis1 (pushFrame { st with
        visited1 := st.visited1.set x true, stack := st.stack ++ [x],
        activeNode := some x, activeEdge := none }
        s!"Pass 1: visit {klabel nodes x}.") + 1 = unvis1 st := by
      show (st.visited1.set x true).count false + 1 = st.visited1.count false
      exact count_false_set_true _ _ hxlen hxFalse
    have hInv2 : P1Inv n adj (pushFrame { st with
        visited1 := st.visited1.set x true, stack := st.stack ++ [x],
        activeNode := some x, activeEdge := none }
        s!"Pass 1: visit {klabel nodes x}.") := by
      refine ⟨?_, ?_, ?_, ?_, ?_, ?_, ?_⟩
      · show (st.visited1.set x true).length = n
        rw [List.length_set]
        exact hInv.vlen
      · intro t
        rw [hv2 t]
        show _ ↔ t ∈ st.finishOrder ∨ t ∈ st.stack ++ [x]
        rw [List.mem_append, List.mem_singleton, hInv.viff t]
        tauto
      · intro t ht
        show t ∉ st.stack ++ [x]
        rw [List.mem_append, List.mem_singleton]
        push_neg
        exact ⟨hInv.disj t ht, fun he => hxFO (he ▸ ht)⟩
      · exact hInv.fnd
      · show (st.stack ++ [x]).Nodup
        rw [List.nodup_append]
        exact ⟨hInv.snd, List.nodup_singleton x,
          fun a ha ha2 => hxstk ((List.mem_singleton.mp ha2) ▸ ha)⟩
      · intro y hy q hq
        rw [hv2 q]
        exact Or.inl (hInv.closed y hy q hq)
      · intro u hu v huv
        rcases hInv.kinv u hu v huv with ⟨h1, w, h2, h3, h4⟩ | ⟨g, hg, hmut⟩
        · exact Or.inl ⟨h1, w, h2, h3, h4⟩
        · exact Or.inr ⟨g, by
            show g ∈ st.stack ++ [x]
            exact List.mem_append.mpr (Or.inl hg), hmut⟩
    obtain ⟨Lnb, hN, hNinv⟩ := hNB x (adj.getD x [])
      (pushFrame { st with
        visited1 := st.visited1.set x true, stack := st.stack ++ [x],
        activeNode := some x, activeEdge := none }
        s!"Pass 1: visit {klabel nodes x}.")
      hInv2 (fun w hw => hw)
      (by
        intro g hg
        rcases List.mem_append.mp hg with hg | hg
        · exact hSR g hg
        · rw [List.mem_singleton.mp hg]
          exact Relation.ReflTransGen.refl)
      (by omega)
    -- name the state after the neighbour loop
    set s3 := dfs1nb nodes adj f x (adj.getD x [])
      (pushFrame { st with
        visited1 := st.visited1.set x true, stack := st.stack ++ [x],
        activeNode := some x, activeEdge := none }
        s!"Pass 1: visit {klabel nodes x}.") with hs3def
    have hfo3 : s3.finishOrder = st.finishOrder ++ Lnb := hN.fo
    have hstk3 : s3.stack = st.stack ++ [x] := hN.stk
    have hxFO3 : x ∉ s3.finishOrder := by
      intro hx
      exact hNinv.disj x hx (hstk3 ▸ List.mem_append.mpr
        (Or.inr (List.mem_singleton_self x)))
    have hxNb : x ∉ Lnb := by
      intro hx
      obtain ⟨w, _, hnw, hra⟩ := hN.lsub x hx
      have hvx2 : vis1 (pushFrame { st with
          visited1 := st.visited1.set x true, stack := st.stack ++ [x],
          activeNode := some x, activeEdge := none }
          s!"Pass 1: visit {klabel nodes x}.") x := (hv2 x).mpr (Or.inr rfl)
      rcases RAvoid_target hra with rfl | hna
      · exact hnw hvx2
      · exact hna hvx2
    -- the final state: stack popped, `x` appended to the finish order
    have hstk' : s3.stack.dropLast = st.stack := by
      rw [hstk3]
      exact List.dropLast_concat
    have hviff' : ∀ t, vis1 s3 t ↔
        (t ∈ s3.finishOrder ++ [x] ∨ t ∈ st.stack) := by
      intro t
      rw [hNinv.viff t, hstk3, List.mem_append, List.mem_append,
        List.mem_singleton]
      tauto
    have hidxmax : ∀ y ∈ s3.finishOrder ++ [x],
        (s3.finishOrder ++ [x]).indexOf y ≤
          (s3.finishOrder ++ [x]).indexOf x := by
      intro y hy
      have h1 : (s3.finishOrder ++ [x]).indexOf x = s3.finishOrder.length :=
        indexOf_append_cons_self _ [] x hxFO3
      have h2 : (s3.finishOrder ++ [x]).indexOf y <
          (s3.finishOrder ++ [x]).length := List.indexOf_lt_length.mpr hy
      rw [List.length_append, List.length_singleton] at h2
      omega
    have hclosed' : ∀ y ∈ s3.finishOrder ++ [x], ∀ q, EA adj y q →
        vis1 s3 q := by
      intro y hy q hq
      rcases List.mem_append.mp hy with hy | hy
      · exact hNinv.closed y hy q hq
      · rw [List.mem_singleton.mp hy] at hq
        exact hN.nbvis q hq
    have hmutstk : ∀ u, MutA adj u x → ∀ g ∈ st.stack, ReachA adj g u :=
      fun u hux g hg => Relation.ReflTransGen.trans (hSR g hg) hux.2
    have hcaseMut : ∀ u, MutA adj u x → vis1 s3 u → ∀ v, ReachA adj u v →
        (v ∈ s3.finishOrder ++ [x] ∧ ∃ w ∈ s3.finishOrder ++ [x],
          MutA adj u w ∧ (s3.finishOrder ++ [x]).indexOf v ≤
            (s3.finishOrder ++ [x]).indexOf w)
        ∨ (∃ g ∈ st.stack, MutA adj u g) := by
      intro u hux hu v huv
      by_cases hvFO : v ∈ s3.finishOrder ++ [x]
      · exact Or.inl ⟨hvFO, x,
          List.mem_append.mpr (Or.inr (List.mem_singleton_self x)),
          hux, hidxmax v hvFO⟩
      · by_cases hvvis : vis1 s3 v
        · have hvstk : v ∈ st.stack := by
            rcases (hviff' v).mp hvvis with h | h
            · exact absurd h hvFO
            · exact h
          exact Or.inr ⟨v, hvstk, huv, hmutstk u hux v hvstk⟩
        · obtain ⟨p, q, hup, hpq, hpv, hqv⟩ :=
            reach_first_exit (vis1 s3) huv hu hvvis
          rcases (hviff' p).mp hpv with hpFO | hpstk
          · exact absurd (hclosed' p hpFO q hpq) hqv
          · exact Or.inr ⟨p, hpstk, hup, hmutstk u hux p hpstk⟩
    refine ⟨Lnb ++ [x], ?_, ?_⟩
    · exact
        { fo := by
            show s3.finishOrder ++ [x] = st.finishOrder ++ (Lnb ++ [x])
            rw [hfo3, List.append_assoc]
          stk := hstk'
          vlen := by
            show s3.visited1.length = st.visited1.length
            rw [hN.vlen]
            show (st.visited1.set x true).length = st.visited1.length
            exact List.length_set _ _ _
          vnew := fun t => by
            show vis1 s3 t ↔ _
            rw [hN.vnew t, hv2 t, List.mem_append, List.mem_singleton]
            tauto
          lra := fun t => by
            rw [List.mem_append, List.mem_singleton]
            constructor
            · rintro (ht | rfl)
              · obtain ⟨w, hw, hnw, hra⟩ := hN.lsub t ht
                have hnwst : ¬ vis1 st w :=
                  fun hz => hnw ((hv2 w).mpr (Or.inl hz))
                refine Relation.ReflTransGen.head ⟨hw, hnwst⟩
                  (RAvoid_mono ?_ hra)
                exact fun z hz => (hv2 z).mpr (Or.inl hz)
              · exact Relation.ReflTransGen.refl
            · intro hra
              have hvisAll : ∀ t, RAvoid adj (vis1 st) x t → vis1 s3 t := by
                intro t ht
                induction ht with
                | refl => exact (hN.vnew x).mpr (Or.inl ((hv2 x).mpr (Or.inr rfl)))
                | @tail b c hb hbc ih =>
                  rcases (hviff' b).mp ih with hbFO | hbstk
                  · exact hclosed' b hbFO c hbc.1
                  · have hvb : vis1 st b := (hInv.viff b).mpr (Or.inr hbstk)
                    rcases RAvoid_target hb with rfl | hnb
                    · exact absurd hbstk hxstk
                    · exact absurd hvb hnb
              have hv3t : vis1 s3 t := hvisAll t hra
              rcases (hN.vnew t).mp hv3t with hv2t | ht
              · rcases (hv2 t).mp hv2t with hvst | rfl
                · rcases RAvoid_target hra with rfl | hna
                  · exact absurd hvst hxv
                  · exact absurd hvst hna
                · exact Or.inr rfl
              · exact Or.inl ht
          lnd := by
            rw [List.nodup_append]
            exact ⟨hN.lnd, List.nodup_singleton x,
              fun a ha ha2 => hxNb ((List.mem_singleton.mp ha2) ▸ ha)⟩
          llast := by
            show (Lnb ++ [x]).getLast? = some x
            exact List.getLast?_concat _
          mu := by
            show unvis1 s3 + (Lnb ++ [x]).length = unvis1 st
            have h1 := hN.mu
            rw [List.length_append, List.length_singleton]
            omega
          same := fun f₂ hf₂ => by
            cases f₂ with
            | zero => omega
            | succ k =>
              rw [dfs1_succ]
              dsimp only
              rw [hN.same k (by omega)]
          v2 := by
            show s3.visited2 = st.visited2
            exact hN.v2
          sccs_eq := by
            show s3.sccs = st.sccs
            exact hN.sccs_eq
          cc := by
            show s3.currentComponent = st.currentComponent
            exact hN.cc
          ord := by
            show s3.order = st.order
            exact hN.ord }
    · refine ⟨?_, ?_, ?_, ?_, ?_, ?_, ?_⟩
      · show s3.visited1.length = n
        rw [hN.vlen]
        show (st.visited1.set x true).length = n
        rw [List.length_set]
        exact hInv.vlen
      · intro t
        show vis1 s3 t ↔ t ∈ s3.finishOrder ++ [x] ∨ t ∈ s3.stack.dropLast
        rw [hstk']
        exact hviff' t
      · intro t ht
        show t ∉ s3.stack.dropLast
        rw [hstk']
        rcases List.mem_append.mp ht with ht | ht
        · intro hts
          exact hNinv.disj t ht
            (hstk3 ▸ List.mem_append.mpr (Or.inl hts))
        · rw [List.mem_singleton.mp ht]
          exact hxstk
      · show (s3.finishOrder ++ [x]).Nodup
        rw [List.nodup_append]
        exact ⟨hNinv.fnd, List.nodup_singleton x,
          fun a ha ha2 => hxFO3 ((List.mem_singleton.mp ha2) ▸ ha)⟩
      · show s3.stack.dropLast.Nodup
        rw [hstk']
        exact hInv.snd
      · intro y hy q hq
        show vis1 s3 q
        exact hclosed' y hy q hq
      · intro u hu v huv
        show (v ∈ s3.finishOrder ++ [x] ∧ ∃ w ∈ s3.finishOrder ++ [x],
            MutA adj u w ∧ (s3.finishOrder ++ [x]).indexOf v ≤
              (s3.finishOrder ++ [x]).indexOf w)
          ∨ (∃ g ∈ s3.stack.dropLast, MutA adj u g)
        rw [hstk']
        rcases List.mem_append.mp hu with huFO | hux
        · rcases hNinv.kinv u huFO v huv with
            ⟨hvFO, w, hwFO, hmut, hidx⟩ | ⟨g, hg, hmut⟩
          · refine Or.inl ⟨List.mem_append.mpr (Or.inl hvFO),
              w, List.mem_append.mpr (Or.inl hwFO), hmut, ?_⟩
            rw [List.indexOf_append_of_mem hvFO,
              List.indexOf_append_of_mem hwFO]
            exact hidx
          · rw [hstk3] at hg
            rcases List.mem_append.mp hg with hg | hg
            · exact Or.inr ⟨g, hg, hmut⟩
            · rw [List.mem_singleton.mp hg] at hmut
              exact hcaseMut u hmut
                ((hNinv.viff u).mpr (Or.inl huFO)) v huv
        · rw [List.mem_singleton.mp hux] at huv ⊢
          exact hcaseMut x MutA.rfl
            ((hviff' x).mpr (Or.inl (List.mem_append.mpr
              (Or.inr (List.mem_singleton_self x))))) v huv

lemma vis1_lt_length {st : KState} {t : Nat} (h : vis1 st t) :
    t < st.visited1.length := by
  by_contra hge
  unfold vis1 at h
  rw [List.getD_eq_getElem?_getD, List.getElem?_eq_none (by omega)] at h
  simp at h

lemma vis2_lt_length {st : KState} {t : Nat} (h : vis2 st t) :
    t < st.visited2.length := by
  by_contra hge
  unfold vis2 at h
  rw [List.getD_eq_getElem?_getD, List.getElem?_eq_none (by omega)] at h
  simp at h

/-- Master lemma for the pass-1 root loop: the invariant is maintained, the
stack stays empty, all processed roots end up visited, and the result is
fuel-independent once the fuel covers the unvisited count. -/
lemma pass1Go_master (nodes : List String) (adj : List (List Nat)) (n : Nat)
    (HA : ∀ a b, EA adj a b → b < n) :
    ∀ (l : List Nat) (st : KState) (fuel : Nat), P1Inv n adj st →
      st.stack = [] → (∀ i ∈ l, i < n) → unvis1 st ≤ fuel →
      P1Inv n adj (pass1Go nodes adj fuel l st) ∧
      (pass1Go nodes adj fuel l st).stack = [] ∧
      (∀ t, vis1 st t → vis1 (pass1Go nodes adj fuel l st) t) ∧
      (∀ i ∈ l, vis1 (pass1Go nodes adj fuel l st) i) ∧
      unvis1 (pass1Go nodes adj fuel l st) ≤ unvis1 st ∧
      (∀ f₂, unvis1 st ≤ f₂ →
        pass1Go nodes adj f₂ l st = pass1Go nodes adj fuel l st) ∧
      (pass1Go nodes adj fuel l st).visited2 = st.visited2 ∧
      (pass1Go nodes adj fuel l st).sccs = st.sccs ∧
      (pass1Go nodes adj fuel l st).currentComponent = st.currentComponent ∧
      (pass1Go nodes adj fuel l st).order = st.order := by
  intro l
  induction l with
  | nil =>
    intro st fuel hInv hstk _ _
    exact ⟨hInv, hstk, fun t h => h, fun i hi => absurd hi (List.not_mem_nil i),
      le_refl _, fun f₂ _ => rfl, rfl, rfl, rfl, rfl⟩
  | cons i rest ih =>
    intro st fuel hInv hstk hbound hfuel
    rw [pass1Go]
    split
    next hvis =>
      have hv : vis1 st i := hvis
      obtain ⟨p1, p2, p3, p4, p5, p6, p7, p8, p9, p10⟩ :=
        ih st fuel hInv hstk (fun j hj => hbound j (List.mem_cons_of_mem i hj))
          hfuel
      refine ⟨p1, p2, p3, ?_, p5, ?_, p7, p8, p9, p10⟩
      · intro j hj
        rcases List.mem_cons.mp hj with rfl | hj2
        · exact p3 j hv
        · exact p4 j hj2
      · intro f₂ hf₂
        rw [pass1Go]
        split
        next h2 => exact p6 f₂ hf₂
        next h2 => exact absurd hvis h2
    next hnvis =>
      have hnv : ¬ vis1 st i := hnvis
      obtain ⟨L, hD, hDinv⟩ := dfs1_master nodes adj n HA fuel i
        (pushFrame { st with activeNode := some i, activeEdge := none }
          s!"Pass 1: start DFS from {klabel nodes i}.")
        (hInv.congr rfl rfl rfl)
        (hbound i (List.mem_cons_self i rest)) hnv
        (by
          intro g hg
          have hg2 : g ∈ st.stack := hg
          rw [hstk] at hg2
          exact absurd hg2 (List.not_mem_nil g))
        hfuel
      have hstk3 : (dfs1 nodes adj fuel i
          (pushFrame { st with activeNode := some i, activeEdge := none }
            s!"Pass 1: start DFS from {klabel nodes i}.")).stack = [] := by
        rw [hD.stk]
        show st.stack = []
        exact hstk
      have hμ3 : unvis1 (dfs1 nodes adj fuel i
          (pushFrame { st with activeNode := some i, activeEdge := none }
            s!"Pass 1: start DFS from {klabel nodes i}.")) ≤ unvis1 st := by
        have h1 := hD.mu
        have h2 : unvis1 (pushFrame { st with activeNode := some i,
                                              activeEdge := none }
            s!"Pass 1: start DFS from {klabel nodes i}.") = unvis1 st := rfl
        omega
      obtain ⟨p1, p2, p3, p4, p5, p6, p7, p8, p9, p10⟩ :=
        ih (dfs1 nodes adj fuel i
          (pushFrame { st with activeNode := some i, activeEdge := none }
            s!"Pass 1: start DFS from {klabel nodes i}."))
          fuel hDinv hstk3
          (fun j hj => hbound j (List.mem_cons_of_mem i hj))
          (le_trans hμ3 hfuel)
      have hivis : vis1 (dfs1 nodes adj fuel i
          (pushFrame { st with activeNode := some i, activeEdge := none }
            s!"Pass 1: start DFS from {klabel nodes i}.")) i := by
        rw [hD.vnew i]
        refine Or.inr ?_
        rw [hD.lra i]
        exact Relation.ReflTransGen.refl
      refine ⟨p1, p2, ?_, ?_, le_trans p5 hμ3, ?_, ?_, ?_, ?_, ?_⟩
      · intro t ht
        exact p3 t ((hD.vnew t).mpr (Or.inl ht))
      · intro j hj
        rcases List.mem_cons.mp hj with rfl | hj2
        · exact p3 j hivis
        · exact p4 j hj2
      · intro f₂ hf₂
        rw [pass1Go]
        split
        next h2 => exact absurd h2 hnvis
        next h2 =>
          dsimp only
          rw [hD.same f₂ hf₂]
          exact p6 f₂ (le_trans hμ3 hf₂)
      · rw [p7, hD.v2]
        rfl
      · rw [p8, hD.sccs_eq]
        rfl
      · rw [p9, hD.cc]
        rfl
      · rw [p10, hD.ord]
        rfl

/-- Master lemma for one pass-2 DFS call on the reversed adjacency: the
call appends exactly the avoid-reachable set to the current component,
marks it visited, leaves every collected node's successors visited, and is
fuel-independent once the fuel covers the unvisited count. -/
lemma dfs2_master (nodes : List String) (radj : List (List Nat)) (n : Nat)
    (HA2 : ∀ a b, EA radj a b → b < n) :
    ∀ (fuel : Nat) (x : Nat) (st : KState), st.visited2.length = n →
      x < n → ¬ vis2 st x → unvis2 st ≤ fuel →
      ∃ M, D2Post nodes radj x st (dfs2 nodes radj fuel x st) M := by
  intro fuel
  induction fuel with
  | zero =>
    intro x st hlen hxn hxv hfuel
    have h1 := count_false_pos (hlen ▸ hxn) (not_vis2_getD_false hxv)
    have h2 : unvis2 st = st.visited2.count false := rfl
    omega
  | succ f ihM =>
    have hNB : ∀ (x : Nat) (ns : List Nat) (s : KState),
        s.visited2.length = n → (∀ v ∈ ns, EA radj x v) → unvis2 s ≤ f →
        ∃ Mnb, D2NbPost nodes radj x ns s (dfs2nb nodes radj f x ns s) Mnb := by
      intro x ns
      induction ns with
      | nil =>
        intro s _ _ _
        refine ⟨[], ?_⟩
        exact
          { cc := (List.append_nil _).symm
            stk := rfl
            vlen := rfl
            vnew := fun t => by
              show vis2 s t ↔ vis2 s t ∨ t ∈ ([] : List Nat)
              simp
            msub := fun t ht => absurd ht (List.not_mem_nil t)
            mnd := List.nodup_nil
            nbvis := fun v hv => absurd hv (List.not_mem_nil v)
            closed2 := fun m hm => absurd hm (List.not_mem_nil m)
            mu := rfl
            same := fun f₂ _ => rfl
            v1 := rfl
            fo := rfl
            sccs_eq := rfl
            ord := rfl }
      | cons v ns ihns =>
        intro s hlen hnbrs hfuel
        have hEAxv : EA radj x v := hnbrs v (List.mem_cons_self v ns)
        rw [dfs2nb_cons]
        dsimp only
        split
        next hvis =>
          have hvv : vis2 s v := hvis
          obtain ⟨Mnb, hpost⟩ := ihns
            (pushFrame { s with activeEdge := some (x, v),
                                activeNode := some x }
              s!"Pass 2: follow reversed edge {klabel nodes x} -> {klabel nodes v}.")
            hlen
            (fun w hw => hnbrs w (List.mem_cons_of_mem v hw))
            hfuel
          refine ⟨Mnb, ?_⟩
          exact
            { cc := hpost.cc
              stk := hpost.stk
              vlen := hpost.vlen
              vnew := hpost.vnew
              msub := fun t ht => by
                obtain ⟨w, hw, hnw, hra⟩ := hpost.msub t ht
                exact ⟨w, List.mem_cons_of_mem v hw, hnw, hra⟩
              mnd := hpost.mnd
              nbvis := fun w hw => by
                rcases List.mem_cons.mp hw with rfl | hw2
                · exact (hpost.vnew w).mpr (Or.inl hvv)
                · exact hpost.nbvis w hw2
              closed2 := hpost.closed2
              mu := hpost.mu
              same := fun f₂ hf₂ => by
                rw [dfs2nb_cons]
                dsimp only
                split
                next h2 => exact hpost.same f₂ hf₂
                next h2 => exact absurd hvis h2
              v1 := hpost.v1
              fo := hpost.fo
              sccs_eq := hpost.sccs_eq
              ord := hpost.ord }
        next hnvis =>
          have hnv : ¬ vis2 s v := hnvis
          have hvn : v < n := HA2 x v hEAxv
          obtain ⟨Mv, hC⟩ := ihM v
            (pushFrame { s with activeEdge := some (x, v),
                                activeNode := some x }
              s!"Pass 2: follow reversed edge {klabel nodes x} -> {klabel nodes v}.")
            hlen hvn hnv hfuel
          have hμPF : unvis2 (pushFrame { s with activeEdge := some (x, v),
                                                 activeNode := some x }
              s!"Pass 2: follow reversed edge {klabel nodes x} -> {klabel nodes v}.")
              = unvis2 s := rfl
          have hlen3 : (dfs2 nodes radj f v
              (pushFrame { s with activeEdge := some (x, v),
                                  activeNode := some x }
                s!"Pass 2: follow reversed edge {klabel nodes x} -> {klabel nodes v}.")).visited2.length = n := by
            rw [hC.vlen]
            exact hlen
          have hμ3 : unvis2 (dfs2 nodes radj f v
              (pushFrame { s with activeEdge := some (x, v),
                                  activeNode := some x }
                s!"Pass 2: follow reversed edge {klabel nodes x} -> {klabel nodes v}.")) ≤ f := by
            have h1 := hC.mu
            rw [hμPF] at h1
            omega
          obtain ⟨Mr, hR⟩ := ihns
            (dfs2 nodes radj f v
              (pushFrame { s with activeEdge := some (x, v),
                                  activeNode := some x }
                s!"Pass 2: follow reversed edge {klabel nodes x} -> {klabel nodes v}."))
            hlen3
            (fun w hw => hnbrs w (List.mem_cons_of_mem v hw))
            hμ3
          refine ⟨Mv ++ Mr, ?_⟩
          have hvmono2 : ∀ z, vis2 s z → vis2 (dfs2 nodes radj f v
              (pushFrame { s with activeEdge := some (x, v),
                                  activeNode := some x }
                s!"Pass 2: follow reversed edge {klabel nodes x} -> {klabel nodes v}.")) z :=
            fun z hz => (hC.vnew z).mpr (Or.inl hz)
          exact
            { cc := by
                rw [hR.cc, hC.cc]
                exact List.append_assoc _ _ _
              stk := by
                rw [hR.stk, hC.stk]
                rfl
              vlen := by
                rw [hR.vlen, hC.vlen]
                rfl
              vnew := fun t => by
                rw [hR.vnew t, hC.vnew t, List.mem_append]
                tauto
              msub := fun t ht => by
                rcases List.mem_append.mp ht with ht | ht
                · exact ⟨v, List.mem_cons_self v ns, hnv, (hC.mra t).mp ht⟩
                · obtain ⟨w, hw, hnw, hra⟩ := hR.msub t ht
                  refine ⟨w, List.mem_cons_of_mem v hw,
                    fun hz => hnw (hvmono2 w hz), RAvoid_mono ?_ hra⟩
                  exact fun z hz => hvmono2 z hz
              mnd := by
                rw [List.nodup_append]
                refine ⟨hC.mnd, hR.mnd, ?_⟩
                intro a ha ha2
                obtain ⟨w, hw, hnw, hra⟩ := hR.msub a ha2
                have hvis3 : vis2 (dfs2 nodes radj f v
                    (pushFrame { s with activeEdge := some (x, v),
                                        activeNode := some x }
                      s!"Pass 2: follow reversed edge {klabel nodes x} -> {klabel nodes v}.")) a :=
                  (hC.vnew a).mpr (Or.inr ha)
                rcases RAvoid_target hra with rfl | hna
                · exact hnw hvis3
                · exact hna hvis3
              nbvis := fun w hw => by
                rcases List.mem_cons.mp hw with rfl | hw2
                · exact (hR.vnew w).mpr (Or.inl ((hC.vnew w).mpr
                    (Or.inr ((hC.mra w).mpr Relation.ReflTransGen.refl))))
                · exact hR.nbvis w hw2
              closed2 := fun m hm q hq => by
                rcases List.mem_append.mp hm with hm | hm
                · exact (hR.vnew q).mpr (Or.inl (hC.closed2 m hm q hq))
                · exact hR.closed2 m hm q hq
              mu := by
                have h1 := hR.mu
                have h2 := hC.mu
                rw [hμPF] at h2
                rw [List.length_append]
                omega
              same := fun f₂ hf₂ => by
                rw [dfs2nb_cons]
                dsimp only
                split
                next h2 => exact absurd h2 hnvis
                next h2 =>
                  rw [hC.same f₂ hf₂]
                  refine hR.same f₂ ?_
                  have h3 := hC.mu
                  rw [hμPF] at h3
                  omega
              v1 := by
                rw [hR.v1, hC.v1]
                rfl
              fo := by
                rw [hR.fo, hC.fo]
                rfl
              sccs_eq := by
                rw [hR.sccs_eq, hC.sccs_eq]
                rfl
              ord := by
                rw [hR.ord, hC.ord]
                rfl }
    intro x st hlen hxn hxv hfuel
    have hxFalse : st.visited2.getD x false = false := not_vis2_getD_false hxv
    have hxlen : x < st.visited2.length := hlen ▸ hxn
    have hμpos : 1 ≤ unvis2 st := count_false_pos hxlen hxFalse
    rw [dfs2_succ]
    dsimp only
    have hv2 : ∀ t, vis2 (pushFrame { st with
        visited2 := st.visited2.set x true,
        currentComponent := st.currentComponent ++ [x],
        stack := st.stack ++ [x],
        activeNode := some x, activeEdge := none }
        s!"Pass 2: add {klabel nodes x} to current SCC.") t ↔
        (vis2 st t ∨ t = x) := by
      intro t
      by_cases hxt : t = x
      · subst hxt
        unfold vis2
        show (st.visited2.set t true).getD t false = true ↔ _
        rw [getD_set_eq_bool _ _ _ hxlen]
        simp
      · unfold vis2
        show (st.visited2.set x true).getD t false = true ↔ _
        rw [getD_set_ne_bool _ _ _ _ (fun he => hxt he.symm)]
        simp [hxt]
    have hμ2 : unvis2 (pushFrame { st with
        visited2 := st.visited2.set x true,
        currentComponent := st.currentComponent ++ [x],
        stack := st.stack ++ [x],
        activeNode := some x, activeEdge := none }
        s!"Pass 2: add {klabel nodes x} to current SCC.") + 1 = unvis2 st := by
      show (st.visited2.set x true).count false + 1 = st.visited2.count false
      exact count_false_set_true _ _ hxlen hxFalse
    obtain ⟨Mnb, hN⟩ := hNB x (radj.getD x [])
      (pushFrame { st with
        visited2 := st.visited2.set x true,
        currentComponent := st.currentComponent ++ [x],
        stack := st.stack ++ [x],
        activeNode := some x, activeEdge := none }
        s!"Pass 2: add {klabel nodes x} to current SCC.")
      (by
        show (st.visited2.set x true).length = n
        rw [List.length_set]
        exact hlen)
      (fun w hw => hw)
      (by omega)
    set s3 := dfs2nb nodes radj f x (radj.getD x [])
      (pushFrame { st with
        visited2 := st.visited2.set x true,
        currentComponent := st.currentComponent ++ [x],
        stack := st.stack ++ [x],
        activeNode := some x, activeEdge := none }
        s!"Pass 2: add {klabel nodes x} to current SCC.") with hs3def
    have hstk3 : s3.stack = st.stack ++ [x] := hN.stk
    have hstk' : s3.stack.dropLast = st.stack := by
      rw [hstk3]
      exact List.dropLast_concat
    have hvx2 : vis2 (pushFrame { st with
        visited2 := st.visited2.set x true,
        currentComponent := st.currentComponent ++ [x],
        stack := st.stack ++ [x],
        activeNode := some x, activeEdge := none }
        s!"Pass 2: add {klabel nodes x} to current SCC.") x :=
      (hv2 x).mpr (Or.inr rfl)
    have hxNb : x ∉ Mnb := by
      intro hx
      obtain ⟨w, _, hnw, hra⟩ := hN.msub x hx
      rcases RAvoid_target hra with rfl | hna
      · exact hnw hvx2
      · exact hna hvx2
    refine ⟨x :: Mnb, ?_⟩
    have hvnewAll : ∀ t, vis2 s3 t ↔ (vis2 st t ∨ t ∈ x :: Mnb) := by
      intro t
      rw [hN.vnew t, hv2 t, List.mem_cons]
      tauto
    have hclosedAll : ∀ m ∈ x :: Mnb, ∀ q, EA radj m q → vis2 s3 q := by
      intro m hm q hq
      rcases List.mem_cons.mp hm with rfl | hm2
      · exact hN.nbvis q hq
      · exact hN.closed2 m hm2 q hq
    exact
      { cc := by
          show s3.currentComponent = st.currentComponent ++ (x :: Mnb)
          rw [hN.cc]
          show (st.currentComponent ++ [x]) ++ Mnb = _
          rw [List.append_assoc]
          rfl
        stk := hstk'
        vlen := by
          show s3.visited2.length = st.visited2.length
          rw [hN.vlen]
          show (st.visited2.set x true).length = st.visited2.length
          exact List.length_set _ _ _
        vnew := fun t => by
          show vis2 s3 t ↔ _
          exact hvnewAll t
        mra := fun t => by
          constructor
          · intro ht
            rcases List.mem_cons.mp ht with rfl | ht2
            · exact Relation.ReflTransGen.refl
            · obtain ⟨w, hw, hnw, hra⟩ := hN.msub t ht2
              have hnwst : ¬ vis2 st w :=
                fun hz => hnw ((hv2 w).mpr (Or.inl hz))
              refine Relation.ReflTransGen.head ⟨hw, hnwst⟩
                (RAvoid_mono ?_ hra)
              exact fun z hz => (hv2 z).mpr (Or.inl hz)
          · intro hra
            have hvisAll : ∀ t, RAvoid radj (vis2 st) x t → vis2 s3 t := by
              intro t ht
              induction ht with
              | refl => exact (hN.vnew x).mpr (Or.inl hvx2)
              | @tail b c hb hbc ih =>
                rcases (hvnewAll b).mp ih with hbv | hbM
                · rcases RAvoid_target hb with rfl | hnb
                  · exact absurd hbv hxv
                  · exact absurd hbv hnb
                · exact hclosedAll b hbM c hbc.1
            have hv3t : vis2 s3 t := hvisAll t hra
            rcases (hvnewAll t).mp hv3t with hvst | ht
            · rcases RAvoid_target hra with rfl | hna
              · exact absurd hvst hxv
              · exact absurd hvst hna
            · exact ht
        mnd := by
          rw [List.nodup_cons]
          exact ⟨hxNb, hN.mnd⟩
        closed2 := fun m hm q hq => by
          show vis2 s3 q
          exact hclosedAll m hm q hq
        mu := by
          show unvis2 s3 + (x :: Mnb).length = unvis2 st
          have h1 := hN.mu
          rw [List.length_cons]
          omega
        same := fun f₂ hf₂ => by
          cases f₂ with
          | zero => omega
          | succ k =>
            rw [dfs2_succ]
            dsimp only
            rw [hN.same k (by omega)]
        v1 := by
          show s3.visited1 = st.visited1
          rw [hN.v1]
          rfl
        fo := by
          show s3.finishOrder = st.finishOrder
          rw [hN.fo]
          rfl
        sccs_eq := by
          show s3.sccs = st.sccs
          rw [hN.sccs_eq]
          rfl
        ord := by
          show s3.order = st.order
          rw [hN.ord]
          rfl }

/-- Master lemma for the pass-2 order loop: processing the remaining
suffix of the reversed finish order turns every unvisited entry into a
component that is exactly its strong component, keeping the component
list a disjoint family of full strong components that covers exactly the
visited set. -/
lemma pass2Go_master (nodes : List String) (adj radj : List (List Nat))
    (n : Nat) (FO : List Nat)
    (HA2 : ∀ a b, EA radj a b → b < n)
    (hflip : ∀ a b, EA radj a b ↔ EA adj b a)
    (hFOnd : FO.Nodup)
    (hFOmem : ∀ t, t ∈ FO ↔ t < n)
    (hKL : ∀ u ∈ FO, ∀ v, ReachA adj u v → v ∈ FO ∧ ∃ w ∈ FO,
      MutA adj u w ∧ FO.indexOf v ≤ FO.indexOf w) :
    ∀ (rem done : List Nat) (index : Nat) (st : KState) (fuel : Nat),
      FO.reverse = done ++ rem →
      st.visited2.length = n →
      (∀ c ∈ st.sccs, ∃ r, r < n ∧ ∀ w, w ∈ c ↔ MutA adj r w) →
      (∀ t, vis2 st t ↔ ∃ c ∈ st.sccs, t ∈ c) →
      List.Pairwise (fun c d => ∀ y ∈ c, y ∉ d) st.sccs →
      (∀ c ∈ st.sccs, c.Nodup) →
      (∀ w, w < n → ¬ vis2 st w → w ∈ rem) →
      unvis2 st ≤ fuel →
      (∀ c ∈ (pass2Go nodes radj fuel rem index st).sccs,
        ∃ r, r < n ∧ ∀ w, w ∈ c ↔ MutA adj r w) ∧
      (∀ t, vis2 (pass2Go nodes radj fuel rem index st) t ↔
        ∃ c ∈ (pass2Go nodes radj fuel rem index st).sccs, t ∈ c) ∧
      List.Pairwise (fun c d => ∀ y ∈ c, y ∉ d)
        (pass2Go nodes radj fuel rem index st).sccs ∧
      (∀ c ∈ (pass2Go nodes radj fuel rem index st).sccs, c.Nodup) ∧
      (∀ w ∈ rem, vis2 (pass2Go nodes radj fuel rem index st) w) ∧
      (∀ t, vis2 st t → vis2 (pass2Go nodes radj fuel rem index st) t) ∧
      (∀ f₂, unvis2 st ≤ f₂ →
        pass2Go nodes radj f₂ rem index st =
          pass2Go nodes radj fuel rem index st) ∧
      (pass2Go nodes radj fuel rem index st).visited1 = st.visited1 ∧
      (pass2Go nodes radj fuel rem index st).finishOrder = st.finishOrder ∧
      (pass2Go nodes radj fuel rem index st).order = st.order := by
  intro rem
  induction rem with
  | nil =>
    intro done index st fuel _ _ h1 h2 h3 h4 _ _
    exact ⟨h1, h2, h3, h4, fun w hw => absurd hw (List.not_mem_nil w),
      fun t h => h, fun f₂ _ => rfl, rfl, rfl, rfl⟩
  | cons r rem' ih =>
    intro done index st fuel hord hlen hSCC hIff hPW hND hrem hfuel
    have hrFO : r ∈ FO := by
      have : r ∈ FO.reverse := by
        rw [hord]
        exact List.mem_append.mpr (Or.inr (List.mem_cons_self r rem'))
      exact List.mem_reverse.mp this
    have hrn : r < n := (hFOmem r).mp hrFO
    have hFOdec : FO = rem'.reverse ++ r :: done.reverse := by
      have h := congrArg List.reverse hord
      rw [List.reverse_reverse, List.reverse_append, List.reverse_cons] at h
      rw [h, List.append_assoc]
      rfl
    have hrrem' : r ∉ rem' := by
      intro hr
      have hnd := hFOdec ▸ hFOnd
      rw [List.nodup_append] at hnd
      exact hnd.2.2 (List.mem_reverse.mpr hr) (List.mem_cons_self r _)
    have hidxr : FO.indexOf r = rem'.length := by
      rw [hFOdec, indexOf_append_cons_self _ _ _
        (fun h => hrrem' (List.mem_reverse.mp h))]
      exact List.length_reverse _
    have hidxw : ∀ w ∈ rem', FO.indexOf w < rem'.length := by
      intro w hw
      have hwrev : w ∈ rem'.reverse := List.mem_reverse.mpr hw
      rw [hFOdec, List.indexOf_append_of_mem hwrev]
      have h2 := List.indexOf_lt_length.mpr hwrev
      rw [List.length_reverse] at h2
      exact h2
    rw [pass2Go]
    dsimp only
    split
    next hvis =>
      have hvr : vis2 st r := hvis
      obtain ⟨p1, p2, p3, p4, p5, p6, p7, p8, p9, p10⟩ := ih (done ++ [r])
        (index + 1)
        (pushFrame { st with orderIndex := (index : Int),
                             activeNode := some r, activeEdge := none }
          s!"Pass 2: {klabel nodes r} already assigned, skip.")
        fuel
        (by rw [hord, List.append_assoc]; rfl)
        hlen hSCC hIff hPW hND
        (by
          intro w hwn hwv
          have hw2 : ¬ vis2 st w := hwv
          rcases List.mem_cons.mp (hrem w hwn hw2) with rfl | hw3
          · exact absurd hvr hw2
          · exact hw3)
        hfuel
      refine ⟨p1, p2, p3, p4, ?_, p6, ?_, p8, p9, p10⟩
      · intro w hw
        rcases List.mem_cons.mp hw with rfl | hw2
        · exact p6 w hvr
        · exact p5 w hw2
      · intro f₂ hf₂
        rw [pass2Go]
        dsimp only
        split
        next h2 => exact p7 f₂ hf₂
        next h2 => exact absurd hvis h2
    next hnvis =>
      have hnvr : ¬ vis2 st r := hnvis
      obtain ⟨M, hD⟩ := dfs2_master nodes radj n HA2 fuel r
        (pushFrame { st with orderIndex := (index : Int),
                             currentComponent := [], stack := [],
                             activeNode := some r, activeEdge := none }
          s!"Pass 2: start new SCC from {klabel nodes r}.")
        hlen hrn hnvr hfuel
      -- the collected component is exactly the strong component of `r`
      have hM : ∀ t, t ∈ M ↔ MutA adj r t := by
        intro t
        rw [hD.mra t]
        constructor
        · intro hra
          have hrt : ReachA adj t r := reachA_flip hflip (RAvoid.toReachA hra)
          by_cases htr : t = r
          · subst htr
            exact MutA.rfl
          · have hnvt : ¬ vis2 st t := by
              rcases RAvoid_target hra with rfl | hna
              · exact absurd rfl htr
              · exact hna
            have htn : t < n := by
              rcases Relation.ReflTransGen.cases_tail hra with he | ⟨c, _, hc⟩
              · exact absurd he htr
              · exact HA2 c t hc.1
            obtain ⟨hrFO2, w, hwFO, hmut, hidx⟩ :=
              hKL t ((hFOmem t).mpr htn) r hrt
            have hnvw : ¬ vis2 st w := by
              intro hvw
              obtain ⟨c, hc, hwc⟩ := (hIff w).mp hvw
              obtain ⟨r', _, hr'⟩ := hSCC c hc
              have h1 : MutA adj r' w := (hr' w).mp hwc
              have h2 : MutA adj r' t := h1.comp hmut.symm
              exact hnvt ((hIff t).mpr ⟨c, hc, (hr' t).mpr h2⟩)
            have hwrem : w ∈ r :: rem' :=
              hrem w ((hFOmem w).mp hwFO) hnvw
            have hwr : w = r := by
              rcases List.mem_cons.mp hwrem with rfl | hw2
              · rfl
              · have := hidxw w hw2
                rw [hidxr] at hidx
                omega
            subst hwr
            exact hmut.symm
        · intro hmut
          refine reach_rev_avoid hflip (vis2 st) hmut.2 ?_
          intro z hz1 hz2
          intro hvz
          obtain ⟨c, hc, hzc⟩ := (hIff z).mp hvz
          obtain ⟨r', _, hr'⟩ := hSCC c hc
          have h1 : MutA adj r' z := (hr' z).mp hzc
          have hMutrz : MutA adj r z := ⟨hmut.1.trans hz1, hz2⟩
          have h2 : MutA adj r' r := h1.comp hMutrz.symm
          exact hnvr ((hIff r).mpr ⟨c, hc, (hr' r).mpr h2⟩)
      have hMnv : ∀ y ∈ M, ¬ vis2 st y := by
        intro y hy
        have hra := (hD.mra y).mp hy
        rcases RAvoid_target hra with rfl | hna
        · exact hnvr
        · exact hna
      have hrM : r ∈ M := (hM r).mpr MutA.rfl
      have hsccs3 : (dfs2 nodes radj fuel r
          (pushFrame { st with orderIndex := (index : Int),
                               currentComponent := [], stack := [],
                               activeNode := some r, activeEdge := none }
            s!"Pass 2: start new SCC from {klabel nodes r}.")).sccs =
          st.sccs := by
        rw [hD.sccs_eq]
        rfl
      have hccM : (dfs2 nodes radj fuel r
          (pushFrame { st with orderIndex := (index : Int),
                               currentComponent := [], stack := [],
                               activeNode := some r, activeEdge := none }
            s!"Pass 2: start new SCC from {klabel nodes r}.")).currentComponent
          = M := by
        rw [hD.cc]
        rfl
      have hμ3 : unvis2 (dfs2 nodes radj fuel r
          (pushFrame { st with orderIndex := (index : Int),
                               currentComponent := [], stack := [],
                               activeNode := some r, activeEdge := none }
            s!"Pass 2: start new SCC from {klabel nodes r}.")) ≤ unvis2 st := by
        have h1 := hD.mu
        have h2 : unvis2 (pushFrame { st with orderIndex := (index : Int),
                                              currentComponent := [],
                                              stack := [],
                                              activeNode := some r,
                                              activeEdge := none }
            s!"Pass 2: start new SCC from {klabel nodes r}.") = unvis2 st := rfl
        omega
      obtain ⟨p1, p2, p3, p4, p5, p6, p7, p8, p9, p10⟩ := ih (done ++ [r])
        (index + 1)
        (pushFrame
          { dfs2 nodes radj fuel r
              (pushFrame { st with orderIndex := (index : Int),
                                   currentComponent := [], stack := [],
                                   activeNode := some r, activeEdge := none }
                s!"Pass 2: start new SCC from {klabel nodes r}.") with
            sccs :=
              (dfs2 nodes radj fuel r
                (pushFrame { st with orderIndex := (index : Int),
                                     currentComponent := [], stack := [],
                                     activeNode := some r,
                                     activeEdge := none }
                  s!"Pass 2: start new SCC from {klabel nodes r}.")).sccs ++
                [(dfs2 nodes radj fuel r
                  (pushFrame { st with orderIndex := (index : Int),
                                       currentComponent := [], stack := [],
                                       activeNode := some r,
                                       activeEdge := none }
                    s!"Pass 2: start new SCC from {klabel nodes r}.")).currentComponent],
            stack := [], activeNode := some r, activeEdge := none }
          (toString "Pass 2: complete SCC #" ++
            toString ((dfs2 nodes radj fuel r
              (pushFrame { st with orderIndex := (index : Int),
                                   currentComponent := [], stack := [],
                                   activeNode := some r, activeEdge := none }
                s!"Pass 2: start new SCC from {klabel nodes r}.")).sccs ++
                [(dfs2 nodes radj fuel r
                  (pushFrame { st with orderIndex := (index : Int),
                                       currentComponent := [], stack := [],
                                       activeNode := some r,
                                       activeEdge := none }
                    s!"Pass 2: start new SCC from {klabel nodes r}.")).currentComponent]).length ++
            toString ": " ++
            toString (String.intercalate ", "
            (((dfs2 nodes radj fuel r
              (pushFrame { st with orderIndex := (index : Int),
                                   currentComponent := [], stack := [],
                                   activeNode := some r, activeEdge := none }
                s!"Pass 2: start new SCC from {klabel nodes r}.")).currentComponent).map (klabel nodes))) ++
            toString "."))
        fuel
        (by rw [hord, List.append_assoc]; rfl)
        (by
          show (dfs2 nodes radj fuel r
            (pushFrame { st with orderIndex := (index : Int),
                                 currentComponent := [], stack := [],
                                 activeNode := some r, activeEdge := none }
              s!"Pass 2: start new SCC from {klabel nodes r}.")).visited2.length = n
          rw [hD.vlen]
          exact hlen)
        (by
          intro c hc
          have hc2 : c ∈ (dfs2 nodes radj fuel r
            (pushFrame { st with orderIndex := (index : Int),
                                 currentComponent := [], stack := [],
                                 activeNode := some r, activeEdge := none }
              s!"Pass 2: start new SCC from {klabel nodes r}.")).sccs ++
              [(dfs2 nodes radj fuel r
                (pushFrame { st with orderIndex := (index : Int),
                                     currentComponent := [], stack := [],
                                     activeNode := some r,
                                     activeEdge := none }
                  s!"Pass 2: start new SCC from {klabel nodes r}.")).currentComponent] := hc
          rw [hsccs3, hccM] at hc2
          rcases List.mem_append.mp hc2 with hc3 | hc3
          · exact hSCC c hc3
          · rw [List.mem_singleton.mp hc3]
            exact ⟨r, hrn, hM⟩)
        (by
          intro t
          show vis2 (dfs2 nodes radj fuel r
            (pushFrame { st with orderIndex := (index : Int),
                                 currentComponent := [], stack := [],
                                 activeNode := some r, activeEdge := none }
              s!"Pass 2: start new SCC from {klabel nodes r}.")) t ↔ _
          rw [hD.vnew t]
          constructor
          · rintro (hv | hv)
            · obtain ⟨c, hc, htc⟩ := (hIff t).mp hv
              refine ⟨c, ?_, htc⟩
              show c ∈ _ ++ [_]
              rw [hsccs3, hccM]
              exact List.mem_append.mpr (Or.inl hc)
            · refine ⟨M, ?_, hv⟩
              show M ∈ _ ++ [_]
              rw [hsccs3, hccM]
              exact List.mem_append.mpr
                (Or.inr (List.mem_singleton_self M))
          · rintro ⟨c, hc, htc⟩
            have hc2 : c ∈ (dfs2 nodes radj fuel r
              (pushFrame { st with orderIndex := (index : Int),
                                   currentComponent := [], stack := [],
                                   activeNode := some r,
                                   activeEdge := none }
                s!"Pass 2: start new SCC from {klabel nodes r}.")).sccs ++
                [(dfs2 nodes radj fuel r
                  (pushFrame { st with orderIndex := (index : Int),
                                       currentComponent := [], stack := [],
                                       activeNode := some r,
                                       activeEdge := none }
                    s!"Pass 2: start new SCC from {klabel nodes r}.")).currentComponent] := hc
            rw [hsccs3, hccM] at hc2
            rcases List.mem_append.mp hc2 with hc3 | hc3
            · exact Or.inl ((hIff t).mpr ⟨c, hc3, htc⟩)
            · rw [List.mem_singleton.mp hc3] at htc
              exact Or.inr htc)
        (by
          show List.Pairwise _ ((dfs2 nodes radj fuel r
            (pushFrame { st with orderIndex := (index : Int),
                                 currentComponent := [], stack := [],
                                 activeNode := some r, activeEdge := none }
              s!"Pass 2: start new SCC from {klabel nodes r}.")).sccs ++
              [(dfs2 nodes radj fuel r
                (pushFrame { st with orderIndex := (index : Int),
                                     currentComponent := [], stack := [],
                                     activeNode := some r,
                                     activeEdge := none }
                  s!"Pass 2: start new SCC from {klabel nodes r}.")).currentComponent])
          rw [hsccs3, hccM, List.pairwise_append]
          refine ⟨hPW, List.pairwise_singleton _ _, ?_⟩
          intro c hc d hd y hyc
          rw [List.mem_singleton.mp hd]
          intro hyM
          exact hMnv y hyM ((hIff y).mpr ⟨c, hc, hyc⟩))
        (by
          intro c hc
          have hc2 : c ∈ (dfs2 nodes radj fuel r
            (pushFrame { st with orderIndex := (index : Int),
                                 currentComponent := [], stack := [],
                                 activeNode := some r, activeEdge := none }
              s!"Pass 2: start new SCC from {klabel nodes r}.")).sccs ++
              [(dfs2 nodes radj fuel r
                (pushFrame { st with orderIndex := (index : Int),
                                     currentComponent := [], stack := [],
                                     activeNode := some r,
                                     activeEdge := none }
                  s!"Pass 2: start new SCC from {klabel nodes r}.")).currentComponent] := hc
          rw [hsccs3, hccM] at hc2
          rcases List.mem_append.mp hc2 with hc3 | hc3
          · exact hND c hc3
          · rw [List.mem_singleton.mp hc3]
            exact hD.mnd)
        (by
          intro w hwn hwv
          have hw2 : ¬ vis2 (dfs2 nodes radj fuel r
            (pushFrame { st with orderIndex := (index : Int),
                                 currentComponent := [], stack := [],
                                 activeNode := some r, activeEdge := none }
              s!"Pass 2: start new SCC from {klabel nodes r}.")) w := hwv
          rw [hD.vnew w] at hw2
          push_neg at hw2
          have hw3 : ¬ vis2 st w := hw2.1
          rcases List.mem_cons.mp (hrem w hwn hw3) with rfl | hw4
          · exact absurd hrM hw2.2
          · exact hw4)
        (le_trans hμ3 hfuel)
      refine ⟨p1, p2, p3, p4, ?_, ?_, ?_, ?_, ?_, ?_⟩
      · intro w hw
        rcases List.mem_cons.mp hw with hw1 | hw2
        · rw [hw1]
          refine p6 r ?_
          show vis2 (dfs2 nodes radj fuel r
            (pushFrame { st with orderIndex := (index : Int),
                                 currentComponent := [], stack := [],
                                 activeNode := some r, activeEdge := none }
              s!"Pass 2: start new SCC from {klabel nodes r}.")) r
          rw [hD.vnew r]
          exact Or.inr hrM
        · exact p5 w hw2
      · intro t ht
        refine p6 t ?_
        show vis2 (dfs2 nodes radj fuel r
          (pushFrame { st with orderIndex := (index : Int),
                               currentComponent := [], stack := [],
                               activeNode := some r, activeEdge := none }
            s!"Pass 2: start new SCC from {klabel nodes r}.")) t
        rw [hD.vnew t]
        exact Or.inl ht
      · intro f₂ hf₂
        rw [pass2Go]
        dsimp only
        split
        next h2 => exact absurd h2 hnvis
        next h2 =>
          rw [hD.same f₂ hf₂]
          exact p7 f₂ (le_trans hμ3 hf₂)
      · refine Eq.trans p8 ?_
        show (dfs2 nodes radj fuel r
          (pushFrame { st with orderIndex := (index : Int),
                               currentComponent := [], stack := [],
                               activeNode := some r, activeEdge := none }
            s!"Pass 2: start new SCC from {klabel nodes r}.")).visited1 = _
        rw [hD.v1]
        rfl
      · refine Eq.trans p9 ?_
        show (dfs2 nodes radj fuel r
          (pushFrame { st with orderIndex := (index : Int),
                               currentComponent := [], stack := [],
                               activeNode := some r, activeEdge := none }
            s!"Pass 2: start new SCC from {klabel nodes r}.")).finishOrder = _
        rw [hD.fo]
        rfl
      · refine Eq.trans p10 ?_
        show (dfs2 nodes radj fuel r
          (pushFrame { st with orderIndex := (index : Int),
                               currentComponent := [], stack := [],
                               activeNode := some r, activeEdge := none }
            s!"Pass 2: start new SCC from {klabel nodes r}.")).order = _
        rw [hD.ord]
        rfl

/-- Assembled Kosaraju correctness: for valid edges the final component
list consists of duplicate-free full strong components (each with an
in-range root), covers every node, and is pairwise disjoint. -/
lemma finalSccs_spec (nodes : List String) (edges : List (Nat × Nat))
    (hvalid : ∀ e ∈ edges, e.1 < nodes.length ∧ e.2 < nodes.length) :
    (∀ c ∈ finalSccs nodes edges, c.Nodup ∧ ∃ r, r < nodes.length ∧
      ∀ w, w ∈ c ↔ (ReachE edges r w ∧ ReachE edges w r)) ∧
    (∀ x, x < nodes.length → ∃ c ∈ finalSccs nodes edges, x ∈ c) ∧
    List.Pairwise (fun c d => ∀ y ∈ c, y ∉ d) (finalSccs nodes edges) := by
  rcases hadj : buildAdjacency nodes.length edges with _ | adj
  · exfalso
    obtain ⟨e, he, hne⟩ := (buildAdjacency_none_iff _ _).mp hadj
    exact hne (hvalid e he).1
  rcases hradj : buildAdjacency nodes.length (reverseEdges edges)
    with _ | radj
  · exfalso
    obtain ⟨e, he, hne⟩ := (buildAdjacency_none_iff _ _).mp hradj
    have he2 : (e.2, e.1) ∈ edges := mem_reverseEdges.mp he
    exact hne (hvalid _ he2).2
  obtain ⟨hadjlen, hadjmem⟩ := buildAdjacency_spec _ _ _ hadj
  obtain ⟨hradjlen, hradjmem⟩ := buildAdjacency_spec _ _ _ hradj
  have HAadj : ∀ a b, EA adj a b → b < nodes.length := by
    intro a b hab
    exact (hvalid _ ((hadjmem a b).mp hab).1).2
  have HA2 : ∀ a b, EA radj a b → b < nodes.length := by
    intro a b hab
    have h := ((hradjmem a b).mp hab).1
    have h2 : (b, a) ∈ edges := mem_reverseEdges.mp h
    exact (hvalid _ h2).1
  have hflip : ∀ a b, EA radj a b ↔ EA adj b a := by
    intro a b
    constructor
    · intro h
      have h1 := (hradjmem a b).mp h
      have h2 : (b, a) ∈ edges := mem_reverseEdges.mp h1.1
      exact (hadjmem b a).mpr ⟨h2, (hvalid _ h2).1⟩
    · intro h
      have h1 := (hadjmem b a).mp h
      exact (hradjmem a b).mpr
        ⟨mem_reverseEdges.mpr h1.1, (hvalid _ h1.1).2⟩
  have hreachEq : ∀ u v, ReachE edges u v ↔ ReachA adj u v :=
    reachE_iff_reachA hadjmem hvalid
  have hInv0 : P1Inv nodes.length adj (kInit nodes.length) := by
    refine ⟨?_, ?_, ?_, ?_, ?_, ?_, ?_⟩
    · show (List.replicate nodes.length false).length = nodes.length
      exact List.length_replicate _ _
    · intro t
      show (List.replicate nodes.length false).getD t false = true ↔
        t ∈ ([] : List Nat) ∨ t ∈ ([] : List Nat)
      rw [getD_replicate_false]
      simp
    · intro x hx
      exact absurd hx (List.not_mem_nil x)
    · exact List.nodup_nil
    · exact List.nodup_nil
    · intro x hx
      exact absurd hx (List.not_mem_nil x)
    · intro u hu
      exact absurd hu (List.not_mem_nil u)
  have hμ0 : unvis1 (kInit nodes.length) ≤ nodes.length := by
    show (List.replicate nodes.length false).count false ≤ nodes.length
    exact le_trans (List.count_le_length _ _)
      (le_of_eq (List.length_replicate _ _))
  unfold finalSccs buildFrames buildFramesCore
  dsimp only
  rw [hadj, hradj]
  dsimp only
  rw [pushFrame_frames, List.getLastD_concat]
  dsimp only
  obtain ⟨q1, q2, q3, q4, q5, q6, q7, q8, q9, q10⟩ :=
    pass1Go_master nodes adj nodes.length HAadj (List.range nodes.length)
      (kInit nodes.length) nodes.length hInv0 rfl
      (fun i hi => List.mem_range.mp hi) hμ0
  set stA := pass1Go nodes adj nodes.length (List.range nodes.length)
    (kInit nodes.length) with hstAdef
  have hFOnd : stA.finishOrder.Nodup := q1.fnd
  have hFOmem : ∀ t, t ∈ stA.finishOrder ↔ t < nodes.length := by
    intro t
    constructor
    · intro ht
      have hv := (q1.viff t).mpr (Or.inl ht)
      have h2 := vis1_lt_length hv
      rw [q1.vlen] at h2
      exact h2
    · intro ht
      have hv := q4 t (List.mem_range.mpr ht)
      rcases (q1.viff t).mp hv with h | h
      · exact h
      · rw [q2] at h
        exact absurd h (List.not_mem_nil t)
  have hKL : ∀ u ∈ stA.finishOrder, ∀ v, ReachA adj u v →
      v ∈ stA.finishOrder ∧ ∃ w ∈ stA.finishOrder, MutA adj u w ∧
        stA.finishOrder.indexOf v ≤ stA.finishOrder.indexOf w := by
    intro u hu v huv
    rcases q1.kinv u hu v huv with h | ⟨g, hg, _⟩
    · exact h
    · rw [q2] at hg
      exact absurd hg (List.not_mem_nil g)
  have hlenD : (List.replicate nodes.length false).length = nodes.length :=
    List.length_replicate _ _
  have hvis2A : ∀ t, ¬ vis2 stA t := by
    intro t hv
    have hv2 : stA.visited2.getD t false = true := hv
    rw [q7] at hv2
    have hv3 : (List.replicate nodes.length false).getD t false = true := hv2
    rw [getD_replicate_false] at hv3
    exact Bool.false_ne_true hv3
  obtain ⟨r1, r2, r3, r4, r5, r6, r7, r8, r9, r10⟩ :=
    pass2Go_master nodes adj radj nodes.length stA.finishOrder HA2 hflip
      hFOnd hFOmem hKL stA.finishOrder.reverse [] 0
      ({ pushFrame
          { stA with phase := KPhase.rev,
                     order := stA.finishOrder.reverse, stack := [],
                     activeNode := none, activeEdge := none,
                     orderIndex := -1 }
          (toString "Reverse graph and process nodes by finish order: " ++
            toString (String.intercalate ", "
              (stA.finishOrder.reverse.map (klabel nodes))) ++
            toString ".") with
        phase := KPhase.pass2 })
      nodes.length rfl
      (by
        show stA.visited2.length = nodes.length
        rw [q7]
        show (List.replicate nodes.length false).length = nodes.length
        exact hlenD)
      (by
        intro c hc
        have hc2 : c ∈ stA.sccs := hc
        rw [q8] at hc2
        exact absurd hc2 (List.not_mem_nil c))
      (by
        intro t
        constructor
        · intro hv
          exact absurd hv (hvis2A t)
        · rintro ⟨c, hc, _⟩
          have hc2 : c ∈ stA.sccs := hc
          rw [q8] at hc2
          exact absurd hc2 (List.not_mem_nil c))
      (by
        show List.Pairwise _ stA.sccs
        rw [q8]
        exact List.Pairwise.nil)
      (by
        intro c hc
        have hc2 : c ∈ stA.sccs := hc
        rw [q8] at hc2
        exact absurd hc2 (List.not_mem_nil c))
      (by
        intro w hw _
        exact List.mem_reverse.mpr ((hFOmem w).mpr hw))
      (by
        show stA.visited2.count false ≤ nodes.length
        rw [q7]
        show (List.replicate nodes.length false).count false ≤ nodes.length
        exact le_trans (List.count_le_length _ _) (le_of_eq hlenD))
  refine ⟨?_, ?_, ?_⟩
  · intro c hc
    obtain ⟨r0, hr0n, hr0⟩ := r1 c hc
    refine ⟨r4 c hc, r0, hr0n, ?_⟩
    intro w
    rw [hr0 w]
    unfold MutA
    rw [hreachEq r0 w, hreachEq w r0]
  · intro x hx
    have hv := r5 x (List.mem_reverse.mpr ((hFOmem x).mpr hx))
    exact (r2 x).mp hv
  · exact r3

/-- **C1.** For every graph whose edge endpoints all lie in `[0, n)`, the
SCC tracer succeeds, its final frame's component list is the `finalSccs`
list, and that list is a partition of the nodes (nonempty, duplicate-free,
in-range, covering, pairwise-disjoint components) in which two nodes share
a component exactly when each reaches the other along forward edges. -/
theorem scc_tracer_partitions_into_sccs (nodes : List String)
    (edges : List (Nat × Nat))
    (hvalid : ∀ e ∈ edges, e.1 < nodes.length ∧ e.2 < nodes.length) :
    (∃ r, buildFrames nodes edges = some r ∧
      (r.1.getLastD kfDefault).sccs = finalSccs nodes edges) ∧
    (∀ c ∈ finalSccs nodes edges, c ≠ [] ∧ c.Nodup ∧
      ∀ x ∈ c, x < nodes.length) ∧
    (∀ x, x < nodes.length → ∃ c ∈ finalSccs nodes edges, x ∈ c) ∧
    List.Pairwise (fun c d => ∀ y ∈ c, y ∉ d) (finalSccs nodes edges) ∧
    (∀ u v, u < nodes.length → v < nodes.length →
      ((∃ c ∈ finalSccs nodes edges, u ∈ c ∧ v ∈ c) ↔
        (ReachE edges u v ∧ ReachE edges v u))) := by
  obtain ⟨hchar, hcover, hdisj⟩ := finalSccs_spec nodes edges hvalid
  refine ⟨?_, ?_, hcover, hdisj, ?_⟩
  · rcases hadj : buildAdjacency nodes.length edges with _ | adj
    · exfalso
      obtain ⟨e, he, hne⟩ := (buildAdjacency_none_iff _ _).mp hadj
      exact hne (hvalid e he).1
    rcases hradj : buildAdjacency nodes.length (reverseEdges edges)
      with _ | radj
    · exfalso
      obtain ⟨e, he, hne⟩ := (buildAdjacency_none_iff _ _).mp hradj
      exact hne (hvalid _ (mem_reverseEdges.mp he)).2
    have hbf : ∃ r, buildFrames nodes edges = some r := by
      unfold buildFrames buildFramesCore
      dsimp only
      rw [hadj, hradj]
      exact ⟨_, rfl⟩
    obtain ⟨r, hr⟩ := hbf
    obtain ⟨frames, rev⟩ := r
    refine ⟨(frames, rev), hr, ?_⟩
    unfold finalSccs
    rw [hr]
  · intro c hc
    obtain ⟨hnd, r0, hr0n, hch⟩ := hchar c hc
    have hr0c : r0 ∈ c := (hch r0).mpr
      ⟨Relation.ReflTransGen.refl, Relation.ReflTransGen.refl⟩
    refine ⟨List.ne_nil_of_mem hr0c, hnd, ?_⟩
    intro x hxc
    obtain ⟨h1, _⟩ := (hch x).mp hxc
    rcases Relation.ReflTransGen.cases_tail h1 with he | ⟨a, _, ha⟩
    · exact he ▸ hr0n
    · exact (hvalid _ ha).2
  · intro u v hu hv
    constructor
    · rintro ⟨c, hc, huc, hvc⟩
      obtain ⟨_, r0, _, hch⟩ := hchar c hc
      obtain ⟨h1, h2⟩ := (hch u).mp huc
      obtain ⟨h3, h4⟩ := (hch v).mp hvc
      exact ⟨h2.trans h3, h4.trans h1⟩
    · rintro ⟨h1, h2⟩
      obtain ⟨c, hc, huc⟩ := hcover u hu
      obtain ⟨_, r0, _, hch⟩ := hchar c hc
      obtain ⟨h3, h4⟩ := (hch u).mp huc
      exact ⟨c, hc, huc, (hch v).mpr ⟨h3.trans h1, h2.trans h4⟩⟩

/-- Instance of the SCC correctness theorem on the spec's bridge preset
(two 3-cycles joined by a bridge). -/
theorem scc_tracer_partitions_into_sccs_inst :
    (∀ e ∈ [((0 : Nat), (1 : Nat)), (1, 2), (2, 0), (2, 3), (3, 4),
        (4, 5), (5, 3)],
      e.1 < (["A", "B", "C", "D", "E", "F"] : List String).length ∧
      e.2 < (["A", "B", "C", "D", "E", "F"] : List String).length) ∧
    ((∃ r, buildFrames ["A", "B", "C", "D", "E", "F"]
        [(0, 1), (1, 2), (2, 0), (2, 3), (3, 4), (4, 5), (5, 3)] = some r ∧
      (r.1.getLastD kfDefault).sccs = finalSccs ["A", "B", "C", "D", "E", "F"]
        [(0, 1), (1, 2), (2, 0), (2, 3), (3, 4), (4, 5), (5, 3)]) ∧
    (∀ c ∈ finalSccs ["A", "B", "C", "D", "E", "F"]
        [(0, 1), (1, 2), (2, 0), (2, 3), (3, 4), (4, 5), (5, 3)],
      c ≠ [] ∧ c.Nodup ∧
      ∀ x ∈ c, x < (["A", "B", "C", "D", "E", "F"] : List String).length) ∧
    (∀ x, x < (["A", "B", "C", "D", "E", "F"] : List String).length →
      ∃ c ∈ finalSccs ["A", "B", "C", "D", "E", "F"]
        [(0, 1), (1, 2), (2, 0), (2, 3), (3, 4), (4, 5), (5, 3)], x ∈ c) ∧
    List.Pairwise (fun c d => ∀ y ∈ c, y ∉ d)
      (finalSccs ["A", "B", "C", "D", "E", "F"]
        [(0, 1), (1, 2), (2, 0), (2, 3), (3, 4), (4, 5), (5, 3)]) ∧
    (∀ u v, u < (["A", "B", "C", "D", "E", "F"] : List String).length →
      v < (["A", "B", "C", "D", "E", "F"] : List String).length →
      ((∃ c ∈ finalSccs ["A", "B", "C", "D", "E", "F"]
          [(0, 1), (1, 2), (2, 0), (2, 3), (3, 4), (4, 5), (5, 3)],
        u ∈ c ∧ v ∈ c) ↔
        (ReachE [(0, 1), (1, 2), (2, 0), (2, 3), (3, 4), (4, 5), (5, 3)] u v ∧
         ReachE [(0, 1), (1, 2), (2, 0), (2, 3), (3, 4), (4, 5), (5, 3)] v u)))) :=
  ⟨by decide, scc_tracer_partitions_into_sccs
    ["A", "B", "C", "D", "E", "F"]
    [(0, 1), (1, 2), (2, 0), (2, 3), (3, 4), (4, 5), (5, 3)] (by decide)⟩

/-- `buildFramesCore` is insensitive to the fuel parameter once it covers
the node count: the visited guards ensure each DFS pass visits every node
at most once, so recursion depth `n` always suffices (the tracer
terminates on every input, self-loops and parallel edges included). -/
lemma buildFramesCore_stable (nodes : List String) (edges : List (Nat × Nat))
    (fuel : Nat) (hf : nodes.length ≤ fuel) :
    buildFramesCore nodes edges fuel = buildFrames nodes edges := by
  show buildFramesCore nodes edges fuel =
    buildFramesCore nodes edges nodes.length
  rcases hadj : buildAdjacency nodes.length edges with _ | adj
  · unfold buildFramesCore
    dsimp only
    rw [hadj]
  · rcases hradj : buildAdjacency nodes.length (reverseEdges edges)
      with _ | radj
    · unfold buildFramesCore
      dsimp only
      rw [hadj, hradj]
    · have hvalid : ∀ e ∈ edges,
          e.1 < nodes.length ∧ e.2 < nodes.length := by
        intro e he
        constructor
        · by_contra hlt
          have hnone : buildAdjacency nodes.length edges = none :=
            (buildAdjacency_none_iff _ _).mpr ⟨e, he, hlt⟩
          rw [hadj] at hnone
          exact Option.noConfusion hnone
        · by_contra hlt
          have hrev : (e.2, e.1) ∈ reverseEdges edges :=
            mem_reverseEdges.mpr he
          have hnone : buildAdjacency nodes.length (reverseEdges edges) =
              none := (buildAdjacency_none_iff _ _).mpr ⟨(e.2, e.1), hrev, hlt⟩
          rw [hradj] at hnone
          exact Option.noConfusion hnone
      obtain ⟨hadjlen, hadjmem⟩ := buildAdjacency_spec _ _ _ hadj
      obtain ⟨hradjlen, hradjmem⟩ := buildAdjacency_spec _ _ _ hradj
      have HAadj : ∀ a b, EA adj a b → b < nodes.length := by
        intro a b hab
        exact (hvalid _ ((hadjmem a b).mp hab).1).2
      have HA2 : ∀ a b, EA radj a b → b < nodes.length := by
        intro a b hab
        have h := ((hradjmem a b).mp hab).1
        have h2 : (b, a) ∈ edges := mem_reverseEdges.mp h
        exact (hvalid _ h2).1
      have hflip : ∀ a b, EA radj a b ↔ EA adj b a := by
        intro a b
        constructor
        · intro h
          have h1 := (hradjmem a b).mp h
          have h2 : (b, a) ∈ edges := mem_reverseEdges.mp h1.1
          exact (hadjmem b a).mpr ⟨h2, (hvalid _ h2).1⟩
        · intro h
          have h1 := (hadjmem b a).mp h
          exact (hradjmem a b).mpr
            ⟨mem_reverseEdges.mpr h1.1, (hvalid _ h1.1).2⟩
      have hInv0 : P1Inv nodes.length adj (kInit nodes.length) := by
        refine ⟨?_, ?_, ?_, ?_, ?_, ?_, ?_⟩
        · show (List.replicate nodes.length false).length = nodes.length
          exact List.length_replicate _ _
        · intro t
          show (List.replicate nodes.length false).getD t false = true ↔
            t ∈ ([] : List Nat) ∨ t ∈ ([] : List Nat)
          rw [getD_replicate_false]
          simp
        · intro x hx
          exact absurd hx (List.not_mem_nil x)
        · exact List.nodup_nil
        · exact List.nodup_nil
        · intro x hx
          exact absurd hx (List.not_mem_nil x)
        · intro u hu
          exact absurd hu (List.not_mem_nil u)
      have hμ0 : unvis1 (kInit nodes.length) ≤ nodes.length := by
        show (List.replicate nodes.length false).count false ≤ nodes.length
        exact le_trans (List.count_le_length _ _)
          (le_of_eq (List.length_replicate _ _))
      obtain ⟨q1, q2, q3, q4, q5, q6, q7, q8, q9, q10⟩ :=
        pass1Go_master nodes adj nodes.length HAadj
          (List.range nodes.length) (kInit nodes.length) nodes.length
          hInv0 rfl (fun i hi => List.mem_range.mp hi) hμ0
      set stA := pass1Go nodes adj nodes.length (List.range nodes.length)
        (kInit nodes.length) with hstAdef
      have hFOnd : stA.finishOrder.Nodup := q1.fnd
      have hFOmem : ∀ t, t ∈ stA.finishOrder ↔ t < nodes.length := by
        intro t
        constructor
        · intro ht
          have hv := (q1.viff t).mpr (Or.inl ht)
          have h2 := vis1_lt_length hv
          rw [q1.vlen] at h2
          exact h2
        · intro ht
          have hv := q4 t (List.mem_range.mpr ht)
          rcases (q1.viff t).mp hv with h | h
          · exact h
          · rw [q2] at h
            exact absurd h (List.not_mem_nil t)
      have hKL : ∀ u ∈ stA.finishOrder, ∀ v, ReachA adj u v →
          v ∈ stA.finishOrder ∧ ∃ w ∈ stA.finishOrder, MutA adj u w ∧
            stA.finishOrder.indexOf v ≤ stA.finishOrder.indexOf w := by
        intro u hu v huv
        rcases q1.kinv u hu v huv with h | ⟨g, hg, _⟩
        · exact h
        · rw [q2] at hg
          exact absurd hg (List.not_mem_nil g)
      have hvis2A : ∀ t, ¬ vis2 stA t := by
        intro t hv
        have hv2 : stA.visited2.getD t false = true := hv
        rw [q7] at hv2
        have hv3 : (List.replicate nodes.length false).getD t false = true :=
          hv2
        rw [getD_replicate_false] at hv3
        exact Bool.false_ne_true hv3
      obtain ⟨r1, r2, r3, r4, r5, r6, r7, r8, r9, r10⟩ :=
        pass2Go_master nodes adj radj nodes.length stA.finishOrder HA2 hflip
          hFOnd hFOmem hKL stA.finishOrder.reverse [] 0
          ({ pushFrame
              { stA with phase := KPhase.rev,
                         order := stA.finishOrder.reverse, stack := [],
                         activeNode := none, activeEdge := none,
                         orderIndex := -1 }
              (toString "Reverse graph and process nodes by finish order: " ++
                toString (String.intercalate ", "
                  (stA.finishOrder.reverse.map (klabel nodes))) ++
                toString ".") with
            phase := KPhase.pass2 })
          nodes.length rfl
          (by
            show stA.visited2.length = nodes.length
            rw [q7]
            show (List.replicate nodes.length false).length = nodes.length
            exact List.length_replicate _ _)
          (by
            intro c hc
            have hc2 : c ∈ stA.sccs := hc
            rw [q8] at hc2
            exact absurd hc2 (List.not_mem_nil c))
          (by
            intro t
            constructor
            · intro hv
              exact absurd hv (hvis2A t)
            · rintro ⟨c, hc, _⟩
              have hc2 : c ∈ stA.sccs := hc
              rw [q8] at hc2
              exact absurd hc2 (List.not_mem_nil c))
          (by
            show List.Pairwise _ stA.sccs
            rw [q8]
            exact List.Pairwise.nil)
          (by
            intro c hc
            have hc2 : c ∈ stA.sccs := hc
            rw [q8] at hc2
            exact absurd hc2 (List.not_mem_nil c))
          (by
            intro w hw _
            exact List.mem_reverse.mpr ((hFOmem w).mpr hw))
          (by
            show stA.visited2.count false ≤ nodes.length
            rw [q7]
            show (List.replicate nodes.length false).count false ≤
              nodes.length
            exact le_trans (List.count_le_length _ _)
              (le_of_eq (List.length_replicate _ _)))
      unfold buildFramesCore
      dsimp only
      rw [hadj, hradj]
      dsimp only
      rw [q6 fuel (le_trans hμ0 hf)]
      rw [r7 fuel (by
        show stA.visited2.count false ≤ fuel
        rw [q7]
        have h1 : (List.replicate nodes.length false).count false ≤
            nodes.length := le_trans (List.count_le_length _ _)
          (le_of_eq (List.length_replicate _ _))
        exact le_trans h1 hf)]

/-- **C8.** The SCC tracer terminates on every input, self-loops and
parallel edges included: the embedded recursion-depth bound `n` always
suffices because each pass's visited guard is checked before any descent
(any larger bound yields the identical run).  Moreover, for a valid edge
list containing a self-loop `(v, v)`, node `v`'s component still satisfies
the mutual-reachability property. -/
theorem scc_tracer_terminates_and_self_loops :
    (∀ (nodes : List String) (edges : List (Nat × Nat)) (fuel : Nat),
      nodes.length ≤ fuel →
      buildFramesCore nodes edges fuel = buildFrames nodes edges) ∧
    (∀ (nodes : List String) (edges : List (Nat × Nat)) (v : Nat),
      (∀ e ∈ edges, e.1 < nodes.length ∧ e.2 < nodes.length) →
      (v, v) ∈ edges →
      (∃ r, buildFrames nodes edges = some r) ∧
      ∃ c ∈ finalSccs nodes edges, v ∈ c ∧
        ∀ u ∈ c, ∀ w ∈ c, ReachE edges u w ∧ ReachE edges w u) := by
  constructor
  · exact fun nodes edges fuel hf => buildFramesCore_stable nodes edges fuel hf
  · intro nodes edges v hvalid hvv
    obtain ⟨hchar, hcover, _⟩ := finalSccs_spec nodes edges hvalid
    have hvn : v < nodes.length := (hvalid _ hvv).1
    obtain ⟨c, hc, hvc⟩ := hcover v hvn
    refine ⟨?_, c, hc, hvc, ?_⟩
    · rcases hadj : buildAdjacency nodes.length edges with _ | adj
      · exfalso
        obtain ⟨e, he, hne⟩ := (buildAdjacency_none_iff _ _).mp hadj
        exact hne (hvalid e he).1
      rcases hradj : buildAdjacency nodes.length (reverseEdges edges)
        with _ | radj
      · exfalso
        obtain ⟨e, he, hne⟩ := (buildAdjacency_none_iff _ _).mp hradj
        exact hne (hvalid _ (mem_reverseEdges.mp he)).2
      unfold buildFrames buildFramesCore
      dsimp only
      rw [hadj, hradj]
      exact ⟨_, rfl⟩
    · intro u hu w hw
      obtain ⟨_, r0, _, hch⟩ := hchar c hc
      obtain ⟨h1, h2⟩ := (hch u).mp hu
      obtain ⟨h3, h4⟩ := (hch w).mp hw
      exact ⟨h2.trans h3, h4.trans h1⟩

/-- Instance of the termination/self-loop theorem: a two-node graph with a
self-loop on node 0; extra fuel changes nothing, and 0's component is
mutually reachable. -/
theorem scc_tracer_terminates_and_self_loops_inst :
    (buildFramesCore ["A", "B"] [(0, 0), (0, 1)] 5 =
      buildFrames ["A", "B"] [(0, 0), (0, 1)]) ∧
    ((∃ r, buildFrames ["A", "B"] [(0, 0), (0, 1)] = some r) ∧
      ∃ c ∈ finalSccs ["A", "B"] [(0, 0), (0, 1)], 0 ∈ c ∧
        ∀ u ∈ c, ∀ w ∈ c,
          ReachE [(0, 0), (0, 1)] u w ∧ ReachE [(0, 0), (0, 1)] w u) :=
  ⟨scc_tracer_terminates_and_self_loops.1 ["A", "B"] [(0, 0), (0, 1)] 5
      (by decide),
   scc_tracer_terminates_and_self_loops.2 ["A", "B"] [(0, 0), (0, 1)] 0
      (by decide) (by decide)⟩

end MLRepo
